import Mathlib

/-!
Shallow embedding of the movable-tree CRDT library (Rust sources in `src/`):
`lib.rs` (identity, ops, rendering, replica facade), `evan.rs` (Algorithm-E,
the edge-set CRDT), `martin.rs` (Algorithm-M, the sorted-op-log CRDT).

Modelling conventions, used consistently below:
* `u32` / `u64` values (lamport clocks, peer ids, counters) are modelled as
  `Nat`.  No arithmetic in the library can overflow below 2^32 operations, so
  wrap-around is not modelled.
* Rust `HashMap` / `FxHashMap` values are modelled as association lists in
  insertion order (`assocGet` is first-match lookup, `assocInsert` updates the
  first matching entry in place and otherwise appends, exactly the observable
  behaviour of `HashMap::insert`; `assocEntryOr` is `entry().or_insert`).
  Hash-map iteration order is unspecified in Rust; insertion order is the
  deterministic refinement used here.  Every result that depends on the order
  is either proved order-independent or flagged where it is not.
* Panicking code paths (`unwrap`, `expect`, `assert!`, `unreachable!`, the
  `panic!("loop detected")` in the ancestor walk) return `none`; partial
  functions therefore have `Option` results.
* Loops that walk parent pointers can diverge in Rust on a cyclic map.  They
  are given fuel `number of keys + 2`: a terminating Rust walk never revisits
  a node, so it takes at most `keys + 1` steps and the fuel is never exhausted
  on inputs where the Rust code terminates; exhausted fuel models divergence.
-/

/-- `NodeID` from `lib.rs` (also standing in for `ID`, which has the same
fields and order; `ID::into::<NodeID>` is the identity). Order is the derived
lexicographic order on `(lamport, peer)`. -/
structure NodeID where
  lamport : Nat
  peer : Nat
deriving DecidableEq, Repr

/-- `ROOT_ID` from `lib.rs`: `(u32::MAX, u64::MAX)`. -/
def ROOT_ID : NodeID := ⟨4294967295, 18446744073709551615⟩

/-- The derived `Ord` of `NodeID`: lexicographic on `(lamport, peer)`. -/
def NodeID.cmp (a b : NodeID) : Ordering :=
  (compare a.lamport b.lamport).then (compare a.peer b.peer)

/-- `TreeOp` from `lib.rs`, with the optional `counter` field of the spec's
wire form (§3): the facade stamps `0`, Algorithm-E overwrites it when
amplifying a local move, Algorithm-M ignores it. -/
inductive TreeOp where
  | create (parent : NodeID)
  | move (target : NodeID) (parent : NodeID) (counter : Nat)
deriving DecidableEq, Repr

/-- `Op` from `lib.rs`.  Rust equality/order on `Op` is by `id` alone; the
sort and minimum used by Algorithm-M compare ids (`NodeID.cmp`). -/
structure Op where
  id : NodeID
  op : TreeOp
deriving DecidableEq, Repr

/-- First-match lookup in an association list (`HashMap::get`). -/
def assocGet {α β : Type} [DecidableEq α] : List (α × β) → α → Option β
  | [], _ => none
  | (k, v) :: rest, key => if k = key then some v else assocGet rest key

/-- `HashMap::contains_key`. -/
def assocContains {α β : Type} [DecidableEq α] (l : List (α × β)) (key : α) : Bool :=
  (assocGet l key).isSome

/-- `HashMap::insert`: replace the value of an existing key in place,
otherwise append a new entry. -/
def assocInsert {α β : Type} [DecidableEq α] : List (α × β) → α → β → List (α × β)
  | [], key, v => [(key, v)]
  | (k, w) :: rest, key, v =>
    if k = key then (k, v) :: rest else (k, w) :: assocInsert rest key v

/-- `HashMap::entry(key).or_insert(v)`: insert only if the key is absent. -/
def assocEntryOr {α β : Type} [DecidableEq α] (l : List (α × β)) (key : α) (v : β) :
    List (α × β) :=
  if assocContains l key then l else l ++ [(key, v)]

/-- `map.entry(key).or_default().extend(items)` on a map of lists. -/
def assocPushList {α β : Type} [DecidableEq α] (l : List (α × List β)) (key : α)
    (items : List β) : List (α × List β) :=
  match assocGet l key with
  | some old => assocInsert l key (old ++ items)
  | none => l ++ [(key, items)]

/-- `HashMap::remove(key)`: the removed value (if any) and the remaining map. -/
def assocRemove {α β : Type} [DecidableEq α] : List (α × β) → α → Option β × List (α × β)
  | [], _ => (none, [])
  | (k, v) :: rest, key =>
    if k = key then (some v, rest)
    else
      let r := assocRemove rest key
      (r.1, (k, v) :: r.2)

/-- `TreeNode` from `lib.rs`. -/
inductive TreeNode where
  | mk (id : NodeID) (children : List TreeNode)

def TreeNode.id : TreeNode → NodeID
  | .mk i _ => i

def TreeNode.children : TreeNode → List TreeNode
  | .mk _ c => c

mutual

/-- The derived `Ord` of `TreeNode`: lexicographic on `(id, children)`. -/
def TreeNode.cmp : TreeNode → TreeNode → Ordering
  | .mk i1 c1, .mk i2 c2 => (NodeID.cmp i1 i2).then (TreeNode.cmpList c1 c2)

/-- The derived `Ord` of `Vec<TreeNode>`: lexicographic list order. -/
def TreeNode.cmpList : List TreeNode → List TreeNode → Ordering
  | [], [] => .eq
  | [], _ :: _ => .lt
  | _ :: _, [] => .gt
  | a :: as_, b :: bs => (TreeNode.cmp a b).then (TreeNode.cmpList as_ bs)

end

/-- The `≤` relation of the derived `Ord` on `TreeNode`, used by
`children.sort()`. -/
def TreeNode.le (a b : TreeNode) : Prop := TreeNode.cmp a b ≠ .gt

instance : DecidableRel TreeNode.le := fun a b => by
  unfold TreeNode.le; infer_instance

/-- `children.sort()` from `TreeNode::build_tree`.  Rust's stable sort and
insertion sort agree on lists whose elements are pairwise distinct (always the
case for trees built from a map with distinct keys), and more generally any
two sorts agree up to the order of `Ord`-equal elements; `Ord`-equality on
`TreeNode` is structural equality, so the modelling is exact. -/
def sortTreeNodes (l : List TreeNode) : List TreeNode :=
  l.insertionSort TreeNode.le

/-- `TreeNode::build_tree` from `lib.rs`, with fuel standing in for the
unbounded recursion (the Rust code diverges on a cyclic parent map; fuel
`state.length + 1` is enough for every acyclic map, as the recursion depth is
bounded by the number of keys). -/
def TreeNode.build_tree : Nat → NodeID → List (NodeID × Option NodeID) → TreeNode
  | 0, node_id, _ => .mk node_id []
  | fuel + 1, node_id, state =>
    let children := state.filterMap (fun kv =>
      if kv.2 = some node_id then some (TreeNode.build_tree fuel kv.1 state) else none)
    .mk node_id (sortTreeNodes children)

/-- `TreeNode::from_state` from `lib.rs`.  `none` models the
`expect("No root node found")` panic.  The root is the first key mapping to
`None` in iteration order. -/
def TreeNode.from_state (state : List (NodeID × Option NodeID)) : Option TreeNode :=
  (state.find? (fun kv => kv.2 = none)).map (fun kv =>
    TreeNode.build_tree (state.length + 1) kv.1 state)

/-- `Display for NodeID` from `lib.rs`. -/
def NodeID.display (n : NodeID) : String :=
  if n = ROOT_ID then "ROOT"
  else "Node[ " ++ toString n.lamport ++ "@" ++ toString n.peer ++ " ]"

mutual

/-- `TreeNode::to_string(prefix, last)` from `lib.rs`. -/
def TreeNode.render : TreeNode → String → Bool → String
  | .mk id children, pre, last =>
    let connector := if last then "└── " else "├── "
    let s := pre ++ connector ++ id.display ++ "\n"
    let newPre := if last then pre ++ "    " else pre ++ "│   "
    s ++ TreeNode.renderChildren children newPre

/-- The `for (i, child)` loop of `TreeNode::to_string`: every child except the
last is rendered with `last = false`. -/
def TreeNode.renderChildren : List TreeNode → String → String
  | [], _ => ""
  | [c], pre => TreeNode.render c pre true
  | c :: rest, pre => TreeNode.render c pre false ++ TreeNode.renderChildren (rest) pre

end

/-! ## Algorithm-E (`evan.rs`) -/

/-- `EdgeCounter` from `evan.rs`. -/
structure EdgeCounter where
  counter : Nat
  lamport : Nat
  peer : Nat
deriving DecidableEq, Repr

/-- `Node` from `evan.rs`: the per-node record of Algorithm-E.  `edges` is the
monotone map of historical parent claims. -/
structure ENode where
  id : NodeID
  parent : Option NodeID
  edges : List (NodeID × EdgeCounter)
deriving DecidableEq, Repr

/-- `Node::largest_edge` from `evan.rs`: the edge maximal in
`(counter, parent NodeID)`.  Rust's `max_by` keeps the later of two
`Ordering::Equal` elements; equality of both the counter and the key is
impossible in a map with distinct keys, so keeping the earlier (as the fold
below does) is observably the same. -/
def largest_edge_of (edges : List (NodeID × EdgeCounter)) : Option NodeID :=
  (edges.foldl (fun best e =>
    match best with
    | none => some e
    | some b =>
      if ((compare e.2.counter b.2.counter).then (NodeID.cmp e.1 b.1)) = .gt
      then some e else some b) none).map (fun e => e.1)

def ENode.largest_edge (n : ENode) : Option NodeID :=
  largest_edge_of n.edges

/-- `EvanTree` from `evan.rs`. -/
structure EvanTree where
  nodes : List (NodeID × ENode)
deriving DecidableEq, Repr

/-- `EvanTree::default` / `EvanTree::new`. -/
def EvanTree.new : EvanTree :=
  ⟨[(ROOT_ID, ⟨ROOT_ID, none, []⟩)]⟩

/-- `MovableTreeAlgorithm::parent` for `EvanTree`. -/
def EvanTree.parent (t : EvanTree) (node : NodeID) : Option NodeID :=
  (assocGet t.nodes node).bind (fun n => n.parent)

/-- Fueled parent walk: `true` iff `other` is reached from `node` by parent
links within `fuel` steps. -/
def EvanTree.walk_reaches (t : EvanTree) : Nat → NodeID → NodeID → Bool
  | 0, _, _ => false
  | fuel + 1, node, other =>
    if node = other then true
    else
      match t.parent node with
      | none => false
      | some p => EvanTree.walk_reaches t fuel p other

/-- `EvanTree::is_under_other` from `evan.rs`.  The source uses a Floyd
tortoise/hare walk; the hare inspects every ancestor of `node` in order and
the cycle check can only fire after any reachable `other` has been seen, so
the walk returns `true` exactly when `other` is reachable by parent links and
`false` on a cycle that avoids `other` — which is what the fueled walk
computes (a terminating chain visits at most `keys + 1` nodes). -/
def EvanTree.is_under_other (t : EvanTree) (node other : NodeID) : Bool :=
  EvanTree.walk_reaches t (t.nodes.length + 2) node other

/-- `PQItem` from `evan.rs`. -/
structure PQItem where
  child : NodeID
  parent : NodeID
  counter : Nat
deriving DecidableEq, Repr

/-- `impl Ord for PQItem` from `evan.rs`: lexicographic on
`(counter, parent, child)`. -/
def PQItem.cmp (a b : PQItem) : Ordering :=
  ((compare a.counter b.counter).then (NodeID.cmp a.parent b.parent)).then
    (NodeID.cmp a.child b.child)

/-- `BinaryHeap::pop`: extract a maximal element (w.r.t. `PQItem.cmp`) and
return the rest.  `BinaryHeap` returns an unspecified maximal element when
several compare `Equal`; `PQItem.cmp` is `Equal` only on identical items, and
the recompute pass never holds two identical items, so extraction is
deterministic. -/
def extractMax : List PQItem → Option (PQItem × List PQItem)
  | [] => none
  | x :: xs =>
    match extractMax xs with
    | none => some (x, [])
    | some (m, rest) =>
      if PQItem.cmp x m = .gt then some (x, xs) else some (m, x :: rest)

theorem extractMax_cons_isSome (x : PQItem) (xs : List PQItem) :
    (extractMax (x :: xs)).isSome := by
  simp only [extractMax]
  cases extractMax xs with
  | none => simp
  | some p =>
    obtain ⟨m, r⟩ := p
    by_cases h : PQItem.cmp x m = .gt <;> simp [h]

theorem extractMax_eq_none {l : List PQItem} (h : extractMax l = none) : l = [] := by
  cases l with
  | nil => rfl
  | cons x xs => exact absurd h (by have := extractMax_cons_isSome x xs; simp_all)

theorem extractMax_length : ∀ {l : List PQItem} {m rest},
    extractMax l = some (m, rest) → rest.length + 1 = l.length := by
  intro l
  induction l with
  | nil => intro m rest h; simp [extractMax] at h
  | cons x xs ih =>
    intro m rest h
    simp only [extractMax] at h
    cases hx : extractMax xs with
    | none =>
      have hnil := extractMax_eq_none hx
      subst hnil
      rw [hx] at h
      simp at h
      obtain ⟨h1, h2⟩ := h
      subst h2
      rfl
    | some p =>
      rw [hx] at h
      obtain ⟨m0, rest0⟩ := p
      have hlen : rest0.length + 1 = xs.length := ih hx
      by_cases hc : PQItem.cmp x m0 = .gt
      · simp [hc] at h
        obtain ⟨h1, h2⟩ := h
        subst h2
        rfl
      · simp [hc] at h
        obtain ⟨h1, h2⟩ := h
        subst h2
        simp only [List.length_cons]
        omega

/-- Total number of deferred edges, the termination measure of the
re-attachment loop. -/
def deferredTotal (d : List (NodeID × List PQItem)) : Nat :=
  (d.map (fun kv => kv.2.length)).sum

theorem assocRemove_deferredTotal : ∀ (d : List (NodeID × List PQItem)) (key : NodeID),
    deferredTotal (assocRemove d key).2 +
      (((assocRemove d key).1.map (fun v => v.length)).getD 0) = deferredTotal d := by
  intro d key
  induction d with
  | nil => simp [assocRemove, deferredTotal]
  | cons kv rest ih =>
    obtain ⟨k, v⟩ := kv
    by_cases h : k = key
    · simp [assocRemove, h, deferredTotal]
      omega
    · simp only [assocRemove, h, if_false, deferredTotal, List.map_cons, List.sum_cons]
      simp only [deferredTotal] at ih
      omega

/-- `map.get_mut(key)` followed by a field update. -/
def assocModify {α β : Type} [DecidableEq α] : List (α × β) → α → (β → β) → List (α × β)
  | [], _, _ => []
  | (k, v) :: rest, key, f =>
    if k = key then (k, f v) :: rest else (k, v) :: assocModify rest key f

/-- The `while let Some(top) = ready_edges.pop()` loop of
`EvanTree::recompute_parent_children`: pop the maximal ready edge; if its
child is still floating, re-attach the child to that edge's parent, remove it
from the floating set and promote the deferred edges that were waiting on it.
The Rust `nodes.get_mut(&child).unwrap()` cannot fail because the floating set
is a subset of the key set; `assocModify` is a no-op in the impossible missing
case.  Each iteration removes one queue item and promotes each deferred item
into the queue at most once, so `queue.length + deferredTotal deferred`
strictly decreases (see `extractMax_length`, `assocRemove_deferredTotal`);
the fuel `queue.length + deferredTotal deferred + 1` supplied by the caller
is therefore never exhausted and the `0` case is unreachable. -/
def reattach_loop :
    Nat → List (NodeID × ENode) → List NodeID → List PQItem →
    List (NodeID × List PQItem) → List (NodeID × ENode) × List NodeID
  | 0, nodes, floating, _, _ => (nodes, floating)
  | fuel + 1, nodes, floating, queue, deferred =>
    match extractMax queue with
    | none => (nodes, floating)
    | some (top, rest) =>
      if top.child ∈ floating then
        let nodes2 := assocModify nodes top.child (fun n => { n with parent := some top.parent })
        let floating2 := floating.erase top.child
        let rem := assocRemove deferred top.child
        reattach_loop fuel nodes2 floating2 (rest ++ rem.1.getD []) rem.2
      else
        reattach_loop fuel nodes floating rest deferred

/-- `EvanTree::recompute_parent_children` from `evan.rs`, split into the
step-1 parent reset (`EvanTree.recompute_parent_children` below) and the
rest of the pass (`recompute_core`), which depends only on the keys, ids and
edge maps of its input.

Order-sensitivity notes (all resolved deterministically):
* the source's floating-node detection walks each node's ancestor chain with a
  memo set; the set it produces is exactly the set of keys from which `ROOT`
  is unreachable (every node on the parent chain of an unrooted node is itself
  unrooted), which the filter below computes directly;
* ready edges enter a `BinaryHeap` whose pops depend only on the heap's
  multiset of items, and deferred vectors are only ever re-pushed into the
  heap, so the iteration order of `non_rooted_nodes` is not observable. -/
def recompute_core (nodes1 : List (NodeID × ENode)) : EvanTree :=
  let t1 : EvanTree := ⟨nodes1⟩
  let non_rooted := (nodes1.map (fun kv => kv.1)).filter
      (fun id => ¬ t1.is_under_other id ROOT_ID)
  if non_rooted.isEmpty then t1
  else
    let start : List PQItem × List (NodeID × List PQItem) :=
      non_rooted.foldl (fun acc child =>
        match assocGet t1.nodes child with
        | none => acc
        | some node =>
          node.edges.foldl (fun acc2 e =>
            let item : PQItem := ⟨child, e.1, e.2.counter⟩
            if e.1 ∈ non_rooted then (acc2.1, assocPushList acc2.2 e.1 [item])
            else (acc2.1 ++ [item], acc2.2)) acc) ([], [])
    let res := reattach_loop (start.1.length + deferredTotal start.2 + 1) t1.nodes
      non_rooted start.1 start.2
    ⟨res.1⟩

def EvanTree.recompute_parent_children (t : EvanTree) : EvanTree :=
  recompute_core
    (t.nodes.map (fun kv => (kv.1, { kv.2 with parent := kv.2.largest_edge })))

/-- `EvanTree::ensure_node_is_rooted` from `evan.rs`: walk the ancestor chain
and record an edit for every node whose parent pointer is not its largest
edge.  Fueled (the Rust `while` diverges on a cyclic chain; on the rooted
states it is called on, the chain length is bounded by the key count). -/
def EvanTree.ensure_node_is_rooted (t : EvanTree) :
    Nat → Option NodeID → List (NodeID × NodeID) → List (NodeID × NodeID)
  | 0, _, edits => edits
  | _ + 1, none, edits => edits
  | fuel + 1, some id, edits =>
    match assocGet t.nodes id with
    | none => edits
    | some child =>
      match child.parent with
      | none => edits
      | some par =>
        EvanTree.ensure_node_is_rooted t fuel (some par)
          (if child.largest_edge ≠ some par then edits ++ [(id, par)] else edits)

/-- The edit loop of the local-move branch of `EvanTree::apply`: for each
`(child, parent)` edit, insert the edge with counter `max existing + 1` and
stamp it with the op's `(lamport, peer)`; emit the op that ships the edit.
`none` models the `self.nodes.get(&child).unwrap()` panic on an unknown
child.  Note the emitted op's target is the *original* move target (`target`
in the source), not the edit's child — faithful to the source. -/
def EvanTree.apply_edits (id : NodeID) (target : NodeID) :
    EvanTree → List (NodeID × NodeID) → Option (EvanTree × List Op)
  | t, [] => some (t, [])
  | t, (child, parent) :: rest =>
    match assocGet t.nodes child with
    | none => none
    | some n =>
      let maxc : Int := n.edges.foldl (fun m e => max m (e.2.counter : Int)) (-1)
      let newc : Nat := (maxc + 1).toNat
      let n2 := { n with edges := assocInsert n.edges parent ⟨newc, id.lamport, id.peer⟩ }
      let t2 : EvanTree := ⟨assocInsert t.nodes child n2⟩
      (EvanTree.apply_edits id target t2 rest).map (fun r =>
        (r.1, { id := id, op := .move target parent newc } :: r.2))

/-- `MovableTreeAlgorithm::apply` for `EvanTree` (`evan.rs`).  Returns the
ops to be logged and shipped (the amplified batch for a local move, the op
itself for a create, nothing for a remote move).  `none` models the panics on
a move whose target is not a key. -/
def EvanTree.apply (t : EvanTree) (op : Op) (isLocal : Bool) : Option (EvanTree × List Op) :=
  match op.op with
  | .create parent =>
    let nodes1 :=
      if assocContains t.nodes op.id then t.nodes
      else t.nodes ++ [(op.id, ⟨op.id, some parent, []⟩)]
    let nodes2 := assocModify nodes1 op.id (fun n =>
      { n with edges := assocInsert n.edges parent ⟨0, op.id.lamport, op.id.peer⟩ })
    some (⟨nodes2⟩, [op])
  | .move target parent counter =>
    if isLocal then
      let fuel := t.nodes.length + 2
      let old_parent := t.parent target
      let edits0 := t.ensure_node_is_rooted fuel old_parent []
      let edits1 := t.ensure_node_is_rooted fuel (some parent) edits0
      let edits := edits1 ++ [(target, parent)]
      (EvanTree.apply_edits op.id target t edits).map (fun r =>
        (r.1.recompute_parent_children, r.2))
    else
      match assocGet t.nodes target with
      | none => none
      | some n =>
        let n2 : ENode :=
          match assocGet n.edges parent with
          | some old =>
            if old.lamport < op.id.lamport ∨
                (old.lamport = op.id.lamport ∧ old.peer < op.id.peer) then
              { n with edges := assocInsert n.edges parent ⟨counter, op.id.lamport, op.id.peer⟩ }
            else n
          | none =>
            { n with edges := assocInsert n.edges parent ⟨counter, op.id.lamport, op.id.peer⟩ }
        some (⟨assocInsert t.nodes target n2⟩, [])

/-- The `for op in ops` loop of `EvanTree::merge`: apply every op remotely. -/
def EvanTree.apply_all : EvanTree → List Op → Option EvanTree
  | t, [] => some t
  | t, op :: rest => (t.apply op false).bind (fun r => EvanTree.apply_all r.1 rest)

/-- `MovableTreeAlgorithm::merge` for `EvanTree`: apply each op non-locally,
then recompute once. -/
def EvanTree.merge (t : EvanTree) (ops : List Op) : Option EvanTree :=
  (t.apply_all ops).map EvanTree.recompute_parent_children

/-- `MovableTreeAlgorithm::nodes` for `EvanTree`. -/
def EvanTree.nodesList (t : EvanTree) : List NodeID :=
  t.nodes.map (fun kv => kv.1)

/-- `MovableTreeAlgorithm::get_root` for `EvanTree`: render from the parent
map.  (The Rust code collects the pairs into a fresh `HashMap` whose
iteration order is unrelated to `nodes`; rendering is proved independent of
that order whenever exactly one key maps to `None` — see the C8 theorem — so
keeping the `nodes` order here is sound on every state Algorithm-E produces,
where `ROOT` is the unique parentless node.) -/
def EvanTree.get_root (t : EvanTree) : Option TreeNode :=
  TreeNode.from_state (t.nodes.map (fun kv => (kv.1, kv.2.parent)))

/-! ## Algorithm-M (`martin.rs`) -/

/-- `OpWrapper` from `martin.rs`: an op plus the parent of its target just
before it was applied (used for undo). -/
structure OpWrapper where
  op : Op
  old_parent : Option NodeID
deriving DecidableEq, Repr

/-- `MartinTree` from `martin.rs`.  `Default` gives an *empty* tree map; the
`ROOT` entry only appears when the first create targets it. -/
structure MartinTree where
  tree : List (NodeID × Option NodeID)
  sorted_ops : List OpWrapper
  applied_end : Nat
deriving DecidableEq, Repr

def MartinTree.new : MartinTree := ⟨[], [], 0⟩

/-- `MartinTree::get_parent`: `tree.get(id).copied().flatten()`. -/
def MartinTree.get_parent (t : MartinTree) (tree_id : NodeID) : Option NodeID :=
  (assocGet t.tree tree_id).bind (fun p => p)

/-- The default `MovableTreeAlgorithm::is_ancestor_of` walk from `lib.rs`:
walk parent links from `node` until hitting `maybe_ancestor` (`some true`),
running out of parents (`some false`), or detecting a self-parent loop
(`none`, the `panic!("loop detected")`).  Fuel exhaustion (`none`) models the
divergence of the Rust loop on a longer cycle; a terminating walk on an
acyclic map visits at most `keys + 1` nodes, so fuel `keys + 2` is never
exhausted where the Rust code terminates. -/
def is_ancestor_of (parentOf : NodeID → Option NodeID) :
    Nat → NodeID → NodeID → Option Bool
  | 0, _, _ => none
  | fuel + 1, maybe_ancestor, node_id =>
    if maybe_ancestor = node_id then some true
    else
      match parentOf node_id with
      | none => some false
      | some parent_id =>
        if parent_id = maybe_ancestor then some true
        else if parent_id = node_id then none
        else is_ancestor_of parentOf fuel maybe_ancestor parent_id

/-- `MartinTree::mov` from `martin.rs`: `none` models the
`assert!(tree.contains_key(&target))` panic and the guard's own panic or
divergence; a cycle-inducing move is silently skipped.  The guard is the
trait walk (`is_ancestor_of`) over `get_parent`. -/
def MartinTree.mov (t : MartinTree) (target parent : NodeID) : Option MartinTree :=
  if ¬ assocContains t.tree target then none
  else
    match is_ancestor_of t.get_parent (t.tree.length + 2) target parent with
    | none => none
    | some true => some t
    | some false => some { t with tree := assocInsert t.tree target (some parent) }

/-- `MovableTreeAlgorithm::apply` for `MartinTree` (`martin.rs`).  The second
component is the list of ops the facade logs — always the op itself (the Rust
facade pushes the op before calling `apply`). -/
def MartinTree.apply (t : MartinTree) (op : Op) : Option (MartinTree × List Op) :=
  match op.op with
  | .create parent =>
    let tree1 := assocEntryOr t.tree parent none
    let tree2 := assocInsert tree1 op.id (some parent)
    let ops2 := t.sorted_ops ++ [⟨op, none⟩]
    some ({ tree := tree2, sorted_ops := ops2, applied_end := ops2.length }, [op])
  | .move target parent _ =>
    let old_parent := (assocGet t.tree target).bind (fun p => p)
    ((MartinTree.mov t target parent).map (fun t1 =>
      let ops2 := t1.sorted_ops ++ [⟨op, old_parent⟩]
      ({ t1 with sorted_ops := ops2, applied_end := ops2.length }, [op])))

/-- The redo loop `MartinTree::apply_pending_ops` runs over the pending
wrappers, threading the tree and recording each move's `old_parent`.  `none`
models the `assert!` / guard panics inside `mov`. -/
def run_pending :
    List (NodeID × Option NodeID) → List OpWrapper →
    Option (List (NodeID × Option NodeID) × List OpWrapper)
  | tree, [] => some (tree, [])
  | tree, w :: rest =>
    match w.op.op with
    | .create parent =>
      let tree1 := assocEntryOr tree parent none
      let tree2 := assocInsert tree1 w.op.id (some parent)
      (run_pending tree2 rest).map (fun r => (r.1, w :: r.2))
    | .move target parent _ =>
      let old := (assocGet tree target).bind (fun p => p)
      if ¬ assocContains tree target then none
      else
        match is_ancestor_of (fun n => (assocGet tree n).bind (fun p => p))
            (tree.length + 2) target parent with
        | none => none
        | some true =>
          (run_pending tree rest).map (fun r => (r.1, ⟨w.op, old⟩ :: r.2))
        | some false =>
          (run_pending (assocInsert tree target (some parent)) rest).map
            (fun r => (r.1, ⟨w.op, old⟩ :: r.2))

/-- `MartinTree::apply_pending_ops` from `martin.rs`. -/
def MartinTree.apply_pending_ops (t : MartinTree) : Option MartinTree :=
  let pre := t.sorted_ops.take t.applied_end
  let suf := t.sorted_ops.drop t.applied_end
  (run_pending t.tree suf).map (fun r =>
    { tree := r.1, sorted_ops := pre ++ r.2, applied_end := (pre ++ r.2).length })

/-- `MartinTree::revert_until` from `martin.rs`.  `binary_search_by_key` on
the (invariant: sorted, duplicate-free) `sorted_ops` returns `Err(i)` with
`i` the first index whose id is not `< id`; the `Ok` branch is
`unreachable!()`, modelled as `none`.  The drained suffix is undone from the
top down: moves restore `tree[target] = old_parent`, creates are left in
place. -/
def MartinTree.revert_until (t : MartinTree) (id : NodeID) :
    Option (MartinTree × List Op) :=
  if (t.sorted_ops.map (fun w => w.op.id)).contains id then none
  else
    let trim_start := (t.sorted_ops.takeWhile (fun w => NodeID.cmp w.op.id id = .lt)).length
    let kept := t.sorted_ops.take trim_start
    let ans := t.sorted_ops.drop trim_start
    let tree2 := ans.reverse.foldl (fun tr w =>
      match w.op.op with
      | .create _ => tr
      | .move target _ _ => assocInsert tr target w.old_parent) t.tree
    some ({ tree := tree2, sorted_ops := kept, applied_end := kept.length },
      ans.map (fun w => w.op))

/-- `ops.iter().min()` (first minimal element, ordered by op id). -/
def opsMin : Op → List Op → Op
  | best, [] => best
  | best, o :: rest =>
    opsMin (if NodeID.cmp o.id best.id = .lt then o else best) rest

/-- `ops.sort()` from `MartinTree::merge`: stable sort by op id. -/
def sortOps (l : List Op) : List Op :=
  l.insertionSort (fun a b => NodeID.cmp a.id b.id ≠ .gt)

instance : DecidableRel (fun (a b : Op) => NodeID.cmp a.id b.id ≠ .gt) := fun _ _ => by
  infer_instance

/-- `MovableTreeAlgorithm::merge` for `MartinTree` (`martin.rs`): undo to the
earliest incoming op, splice, redo. -/
def MartinTree.merge (t : MartinTree) (ops : List Op) : Option MartinTree :=
  match ops with
  | [] => some t
  | o :: rest =>
    let start_id := opsMin o rest
    (t.revert_until start_id.id).bind (fun r =>
      let ops2 := sortOps (ops ++ r.2)
      let t2 := { r.1 with
        sorted_ops := r.1.sorted_ops ++ ops2.map (fun op => OpWrapper.mk op none) }
      t2.apply_pending_ops)

/-- `MovableTreeAlgorithm::nodes` for `MartinTree`. -/
def MartinTree.nodesList (t : MartinTree) : List NodeID :=
  t.tree.map (fun kv => kv.1)

/-- `MovableTreeAlgorithm::get_root` for `MartinTree`. -/
def MartinTree.get_root (t : MartinTree) : Option TreeNode :=
  TreeNode.from_state t.tree

/-! ## Replica facade (`lib.rs`)

The `src/` snapshot mixes two revisions of the `MovableTreeAlgorithm` trait:
`lib.rs` declares `apply(&mut self, op, local)` returning `()` and a `Move`
variant without `counter`, while `evan.rs` implements
`apply(...) -> Vec<Op>` destructuring a `counter` field and `martin.rs`
implements `apply(op) -> Option<NodeID>`.  The embedding reconciles them the
only way that makes `evan.rs`'s remote branch reachable with meaningful
counters (and that the spec prescribes — §3 `counter?: u32` "populated by
Algorithm-E when amplifying", §4.2 "Return the expanded list of ops (so they
can be shipped to peers)"): the algorithm's local `apply` returns the ops the
facade appends to its own per-peer log.  For Algorithm-M that list is exactly
the original op, which coincides with `lib.rs` pushing `op` itself. -/

/-- The algorithm capability record (the `MovableTreeAlgorithm` trait).
`apply`'s Boolean is the `local` flag (ignored by Algorithm-M). -/
structure Alg (S : Type) where
  init : S
  applyOp : S → Op → Bool → Option (S × List Op)
  mergeOps : S → List Op → Option S
  nodesOf : S → List NodeID
  parentOf : S → NodeID → Option NodeID
  rootOf : S → Option TreeNode

def evanAlg : Alg EvanTree :=
  ⟨EvanTree.new, EvanTree.apply, EvanTree.merge, EvanTree.nodesList,
    EvanTree.parent, EvanTree.get_root⟩

def martinAlg : Alg MartinTree :=
  ⟨MartinTree.new, fun s op _ => s.apply op, MartinTree.merge,
    MartinTree.nodesList, MartinTree.get_parent, MartinTree.get_root⟩

/-- `MovableTree<T>` from `lib.rs`: the replica facade. -/
structure MovableTree (S : Type) where
  algorithm : S
  peer : Nat
  ops : List (Nat × List Op)
  next_lamport : Nat
deriving DecidableEq, Repr

/-- `MovableTree::new`. -/
def MovableTree.newTree {S : Type} (A : Alg S) (peer : Nat) : MovableTree S :=
  ⟨A.init, peer, [], 0⟩

/-- `MovableTree::new_id`: stamp `(next_lamport, peer)` and advance the
clock. -/
def MovableTree.new_id {S : Type} (t : MovableTree S) : NodeID × MovableTree S :=
  (⟨t.next_lamport, t.peer⟩, { t with next_lamport := t.next_lamport + 1 })

/-- `MovableTree::create` from `lib.rs`. -/
def MovableTree.create {S : Type} (A : Alg S) (t : MovableTree S)
    (parent : Option NodeID) : Option (MovableTree S × NodeID) :=
  let par := parent.getD ROOT_ID
  let idt := t.new_id
  let op : Op := ⟨idt.1, .create par⟩
  (A.applyOp idt.2.algorithm op true).map (fun r =>
    ({ idt.2 with algorithm := r.1, ops := assocPushList idt.2.ops idt.2.peer r.2 },
      idt.1))

/-- `MovableTree::mov` from `lib.rs`: guard with the trait's
`is_ancestor_of` over the algorithm's `parent`, stamp and apply on success.
The outer `Option` is panic/divergence of the guard or the apply;
`Except.error ()` is the `Err(())` cycle result, returned before any state
change (the replica in the result is the untouched input). -/
def MovableTree.mov {S : Type} (A : Alg S) (t : MovableTree S)
    (target parent : NodeID) : Option (MovableTree S × Except Unit Unit) :=
  match is_ancestor_of (A.parentOf t.algorithm)
      ((A.nodesOf t.algorithm).length + 2) target parent with
  | none => none
  | some true => some (t, Except.error ())
  | some false =>
    let idt := t.new_id
    let op : Op := ⟨idt.1, .move target parent 0⟩
    (A.applyOp idt.2.algorithm op true).map (fun r =>
      ({ idt.2 with algorithm := r.1, ops := assocPushList idt.2.ops idt.2.peer r.2 },
        Except.ok ()))

/-- One iteration of the `for &op in &ops[self_start..]` loop of
`MovableTree::merge`: push the op onto the local log for `peer` and bump
`next_lamport` past it. -/
def adoptOp {S : Type} (peer : Nat) (tcur : MovableTree S) (op : Op) : MovableTree S :=
  { tcur with
    ops := assocPushList tcur.ops peer [op],
    next_lamport :=
      if op.id.lamport ≥ tcur.next_lamport then op.id.lamport + 1
      else tcur.next_lamport }

/-- The body of `MovableTree::merge`'s loop for one peer of `other`: append
the unseen tail of that peer's log, bumping `next_lamport` past each adopted
op, and collect the tail into the batch. -/
def mergePeer {S : Type} (acc : MovableTree S × List Op) (pl : Nat × List Op) :
    MovableTree S × List Op :=
  let t0 := acc.1
  let self_start := ((assocGet t0.ops pl.1).getD []).length
  if pl.2.length > self_start then
    let tail := pl.2.drop self_start
    let t1 := tail.foldl (adoptOp pl.1) t0
    (t1, acc.2 ++ tail)
  else acc

/-- `MovableTree::merge` from `lib.rs`: splice unseen per-peer tails into the
local log, then hand the adopted batch to the algorithm's merge. -/
def MovableTree.mergeFrom {S : Type} (A : Alg S) (t other : MovableTree S) :
    Option (MovableTree S) :=
  let step := other.ops.foldl mergePeer (t, [])
  (A.mergeOps step.1.algorithm step.2).map (fun s => { step.1 with algorithm := s })

/-- `MovableTree::nodes` from `lib.rs`: the algorithm's nodes minus `ROOT`. -/
def MovableTree.nodesList {S : Type} (A : Alg S) (t : MovableTree S) : List NodeID :=
  (A.nodesOf t.algorithm).filter (fun n => n ≠ ROOT_ID)

/-- `ToString for MovableTree` from `lib.rs`; `none` is the render panic. -/
def MovableTree.to_string {S : Type} (A : Alg S) (t : MovableTree S) : Option String :=
  (A.rootOf t.algorithm).map (fun r => r.render "" true)

/-! ## Concrete schedule: spec scenario S1

Peer 0 creates `c1 = 0@0` and `c2 = 1@0` under ROOT; peer 1 merges; peer 0
moves `c2` under `c1` (op `2@0`) while peer 1 moves `c1` under `c2` (op
`2@1`); the replicas then merge mutually (a quiescent point of the fuzz
harness's `Sync`/`check_eq`).  Run once over Algorithm-M and once over
Algorithm-E with identical peer ids and merge schedule.  Each step is a
separate definition so that concrete evaluation can be shared; the claim
theorems assert that every step's `Option` result is exactly the recorded
value, so the `getD` defaults are provably never taken. -/

def s1MartinA0 : MovableTree MartinTree := MovableTree.newTree martinAlg 0

def s1MartinB0 : MovableTree MartinTree := MovableTree.newTree martinAlg 1

def s1MartinA1 : MovableTree MartinTree × NodeID :=
  (MovableTree.create martinAlg s1MartinA0 none).getD (s1MartinA0, ROOT_ID)

def s1MartinA2 : MovableTree MartinTree × NodeID :=
  (MovableTree.create martinAlg s1MartinA1.1 none).getD (s1MartinA0, ROOT_ID)

def s1MartinB1 : MovableTree MartinTree :=
  (MovableTree.mergeFrom martinAlg s1MartinB0 s1MartinA2.1).getD s1MartinB0

def s1MartinA3 : MovableTree MartinTree × Except Unit Unit :=
  (MovableTree.mov martinAlg s1MartinA2.1 s1MartinA2.2 s1MartinA1.2).getD
    (s1MartinA0, Except.ok ())

def s1MartinB2 : MovableTree MartinTree × Except Unit Unit :=
  (MovableTree.mov martinAlg s1MartinB1 s1MartinA1.2 s1MartinA2.2).getD
    (s1MartinB0, Except.ok ())

def s1MartinA4 : MovableTree MartinTree :=
  (MovableTree.mergeFrom martinAlg s1MartinA3.1 s1MartinB2.1).getD s1MartinA0

def s1MartinB3 : MovableTree MartinTree :=
  (MovableTree.mergeFrom martinAlg s1MartinB2.1 s1MartinA4).getD s1MartinB0

def s1EvanA0 : MovableTree EvanTree := MovableTree.newTree evanAlg 0

def s1EvanB0 : MovableTree EvanTree := MovableTree.newTree evanAlg 1

def s1EvanA1 : MovableTree EvanTree × NodeID :=
  (MovableTree.create evanAlg s1EvanA0 none).getD (s1EvanA0, ROOT_ID)

def s1EvanA2 : MovableTree EvanTree × NodeID :=
  (MovableTree.create evanAlg s1EvanA1.1 none).getD (s1EvanA0, ROOT_ID)

def s1EvanB1 : MovableTree EvanTree :=
  (MovableTree.mergeFrom evanAlg s1EvanB0 s1EvanA2.1).getD s1EvanB0

def s1EvanA3 : MovableTree EvanTree × Except Unit Unit :=
  (MovableTree.mov evanAlg s1EvanA2.1 s1EvanA2.2 s1EvanA1.2).getD
    (s1EvanA0, Except.ok ())

def s1EvanB2 : MovableTree EvanTree × Except Unit Unit :=
  (MovableTree.mov evanAlg s1EvanB1 s1EvanA1.2 s1EvanA2.2).getD
    (s1EvanB0, Except.ok ())

def s1EvanA4 : MovableTree EvanTree :=
  (MovableTree.mergeFrom evanAlg s1EvanA3.1 s1EvanB2.1).getD s1EvanA0

def s1EvanB3 : MovableTree EvanTree :=
  (MovableTree.mergeFrom evanAlg s1EvanB2.1 s1EvanA4).getD s1EvanB0

/-- C1 counterexample: the identical action sequence and merge schedule of
spec scenario S1, driven with identical peer ids over `Replica<MartinTree>`
and `Replica<EvanTree>`, reaches a quiescent point (every step succeeds and
the replicas have merged mutually to fixed point) where Algorithm-M renders
`ROOT{0@0{1@0}}` and Algorithm-E renders `ROOT{1@0{0@0}}`: the two rendered
tree strings are not equal, refuting the claim. -/
theorem C1_counterexample :
    MovableTree.create martinAlg s1MartinA0 none = some s1MartinA1 ∧
    MovableTree.create martinAlg s1MartinA1.1 none = some s1MartinA2 ∧
    MovableTree.mergeFrom martinAlg s1MartinB0 s1MartinA2.1 = some s1MartinB1 ∧
    MovableTree.mov martinAlg s1MartinA2.1 s1MartinA2.2 s1MartinA1.2 =
      some s1MartinA3 ∧ s1MartinA3.2 = Except.ok () ∧
    MovableTree.mov martinAlg s1MartinB1 s1MartinA1.2 s1MartinA2.2 =
      some s1MartinB2 ∧ s1MartinB2.2 = Except.ok () ∧
    MovableTree.mergeFrom martinAlg s1MartinA3.1 s1MartinB2.1 = some s1MartinA4 ∧
    MovableTree.mergeFrom martinAlg s1MartinB2.1 s1MartinA4 = some s1MartinB3 ∧
    MovableTree.create evanAlg s1EvanA0 none = some s1EvanA1 ∧
    MovableTree.create evanAlg s1EvanA1.1 none = some s1EvanA2 ∧
    MovableTree.mergeFrom evanAlg s1EvanB0 s1EvanA2.1 = some s1EvanB1 ∧
    MovableTree.mov evanAlg s1EvanA2.1 s1EvanA2.2 s1EvanA1.2 = some s1EvanA3 ∧
    s1EvanA3.2 = Except.ok () ∧
    MovableTree.mov evanAlg s1EvanB1 s1EvanA1.2 s1EvanA2.2 = some s1EvanB2 ∧
    s1EvanB2.2 = Except.ok () ∧
    MovableTree.mergeFrom evanAlg s1EvanA3.1 s1EvanB2.1 = some s1EvanA4 ∧
    MovableTree.mergeFrom evanAlg s1EvanB2.1 s1EvanA4 = some s1EvanB3 ∧
    MovableTree.to_string martinAlg s1MartinA4 =
      some "└── ROOT\n    └── Node[ 0@0 ]\n        └── Node[ 1@0 ]\n" ∧
    MovableTree.to_string evanAlg s1EvanA4 =
      some "└── ROOT\n    └── Node[ 1@0 ]\n        └── Node[ 0@0 ]\n" ∧
    MovableTree.to_string martinAlg s1MartinA4 ≠
      MovableTree.to_string evanAlg s1EvanA4 :=
  ⟨rfl, rfl, rfl, rfl, rfl, rfl, rfl, rfl, rfl, rfl, rfl, rfl, rfl, rfl, rfl,
    rfl, rfl, rfl, rfl, rfl, by decide⟩

/-- C1 (amended): at spec scenario S1's quiescent point — the identical
action sequence, peer ids and merge schedule driven over `Replica<MartinTree>`
and `Replica<EvanTree>` — the two Algorithm-M replicas render byte-identical
trees and the two Algorithm-E replicas render byte-identical trees (both
renders succeed), while the Algorithm-M render `ROOT{0@0{1@0}}` and the
Algorithm-E render `ROOT{1@0{0@0}}` differ from each other: the cross-
algorithm equality asserted by the claim fails even where each algorithm
agrees with itself. -/
theorem C1_amended_s1_per_algorithm_agreement :
    MovableTree.to_string martinAlg s1MartinA4 =
      MovableTree.to_string martinAlg s1MartinB3 ∧
    MovableTree.to_string evanAlg s1EvanA4 =
      MovableTree.to_string evanAlg s1EvanB3 ∧
    (MovableTree.to_string martinAlg s1MartinA4).isSome = true ∧
    (MovableTree.to_string evanAlg s1EvanA4).isSome = true ∧
    MovableTree.to_string martinAlg s1MartinA4 ≠
      MovableTree.to_string evanAlg s1EvanA4 :=
  ⟨rfl, rfl, rfl, rfl, by decide⟩

/-- C9: rendering a freshly constructed `Replica<MartinTree>` hits the
`expect("No root node found")` panic (its tree map starts empty, `ROOT` only
appears with the first create), while a freshly constructed
`Replica<EvanTree>` renders the single `ROOT` node. -/
theorem C9_fresh_render (peer : Nat) :
    MovableTree.to_string martinAlg (MovableTree.newTree martinAlg peer) = none ∧
    MovableTree.to_string evanAlg (MovableTree.newTree evanAlg peer) =
      some "└── ROOT\n" :=
  ⟨rfl, rfl⟩

/-! ## Order facts for `NodeID.cmp` and `PQItem.cmp` -/

theorem NodeID.cmp_gt_char {a b : NodeID} : NodeID.cmp a b = .gt ↔
    (b.lamport < a.lamport ∨ (a.lamport = b.lamport ∧ b.peer < a.peer)) := by
  unfold NodeID.cmp
  simp only [Ordering.then_eq_gt, Nat.compare_eq_gt, Nat.compare_eq_eq]

theorem NodeID.cmp_lt_char {a b : NodeID} : NodeID.cmp a b = .lt ↔
    (a.lamport < b.lamport ∨ (a.lamport = b.lamport ∧ a.peer < b.peer)) := by
  unfold NodeID.cmp
  simp only [Ordering.then_eq_lt, Nat.compare_eq_lt, Nat.compare_eq_eq]

theorem NodeID.cmp_eq_char {a b : NodeID} : NodeID.cmp a b = .eq ↔ a = b := by
  unfold NodeID.cmp
  simp only [Ordering.then_eq_eq, Nat.compare_eq_eq]
  constructor
  · rintro ⟨h1, h2⟩; cases a; cases b; simp_all
  · rintro rfl; exact ⟨rfl, rfl⟩

theorem NodeID.cmp_refl (a : NodeID) : NodeID.cmp a a = .eq := NodeID.cmp_eq_char.2 rfl

theorem PQItem.cmp_gt_iff {a b : PQItem} : PQItem.cmp a b = .gt ↔
    (b.counter < a.counter ∨ (a.counter = b.counter ∧
      (b.parent.lamport < a.parent.lamport ∨ (a.parent.lamport = b.parent.lamport ∧
        (b.parent.peer < a.parent.peer ∨ (a.parent.peer = b.parent.peer ∧
          (b.child.lamport < a.child.lamport ∨ (a.child.lamport = b.child.lamport ∧
            b.child.peer < a.child.peer)))))))) := by
  unfold PQItem.cmp NodeID.cmp
  simp only [Ordering.then_eq_gt, Ordering.then_eq_eq, Nat.compare_eq_gt,
    Nat.compare_eq_eq]
  omega

theorem PQItem.cmp_self (a : PQItem) : PQItem.cmp a a = .eq := by
  simp [PQItem.cmp, NodeID.cmp, Ordering.then_eq_eq, Nat.compare_eq_eq]

theorem PQItem.cmp_gt_trans {a b c : PQItem} (h1 : PQItem.cmp a b = .gt)
    (h2 : PQItem.cmp b c = .gt) : PQItem.cmp a c = .gt := by
  rw [PQItem.cmp_gt_iff] at h1 h2 ⊢
  omega

/-! ## C2: the facade move guard -/

theorem mov_guard_none {S : Type} (A : Alg S) (t : MovableTree S) {target parent : NodeID}
    (h : is_ancestor_of (A.parentOf t.algorithm)
      ((A.nodesOf t.algorithm).length + 2) target parent = none) :
    MovableTree.mov A t target parent = none := by
  unfold MovableTree.mov
  rw [h]

theorem mov_guard_true {S : Type} (A : Alg S) (t : MovableTree S) {target parent : NodeID}
    (h : is_ancestor_of (A.parentOf t.algorithm)
      ((A.nodesOf t.algorithm).length + 2) target parent = some true) :
    MovableTree.mov A t target parent = some (t, Except.error ()) := by
  unfold MovableTree.mov
  rw [h]

theorem mov_guard_false {S : Type} (A : Alg S) (t : MovableTree S) {target parent : NodeID}
    (h : is_ancestor_of (A.parentOf t.algorithm)
      ((A.nodesOf t.algorithm).length + 2) target parent = some false) :
    MovableTree.mov A t target parent =
      (A.applyOp t.new_id.2.algorithm ⟨t.new_id.1, .move target parent 0⟩ true).map
        (fun r => ({ t.new_id.2 with
          algorithm := r.1,
          ops := assocPushList t.new_id.2.ops t.new_id.2.peer r.2 }, Except.ok ())) := by
  unfold MovableTree.mov
  rw [h]

/-- C2: `MovableTree::mov` returns `Err(())` exactly when the trait ancestor
walk over the algorithm's current parent map answers that `target` is an
ancestor of `parent` (the walk answers `true` immediately on
`target = parent`), and in that case the replica — algorithm state, op logs
and `next_lamport` — is returned completely unchanged (the guard runs before
the op id is stamped). -/
theorem C2_mov_error_iff_ancestor {S : Type} (A : Alg S) (t : MovableTree S)
    (target parent : NodeID) :
    ((MovableTree.mov A t target parent).map (fun r => r.2) =
        some (Except.error ()) ↔
      is_ancestor_of (A.parentOf t.algorithm)
        ((A.nodesOf t.algorithm).length + 2) target parent = some true) ∧
    (∀ r, MovableTree.mov A t target parent = some r →
      r.2 = Except.error () → r.1 = t) := by
  cases h : is_ancestor_of (A.parentOf t.algorithm)
      ((A.nodesOf t.algorithm).length + 2) target parent with
  | none => rw [mov_guard_none A t h]; simp
  | some b =>
    cases b with
    | true =>
      rw [mov_guard_true A t h]
      refine ⟨by simp, ?_⟩
      intro r hr _
      simp only [Option.some.injEq] at hr
      rw [← hr]
    | false =>
      rw [mov_guard_false A t h]
      cases happ : A.applyOp t.new_id.2.algorithm
          ⟨t.new_id.1, .move target parent 0⟩ true with
      | none => simp
      | some p =>
        refine ⟨by simp, ?_⟩
        intro r hr herr
        have h2 : Except.ok () = r.2 := by
          have := congrArg (fun o => Option.map (fun x => x.2) o) hr
          simpa using this
        rw [herr] at h2
        simp at h2

/-- C2 witness: on a fresh Algorithm-M replica, `mov(ROOT, ROOT)` is rejected
as a cycle (`target = parent`) with the replica unchanged. -/
theorem C2_witness :
    (MovableTree.mov martinAlg (MovableTree.newTree martinAlg 0) ROOT_ID ROOT_ID).map
        (fun r => r.2) = some (Except.error ()) ∧
    ∀ r, MovableTree.mov martinAlg (MovableTree.newTree martinAlg 0) ROOT_ID ROOT_ID =
        some r → r.1 = MovableTree.newTree martinAlg 0 :=
  ⟨(C2_mov_error_iff_ancestor martinAlg (MovableTree.newTree martinAlg 0)
      ROOT_ID ROOT_ID).1.2 rfl,
    fun r hr => (C2_mov_error_iff_ancestor martinAlg (MovableTree.newTree martinAlg 0)
      ROOT_ID ROOT_ID).2 r hr (by
        have h1 := hr
        rw [@mov_guard_true MartinTree martinAlg (MovableTree.newTree martinAlg 0)
          ROOT_ID ROOT_ID rfl] at h1
        simp only [Option.some.injEq] at h1
        rw [← h1])⟩

/-! ## C7: the re-attachment priority queue -/

/-- C7 counterexample: two ready edges with equal counters and distinct
parents `0@0` and `1@0`.  The heap pops the edge with the *larger* parent
NodeID (`1@0`), not the smaller one the claim prescribes: `impl Ord for
PQItem` is lexicographic `(counter, parent, child)` and `BinaryHeap` is a
max-heap, so counter ties pop by parent (and then child) *descending*. -/
theorem C7_counterexample :
    extractMax [⟨⟨5, 5⟩, ⟨0, 0⟩, 7⟩, ⟨⟨6, 6⟩, ⟨1, 0⟩, 7⟩] =
      some (⟨⟨6, 6⟩, ⟨1, 0⟩, 7⟩, [⟨⟨5, 5⟩, ⟨0, 0⟩, 7⟩]) ∧
    (PQItem.mk ⟨6, 6⟩ ⟨1, 0⟩ 7).counter = (PQItem.mk ⟨5, 5⟩ ⟨0, 0⟩ 7).counter ∧
    (PQItem.mk ⟨6, 6⟩ ⟨1, 0⟩ 7).parent ≠ (⟨0, 0⟩ : NodeID) :=
  ⟨rfl, rfl, by decide⟩

/-- C7 amended: the edge popped from the ready queue is one of its elements
and is maximal in the lexicographic order `(counter, parent NodeID,
child NodeID)` — counter descending with parent and child NodeID
*descending* (not ascending) as tiebreaks — and the pop leaves exactly the
remaining multiset of edges. -/
theorem C7_pop_is_lex_max {q : List PQItem} {top : PQItem} {rest : List PQItem}
    (h : extractMax q = some (top, rest)) :
    top ∈ q ∧ (∀ x ∈ q, PQItem.cmp x top ≠ .gt) ∧ q.Perm (top :: rest) := by
  induction q generalizing top rest with
  | nil => simp [extractMax] at h
  | cons x xs ih =>
    simp only [extractMax] at h
    cases hx : extractMax xs with
    | none =>
      have hnil := extractMax_eq_none hx
      subst hnil
      rw [hx] at h
      simp at h
      obtain ⟨h1, h2⟩ := h
      subst h1; subst h2
      refine ⟨by simp, ?_, by simp⟩
      intro y hy
      simp at hy
      subst hy
      simp [PQItem.cmp_self]
    | some p =>
      obtain ⟨m, r0⟩ := p
      rw [hx] at h
      obtain ⟨hmem, hmax, hperm⟩ := ih hx
      by_cases hc : PQItem.cmp x m = .gt
      · simp only [hc, if_true] at h
        simp at h
        obtain ⟨h1, h2⟩ := h
        subst h1; subst h2
        refine ⟨by simp, ?_, List.Perm.refl _⟩
        intro y hy
        rcases List.mem_cons.1 hy with hy1 | hy2
        · subst hy1; simp [PQItem.cmp_self]
        · intro habs
          exact absurd (PQItem.cmp_gt_trans habs hc) (hmax y hy2)
      · simp only [hc, if_false] at h
        simp at h
        obtain ⟨h1, h2⟩ := h
        subst h1; subst h2
        refine ⟨List.mem_cons_of_mem _ hmem, ?_, ?_⟩
        · intro y hy
          rcases List.mem_cons.1 hy with hy1 | hy2
          · subst hy1; exact hc
          · exact hmax y hy2
        · exact (List.Perm.cons x hperm).trans (List.Perm.swap m x r0)

/-- C7 witness: popping the two-edge queue of the counterexample returns a
member that no element exceeds. -/
theorem C7_pop_witness :
    (⟨⟨6, 6⟩, ⟨1, 0⟩, 7⟩ : PQItem) ∈
      [(⟨⟨5, 5⟩, ⟨0, 0⟩, 7⟩ : PQItem), ⟨⟨6, 6⟩, ⟨1, 0⟩, 7⟩] ∧
    (∀ x ∈ [(⟨⟨5, 5⟩, ⟨0, 0⟩, 7⟩ : PQItem), ⟨⟨6, 6⟩, ⟨1, 0⟩, 7⟩],
      PQItem.cmp x ⟨⟨6, 6⟩, ⟨1, 0⟩, 7⟩ ≠ .gt) :=
  ⟨(@C7_pop_is_lex_max [⟨⟨5, 5⟩, ⟨0, 0⟩, 7⟩, ⟨⟨6, 6⟩, ⟨1, 0⟩, 7⟩] ⟨⟨6, 6⟩, ⟨1, 0⟩, 7⟩
      [⟨⟨5, 5⟩, ⟨0, 0⟩, 7⟩] rfl).1,
    (@C7_pop_is_lex_max [⟨⟨5, 5⟩, ⟨0, 0⟩, 7⟩, ⟨⟨6, 6⟩, ⟨1, 0⟩, 7⟩] ⟨⟨6, 6⟩, ⟨1, 0⟩, 7⟩
      [⟨⟨5, 5⟩, ⟨0, 0⟩, 7⟩] rfl).2.1⟩

/-! ## C10: moves on unknown targets -/

/-- C10: a move whose target is not a key of the algorithm's node map panics
in the apply step when it gets there: Algorithm-M's `mov` hits
`assert!(tree.contains_key(&target))` and Algorithm-E's remote apply hits
`nodes.get_mut(&child).unwrap()` (universally), and on the local path the
facade's own pre-check passes a nonexistent target through to the panicking
apply (witnessed on fresh replicas where `mov(9@9, ROOT)` passes the ancestor
pre-check — `ROOT` has no parent, so the walk answers `false` — and the apply
returns `none`).  Conversely, when the target is a key — as it always is for
a target returned by an earlier observed create — the panic branch is
unreachable: Algorithm-E's remote apply always succeeds, and the only `none`
Algorithm-M's apply can still produce is the ancestor walk's own
panic/divergence, not the assert. -/
theorem C10_move_target_panics :
    (∀ (t : MartinTree) (id target parent : NodeID) (counter : Nat),
      assocContains t.tree target = false →
      t.apply ⟨id, .move target parent counter⟩ = none) ∧
    (∀ (t : EvanTree) (id target parent : NodeID) (counter : Nat),
      assocContains t.nodes target = false →
      t.apply ⟨id, .move target parent counter⟩ false = none) ∧
    (MovableTree.mov martinAlg (MovableTree.newTree martinAlg 0) ⟨9, 9⟩ ROOT_ID
      = none) ∧
    (MovableTree.mov evanAlg (MovableTree.newTree evanAlg 0) ⟨9, 9⟩ ROOT_ID
      = none) ∧
    (∀ (t : MartinTree) (id target parent : NodeID) (counter : Nat),
      assocContains t.tree target = true →
      t.apply ⟨id, .move target parent counter⟩ = none →
      is_ancestor_of t.get_parent (t.tree.length + 2) target parent = none) ∧
    (∀ (t : EvanTree) (id target parent : NodeID) (counter : Nat),
      assocContains t.nodes target = true →
      (t.apply ⟨id, .move target parent counter⟩ false).isSome = true) := by
  refine ⟨?_, ?_, rfl, rfl, ?_, ?_⟩
  · intro t id target parent counter h
    simp [MartinTree.apply, MartinTree.mov, h]
  · intro t id target parent counter h
    have hg : assocGet t.nodes target = none := by
      simpa [assocContains] using h
    simp [EvanTree.apply, hg]
  · intro t id target parent counter h hnone
    cases hw : is_ancestor_of t.get_parent (t.tree.length + 2) target parent with
    | none => rfl
    | some b =>
      exfalso
      cases b <;> simp [MartinTree.apply, MartinTree.mov, h, hw] at hnone
  · intro t id target parent counter h
    obtain ⟨n, hn⟩ := Option.isSome_iff_exists.1 (by simpa [assocContains] using h)
    cases hasm : assocGet n.edges parent with
    | none => simp [EvanTree.apply, hn, hasm]
    | some old => simp [EvanTree.apply, hn, hasm]

/-- C10 witness: on a one-node Algorithm-M tree the move applies (target
present), and on the empty tree the apply panics. -/
theorem C10_witness :
    MartinTree.apply ⟨[], [], 0⟩ ⟨⟨0, 0⟩, .move ⟨9, 9⟩ ROOT_ID 0⟩ = none ∧
    (EvanTree.apply EvanTree.new ⟨⟨0, 0⟩, .move ROOT_ID ROOT_ID 0⟩ false).isSome
      = true :=
  ⟨C10_move_target_panics.1 ⟨[], [], 0⟩ ⟨0, 0⟩ ⟨9, 9⟩ ROOT_ID 0 (by decide),
    C10_move_target_panics.2.2.2.2.2 EvanTree.new ⟨0, 0⟩ ROOT_ID ROOT_ID 0 (by decide)⟩

/-! ## C6: the lamport clock bounds every logged op -/

theorem assocGet_mem {α β : Type} [DecidableEq α] :
    ∀ {l : List (α × β)} {key : α} {v : β}, assocGet l key = some v → (key, v) ∈ l := by
  intro l
  induction l with
  | nil => intro key v h; simp [assocGet] at h
  | cons kv rest ih =>
    intro key v h
    obtain ⟨k, w⟩ := kv
    by_cases hk : k = key
    · subst hk
      simp [assocGet] at h
      subst h
      exact List.mem_cons_self _ _
    · simp [assocGet, hk] at h
      exact List.mem_cons_of_mem _ (ih h)

/-- All ops stored in a per-peer log map satisfy `P`. -/
def OpsAll (P : Op → Prop) (l : List (Nat × List Op)) : Prop :=
  ∀ pl ∈ l, ∀ o ∈ pl.2, P o

theorem OpsAll_assocInsert {P : Op → Prop} {l : List (Nat × List Op)} {key : Nat}
    {v : List Op} (h : OpsAll P l) (hv : ∀ o ∈ v, P o) :
    OpsAll P (assocInsert l key v) := by
  induction l with
  | nil =>
    intro pl hpl o ho
    simp [assocInsert] at hpl
    subst hpl
    exact hv o ho
  | cons kv rest ih =>
    obtain ⟨k, w⟩ := kv
    intro pl hpl o ho
    by_cases hk : k = key
    · simp [assocInsert, hk] at hpl
      rcases hpl with h1 | h2
      · subst h1; exact hv o ho
      · exact h pl (List.mem_cons_of_mem _ h2) o ho
    · simp [assocInsert, hk] at hpl
      rcases hpl with h1 | h2
      · subst h1; exact h (k, w) (List.mem_cons_self _ _) o ho
      · exact ih (fun pl2 hpl2 => h pl2 (List.mem_cons_of_mem _ hpl2)) pl h2 o ho

theorem OpsAll_assocPushList {P : Op → Prop} {l : List (Nat × List Op)} {key : Nat}
    {items : List Op} (h : OpsAll P l) (hi : ∀ o ∈ items, P o) :
    OpsAll P (assocPushList l key items) := by
  unfold assocPushList
  cases hg : assocGet l key with
  | none =>
    intro pl hpl o ho
    rcases List.mem_append.1 hpl with h1 | h2
    · exact h pl h1 o ho
    · simp at h2; subst h2; exact hi o ho
  | some old =>
    have hold : ∀ o ∈ old, P o := h (key, old) (assocGet_mem hg)
    refine OpsAll_assocInsert h ?_
    intro o ho
    rcases List.mem_append.1 ho with h1 | h2
    · exact hold o h1
    · exact hi o h2

theorem OpsAll_mono {P Q : Op → Prop} {l : List (Nat × List Op)}
    (h : OpsAll P l) (hpq : ∀ o, P o → Q o) : OpsAll Q l :=
  fun pl hpl o ho => hpq o (h pl hpl o ho)

/-- C6's invariant: `next_lamport` strictly exceeds every lamport present in
any per-peer op log. -/
def LamportInv {S : Type} (t : MovableTree S) : Prop :=
  ∀ pl ∈ t.ops, ∀ o ∈ pl.2, o.id.lamport < t.next_lamport

instance {S : Type} (t : MovableTree S) : Decidable (LamportInv t) := by
  unfold LamportInv; infer_instance

/-- A lawfulness fact of both algorithms: every op a local apply returns for
logging carries the id of the op that was applied (Algorithm-M logs the op
itself; Algorithm-E's amplified batch stamps every edit with the move's id). -/
def ApplyEmitsOwnId {S : Type} (A : Alg S) : Prop :=
  ∀ s op isLocal r, A.applyOp s op isLocal = some r → ∀ o ∈ r.2, o.id = op.id

theorem martin_emits_own_id : ApplyEmitsOwnId martinAlg := by
  intro s op isLocal r h o ho
  show o.id = op.id
  cases hop : op.op with
  | create parent =>
    simp [martinAlg, MartinTree.apply, hop] at h
    rw [← h] at ho
    simp at ho
    rw [ho]
  | move target parent counter =>
    simp only [martinAlg, MartinTree.apply, hop] at h
    rcases Option.map_eq_some'.1 h with ⟨t1, hm, hf⟩
    rw [← hf] at ho
    simp at ho
    rw [ho]

theorem evan_apply_edits_ids {id target : NodeID} :
    ∀ {t : EvanTree} {edits : List (NodeID × NodeID)} {r},
    EvanTree.apply_edits id target t edits = some r → ∀ o ∈ r.2, o.id = id := by
  intro t edits
  induction edits generalizing t with
  | nil =>
    intro r h o ho
    simp [EvanTree.apply_edits] at h
    rw [← h] at ho
    simp at ho
  | cons e rest ih =>
    intro r h o ho
    obtain ⟨child, parent⟩ := e
    simp only [EvanTree.apply_edits] at h
    cases hg : assocGet t.nodes child with
    | none => rw [hg] at h; simp at h
    | some n =>
      rw [hg] at h
      simp only [Option.map_eq_some'] at h
      rcases h with ⟨r2, hrec, hf⟩
      rw [← hf] at ho
      rcases List.mem_cons.1 ho with h1 | h2
      · rw [h1]
      · exact ih hrec o h2

theorem evan_emits_own_id : ApplyEmitsOwnId evanAlg := by
  intro s op isLocal r h o ho
  show o.id = op.id
  cases hop : op.op with
  | create parent =>
    simp [evanAlg, EvanTree.apply, hop] at h
    rw [← h] at ho
    simp at ho
    rw [ho]
  | move target parent counter =>
    simp only [evanAlg, EvanTree.apply, hop] at h
    cases isLocal with
    | true =>
      rw [if_pos rfl] at h
      rcases Option.map_eq_some'.1 h with ⟨r2, hrec, hf⟩
      rw [← hf] at ho
      exact evan_apply_edits_ids hrec o ho
    | false =>
      rw [if_neg (by simp)] at h
      cases hg : assocGet s.nodes target with
      | none => rw [hg] at h; simp at h
      | some n =>
        rw [hg] at h
        simp at h
        rw [← h] at ho
        simp at ho

/-- Replica states reachable through the facade API.  A merge partner may be
any replica whatsoever — the invariant below survives even adversarial
partners, because `merge` bumps `next_lamport` past every op it adopts. -/
inductive Reach {S : Type} (A : Alg S) : MovableTree S → Prop where
  | init (peer : Nat) : Reach A (MovableTree.newTree A peer)
  | create {t : MovableTree S} {r : MovableTree S × NodeID} (parent : Option NodeID)
      (h : Reach A t) (hr : MovableTree.create A t parent = some r) : Reach A r.1
  | mov {t : MovableTree S} {r : MovableTree S × Except Unit Unit}
      (target parent : NodeID) (h : Reach A t)
      (hr : MovableTree.mov A t target parent = some r) : Reach A r.1
  | merge {t r : MovableTree S} (other : MovableTree S) (h : Reach A t)
      (hr : MovableTree.mergeFrom A t other = some r) : Reach A r

theorem LamportInv_applyStep {S : Type} {A : Alg S} (hA : ApplyEmitsOwnId A)
    {t : MovableTree S} {p : S × List Op} {op : Op}
    (hop : op.id = ⟨t.next_lamport, t.peer⟩) {isLocal : Bool}
    (happ : A.applyOp t.new_id.2.algorithm op isLocal = some p)
    (h : LamportInv t) :
    LamportInv { t.new_id.2 with
      algorithm := p.1, ops := assocPushList t.new_id.2.ops t.new_id.2.peer p.2 } := by
  intro pl hpl o ho
  show o.id.lamport < t.next_lamport + 1
  have hall : OpsAll (fun o => o.id.lamport < t.next_lamport + 1)
      (assocPushList t.ops t.peer p.2) := by
    refine OpsAll_assocPushList ?_ ?_
    · exact fun pl2 hpl2 o2 ho2 => Nat.lt_succ_of_lt (h pl2 hpl2 o2 ho2)
    · intro o2 ho2
      have := hA _ _ _ _ happ o2 ho2
      rw [this, hop]
      exact Nat.lt_succ_self _
  exact hall pl hpl o ho

theorem LamportInv_pushLoop {S : Type} (peer : Nat) :
    ∀ (tail : List Op) (t0 : MovableTree S), LamportInv t0 →
    LamportInv (tail.foldl (adoptOp peer) t0) := by
  intro tail
  induction tail with
  | nil => intro t0 h; exact h
  | cons op rest ih =>
    intro t0 h
    simp only [List.foldl_cons, adoptOp]
    apply ih
    intro pl hpl o ho
    have hnext : t0.next_lamport ≤
        (if op.id.lamport ≥ t0.next_lamport then op.id.lamport + 1
          else t0.next_lamport) := by
      split
      · omega
      · omega
    have hall : OpsAll (fun o => o.id.lamport <
        (if op.id.lamport ≥ t0.next_lamport then op.id.lamport + 1
          else t0.next_lamport)) (assocPushList t0.ops peer [op]) := by
      refine OpsAll_assocPushList ?_ ?_
      · intro pl2 hpl2 o2 ho2
        exact lt_of_lt_of_le (h pl2 hpl2 o2 ho2) hnext
      · intro o2 ho2
        simp at ho2
        subst ho2
        split
        · omega
        · omega
    exact hall pl hpl o ho

theorem LamportInv_merge {S : Type} {A : Alg S} {t other : MovableTree S}
    {r : MovableTree S} (h : LamportInv t)
    (hr : MovableTree.mergeFrom A t other = some r) : LamportInv r := by
  unfold MovableTree.mergeFrom at hr
  rcases Option.map_eq_some'.1 hr with ⟨s, hs, hf⟩
  have hstep : ∀ (ls : List (Nat × List Op)) (acc : MovableTree S × List Op),
      LamportInv acc.1 → LamportInv (ls.foldl mergePeer acc).1 := by
    intro ls
    induction ls with
    | nil => intro acc h2; exact h2
    | cons pl rest ih =>
      intro acc h2
      simp only [List.foldl_cons]
      apply ih
      unfold mergePeer
      by_cases hc : pl.2.length > ((assocGet acc.1.ops pl.1).getD []).length
      · simp only [if_pos hc]
        exact LamportInv_pushLoop pl.1 _ acc.1 h2
      · simp only [if_neg hc]
        exact h2
  have hfold := hstep other.ops (t, []) h
  rw [← hf]
  intro pl hpl o ho
  exact hfold pl hpl o ho

/-- C6: on every replica state reachable through the facade (over either
algorithm, merging with arbitrary partners), `next_lamport` strictly exceeds
every lamport present in any per-peer op log. -/
theorem C6_monotone_lamport :
    (∀ t : MovableTree MartinTree, Reach martinAlg t → LamportInv t) ∧
    (∀ t : MovableTree EvanTree, Reach evanAlg t → LamportInv t) := by
  have main : ∀ (S : Type) (A : Alg S), ApplyEmitsOwnId A →
      ∀ t : MovableTree S, Reach A t → LamportInv t := by
    intro S A hA t h
    induction h with
    | init peer => intro pl hpl o ho; simp [MovableTree.newTree] at hpl
    | @create t0 r parent hre hrc ih =>
      unfold MovableTree.create at hrc
      rcases Option.map_eq_some'.1 hrc with ⟨p, happ, hf⟩
      rw [← hf]
      exact LamportInv_applyStep hA rfl happ ih
    | @mov t0 r target parent hre hrc ih =>
      cases hg : is_ancestor_of (A.parentOf t0.algorithm)
          ((A.nodesOf t0.algorithm).length + 2) target parent with
      | none => rw [mov_guard_none A t0 hg] at hrc; simp at hrc
      | some b =>
        cases b with
        | true =>
          rw [mov_guard_true A t0 hg] at hrc
          simp only [Option.some.injEq] at hrc
          rw [← hrc]
          exact ih
        | false =>
          rw [mov_guard_false A t0 hg] at hrc
          rcases Option.map_eq_some'.1 hrc with ⟨p, happ, hf⟩
          rw [← hf]
          exact LamportInv_applyStep hA rfl happ ih
    | @merge t0 r other hre hrc ih =>
      exact LamportInv_merge ih hrc
  exact ⟨main MartinTree martinAlg martin_emits_own_id,
    main EvanTree evanAlg evan_emits_own_id⟩

/-- C6 witness: the invariant holds on the concrete replica reached by one
create on a fresh Algorithm-M replica. -/
theorem C6_witness : LamportInv s1MartinA1.1 :=
  C6_monotone_lamport.1 s1MartinA1.1
    (@Reach.create MartinTree martinAlg (MovableTree.newTree martinAlg 0)
      s1MartinA1 none (Reach.init 0) rfl)

/-! ## C3: merge idempotence -/

/-- The recompute-relevant data of an Algorithm-E node map: keys, node ids
and edge maps (everything except the parent pointers the pass overwrites). -/
def stripParents (nodes : List (NodeID × ENode)) :
    List (NodeID × NodeID × List (NodeID × EdgeCounter)) :=
  nodes.map (fun kv => (kv.1, kv.2.id, kv.2.edges))

theorem stripParents_assocModify_parent {nodes : List (NodeID × ENode)} {c : NodeID}
    {p : Option NodeID} :
    stripParents (assocModify nodes c (fun n => { n with parent := p })) =
      stripParents nodes := by
  induction nodes with
  | nil => rfl
  | cons kv rest ih =>
    obtain ⟨k, n⟩ := kv
    by_cases hk : k = c
    · simp [assocModify, hk, stripParents]
    · simp only [assocModify, hk, if_false, stripParents, List.map_cons]
      simp only [stripParents] at ih
      rw [ih]

theorem stripParents_reattach : ∀ (fuel : Nat) (nodes : List (NodeID × ENode))
    (floating : List NodeID) (queue : List PQItem)
    (deferred : List (NodeID × List PQItem)),
    stripParents (reattach_loop fuel nodes floating queue deferred).1 =
      stripParents nodes := by
  intro fuel
  induction fuel with
  | zero => intro nodes floating queue deferred; rfl
  | succ fuel ih =>
    intro nodes floating queue deferred
    simp only [reattach_loop]
    cases extractMax queue with
    | none => rfl
    | some p =>
      obtain ⟨top, rest⟩ := p
      by_cases hc : top.child ∈ floating
      · simp only [hc, if_true]
        rw [ih, stripParents_assocModify_parent]
      · simp only [hc, if_false]
        exact ih nodes floating rest deferred

theorem stripParents_recompute_core (nodes1 : List (NodeID × ENode)) :
    stripParents (recompute_core nodes1).nodes = stripParents nodes1 := by
  unfold recompute_core
  by_cases hempty : ((nodes1.map (fun kv => kv.1)).filter
      (fun id => ¬ (EvanTree.mk nodes1).is_under_other id ROOT_ID)).isEmpty
  · simp only [hempty, if_true]
  · simp only [hempty, if_false]
    exact stripParents_reattach _ _ _ _ _

theorem stripParents_step1 (nodes : List (NodeID × ENode)) :
    stripParents (nodes.map (fun kv => (kv.1, { kv.2 with parent := kv.2.largest_edge })))
      = stripParents nodes := by
  induction nodes with
  | nil => rfl
  | cons kv rest ih =>
    simp only [stripParents, List.map_cons] at ih ⊢
    rw [ih]

theorem step1_congr : ∀ {nodes nodes2 : List (NodeID × ENode)},
    stripParents nodes = stripParents nodes2 →
    nodes.map (fun kv => (kv.1, { kv.2 with parent := kv.2.largest_edge })) =
      nodes2.map (fun kv => (kv.1, { kv.2 with parent := kv.2.largest_edge })) := by
  intro nodes
  induction nodes with
  | nil =>
    intro nodes2 h
    cases nodes2 with
    | nil => rfl
    | cons kv rest => simp [stripParents] at h
  | cons kv rest ih =>
    intro nodes2 h
    cases nodes2 with
    | nil => simp [stripParents] at h
    | cons kv2 rest2 =>
      obtain ⟨k, n⟩ := kv
      obtain ⟨k2, n2⟩ := kv2
      simp only [stripParents, List.map_cons, List.cons.injEq, Prod.mk.injEq] at h
      obtain ⟨⟨hk, hid, hedges⟩, hrest⟩ := h
      simp only [List.map_cons, List.cons.injEq]
      constructor
      · rw [hk]
        show (_, ENode.mk n.id (largest_edge_of n.edges) n.edges) =
          (_, ENode.mk n2.id (largest_edge_of n2.edges) n2.edges)
        rw [hid, hedges]
      · exact ih hrest

theorem recompute_congr {t t2 : EvanTree}
    (h : stripParents t.nodes = stripParents t2.nodes) :
    t.recompute_parent_children = t2.recompute_parent_children := by
  unfold EvanTree.recompute_parent_children
  rw [step1_congr h]

/-- The recompute pass is idempotent: it overwrites only parent pointers and
reads only keys, ids and edges. -/
theorem recompute_idem (t : EvanTree) :
    t.recompute_parent_children.recompute_parent_children =
      t.recompute_parent_children := by
  apply recompute_congr
  unfold EvanTree.recompute_parent_children
  rw [stripParents_recompute_core, stripParents_step1]

theorem assocGet_assocInsert_self {α β : Type} [DecidableEq α] :
    ∀ (l : List (α × β)) (k : α) (v : β), assocGet (assocInsert l k v) k = some v := by
  intro l k v
  induction l with
  | nil => simp [assocInsert, assocGet]
  | cons kv rest ih =>
    obtain ⟨k0, v0⟩ := kv
    by_cases hk : k0 = k
    · simp [assocInsert, hk, assocGet]
    · simp [assocInsert, hk, assocGet, ih]

theorem assocGet_assocInsert_other {α β : Type} [DecidableEq α]
    {l : List (α × β)} {k q : α} {v : β} (h : q ≠ k) :
    assocGet (assocInsert l k v) q = assocGet l q := by
  induction l with
  | nil => simp [assocInsert, assocGet, Ne.symm h]
  | cons kv rest ih =>
    obtain ⟨k0, v0⟩ := kv
    by_cases hk : k0 = k
    · subst hk
      have : ¬ k0 = q := fun hh => h hh.symm
      simp [assocInsert, assocGet, this]
    · by_cases hq : k0 = q
      · simp [assocInsert, hk, assocGet, hq, h]
      · simp [assocInsert, hk, assocGet, hq, ih]

theorem assocGet_append_single_other {α β : Type} [DecidableEq α]
    {l : List (α × β)} {k q : α} {v : β} (h : q ≠ k) :
    assocGet (l ++ [(k, v)]) q = assocGet l q := by
  induction l with
  | nil => simp [assocGet, Ne.symm h]
  | cons kv rest ih =>
    obtain ⟨k0, v0⟩ := kv
    by_cases hq : k0 = q
    · simp [assocGet, hq]
    · simp [assocGet, hq, ih]

theorem assocGet_append_single_self {α β : Type} [DecidableEq α]
    {l : List (α × β)} {k : α} {v : β} (h : assocGet l k = none) :
    assocGet (l ++ [(k, v)]) k = some v := by
  induction l with
  | nil => simp [assocGet]
  | cons kv rest ih =>
    obtain ⟨k0, v0⟩ := kv
    by_cases hk : k0 = k
    · simp [assocGet, hk] at h
    · simp [assocGet, hk] at h ⊢
      exact ih h

theorem assocGet_assocPushList_self {l : List (Nat × List Op)} {k : Nat}
    {items : List Op} :
    assocGet (assocPushList l k items) k = some ((assocGet l k).getD [] ++ items) := by
  unfold assocPushList
  cases hg : assocGet l k with
  | none => simp [assocGet_append_single_self hg]
  | some old => simp [assocGet_assocInsert_self]

theorem assocGet_assocPushList_other {l : List (Nat × List Op)} {k q : Nat}
    {items : List Op} (h : q ≠ k) :
    assocGet (assocPushList l k items) q = assocGet l q := by
  unfold assocPushList
  cases assocGet l k with
  | none => exact assocGet_append_single_other h
  | some old => exact assocGet_assocInsert_other h

/-- Length of the local log for peer `p`. -/
def lenAt {S : Type} (t : MovableTree S) (p : Nat) : Nat :=
  ((assocGet t.ops p).getD []).length

theorem pushLoop_get_self {S : Type} (peer : Nat) :
    ∀ (tail : List Op) (t0 : MovableTree S),
    (assocGet (tail.foldl (adoptOp peer) t0).ops peer).getD [] =
      (assocGet t0.ops peer).getD [] ++ tail := by
  intro tail
  induction tail with
  | nil =>
    intro t0
    simp
  | cons op rest ih =>
    intro t0
    simp only [List.foldl_cons]
    rw [ih]
    simp only [adoptOp, assocGet_assocPushList_self]
    simp

theorem pushLoop_get_other {S : Type} {peer q : Nat} (h : q ≠ peer) :
    ∀ (tail : List Op) (t0 : MovableTree S),
    assocGet (tail.foldl (adoptOp peer) t0).ops q = assocGet t0.ops q := by
  intro tail
  induction tail with
  | nil => intro t0; rfl
  | cons op rest ih =>
    intro t0
    simp only [List.foldl_cons]
    rw [ih]
    simp only [adoptOp]
    exact assocGet_assocPushList_other h

theorem mergePeer_lenAt_ge {S : Type} (acc : MovableTree S × List Op)
    (pl : Nat × List Op) (q : Nat) :
    lenAt acc.1 q ≤ lenAt (mergePeer acc pl).1 q := by
  unfold mergePeer
  by_cases hc : pl.2.length > ((assocGet acc.1.ops pl.1).getD []).length
  · simp only [if_pos hc]
    unfold lenAt
    by_cases hq : q = pl.1
    · subst hq
      rw [pushLoop_get_self]
      simp
    · rw [pushLoop_get_other hq]
  · simp only [if_neg hc]
    exact Nat.le_refl _

theorem mergePeer_lenAt_entry {S : Type} (acc : MovableTree S × List Op)
    (pl : Nat × List Op) :
    pl.2.length ≤ lenAt (mergePeer acc pl).1 pl.1 := by
  unfold mergePeer
  by_cases hc : pl.2.length > ((assocGet acc.1.ops pl.1).getD []).length
  · simp only [if_pos hc]
    unfold lenAt
    rw [pushLoop_get_self]
    simp only [List.length_append, List.length_drop]
    omega
  · simp only [if_neg hc]
    unfold lenAt
    omega

theorem foldl_mergePeer_lenAt_ge {S : Type} :
    ∀ (ls : List (Nat × List Op)) (acc : MovableTree S × List Op) (q : Nat),
    lenAt acc.1 q ≤ lenAt (ls.foldl mergePeer acc).1 q := by
  intro ls
  induction ls with
  | nil => intro acc q; exact Nat.le_refl _
  | cons pl rest ih =>
    intro acc q
    simp only [List.foldl_cons]
    exact Nat.le_trans (mergePeer_lenAt_ge acc pl q) (ih (mergePeer acc pl) q)

theorem foldl_mergePeer_entry {S : Type} :
    ∀ (ls : List (Nat × List Op)) (acc : MovableTree S × List Op),
    ∀ pl ∈ ls, pl.2.length ≤ lenAt (ls.foldl mergePeer acc).1 pl.1 := by
  intro ls
  induction ls with
  | nil => intro acc pl hpl; simp at hpl
  | cons pl0 rest ih =>
    intro acc pl hpl
    simp only [List.foldl_cons]
    rcases List.mem_cons.1 hpl with h1 | h2
    · subst h1
      exact Nat.le_trans (mergePeer_lenAt_entry acc pl)
        (foldl_mergePeer_lenAt_ge rest (mergePeer acc pl) pl.1)
    · exact ih (mergePeer acc pl0) pl h2

theorem foldl_mergePeer_trivial {S : Type} :
    ∀ (ls : List (Nat × List Op)) (t : MovableTree S) (ans : List Op),
    (∀ pl ∈ ls, pl.2.length ≤ lenAt t pl.1) →
    ls.foldl mergePeer (t, ans) = (t, ans) := by
  intro ls
  induction ls with
  | nil => intro t ans h; rfl
  | cons pl rest ih =>
    intro t ans h
    simp only [List.foldl_cons]
    have hstep : mergePeer (t, ans) pl = (t, ans) := by
      unfold mergePeer
      have := h pl (List.mem_cons_self _ _)
      unfold lenAt at this
      simp only [if_neg (by omega : ¬ pl.2.length > ((assocGet t.ops pl.1).getD []).length)]
    rw [hstep]
    exact ih t ans (fun pl2 hpl2 => h pl2 (List.mem_cons_of_mem _ hpl2))

/-- C3: merging the same replica twice is a no-op — for either algorithm,
if `a.merge(&b)` produced `a1`, then `a1.merge(&b)` succeeds and leaves `a1`
exactly unchanged (the second merge adopts no ops; Algorithm-M's merge of an
empty batch returns immediately, and Algorithm-E's re-runs the recompute
pass, which is idempotent). -/
theorem C3_merge_idempotent :
    (∀ a b a1 : MovableTree MartinTree,
      MovableTree.mergeFrom martinAlg a b = some a1 →
      MovableTree.mergeFrom martinAlg a1 b = some a1) ∧
    (∀ a b a1 : MovableTree EvanTree,
      MovableTree.mergeFrom evanAlg a b = some a1 →
      MovableTree.mergeFrom evanAlg a1 b = some a1) := by
  constructor
  · intro a b a1 h
    unfold MovableTree.mergeFrom at h ⊢
    rcases Option.map_eq_some'.1 h with ⟨s, hs, hf⟩
    have hops : a1.ops = (b.ops.foldl mergePeer (a, [])).1.ops := by
      rw [← hf]
    have htriv : b.ops.foldl mergePeer (a1, []) = (a1, []) := by
      apply foldl_mergePeer_trivial
      intro pl hpl
      have h1 := foldl_mergePeer_entry b.ops (a, []) pl hpl
      unfold lenAt at h1 ⊢
      rw [hops]
      exact h1
    rw [htriv]
    rfl
  · intro a b a1 h
    unfold MovableTree.mergeFrom at h ⊢
    rcases Option.map_eq_some'.1 h with ⟨s, hs, hf⟩
    have hops : a1.ops = (b.ops.foldl mergePeer (a, [])).1.ops := by
      rw [← hf]
    have halg : a1.algorithm = s := by rw [← hf]
    have htriv : b.ops.foldl mergePeer (a1, []) = (a1, []) := by
      apply foldl_mergePeer_trivial
      intro pl hpl
      have h1 := foldl_mergePeer_entry b.ops (a, []) pl hpl
      unfold lenAt at h1 ⊢
      rw [hops]
      exact h1
    rw [htriv]
    -- the first merge ended in a recompute, so re-running it is the identity
    have hrec : ∃ y : EvanTree, s = y.recompute_parent_children := by
      have hs2 : EvanTree.merge (b.ops.foldl mergePeer (a, [])).1.algorithm
          (b.ops.foldl mergePeer (a, [])).2 = some s := hs
      unfold EvanTree.merge at hs2
      rcases Option.map_eq_some'.1 hs2 with ⟨y, hy, hyf⟩
      exact ⟨y, hyf.symm⟩
    obtain ⟨y, hy⟩ := hrec
    show (EvanTree.merge a1.algorithm []).map _ = some a1
    have hmerge : EvanTree.merge a1.algorithm [] = some a1.algorithm := by
      have h0 : EvanTree.merge a1.algorithm [] =
          some a1.algorithm.recompute_parent_children := rfl
      rw [h0, halg, hy, recompute_idem]
    rw [hmerge]
    rfl

/-- C3 witness: re-merging peer 0's two creates into peer 1's replica leaves
it exactly unchanged. -/
theorem C3_witness :
    MovableTree.mergeFrom martinAlg s1MartinB1 s1MartinA2.1 = some s1MartinB1 :=
  C3_merge_idempotent.1 s1MartinB0 s1MartinA2.1 s1MartinB1 rfl

/-! ## C4: merge commutativity for disjoint histories -/

theorem assocGet_none_of_keys {α β : Type} [DecidableEq α] :
    ∀ {l : List (α × β)} {p : α}, (∀ ql ∈ l, p ≠ ql.1) → assocGet l p = none := by
  intro l
  induction l with
  | nil => intro p h; rfl
  | cons kv rest ih =>
    intro p h
    have hne := h kv (List.mem_cons_self _ _)
    simp only [assocGet]
    rw [if_neg (fun hh => hne hh.symm)]
    exact ih (fun ql hql => h ql (List.mem_cons_of_mem _ hql))

theorem assocGet_nodup_mem {α β : Type} [DecidableEq α] :
    ∀ {l : List (α × β)} {p : α} {v : β},
    (l.map (fun kv => kv.1)).Nodup → (p, v) ∈ l → assocGet l p = some v := by
  intro l
  induction l with
  | nil => intro p v _ h; simp at h
  | cons kv rest ih =>
    intro p v hnd hmem
    obtain ⟨k0, v0⟩ := kv
    simp only [List.map_cons, List.nodup_cons] at hnd
    rcases List.mem_cons.1 hmem with h1 | h2
    · injection h1 with hk hv
      subst hk; subst hv
      simp [assocGet]
    · have hne : k0 ≠ p := by
        intro hh
        subst hh
        exact hnd.1 (List.mem_map.2 ⟨(k0, v), h2, rfl⟩)
      simp only [assocGet]
      rw [if_neg hne]
      exact ih hnd.2 h2

theorem assocInsert_append_last {α β : Type} [DecidableEq α] :
    ∀ {base : List (α × β)} {p : α} {w v : β}, assocGet base p = none →
    assocInsert (base ++ [(p, w)]) p v = base ++ [(p, v)] := by
  intro base
  induction base with
  | nil => intro p w v _; simp [assocInsert]
  | cons kv rest ih =>
    intro p w v h
    obtain ⟨k0, v0⟩ := kv
    simp only [assocGet] at h
    by_cases hk : k0 = p
    · rw [if_pos hk] at h; simp at h
    · rw [if_neg hk] at h
      simp only [List.cons_append, assocInsert, hk, if_false, List.append_eq]
      rw [ih h]

theorem adoptFold_ops_last {S : Type} {p : Nat} :
    ∀ (log : List Op) (t : MovableTree S) (base : List (Nat × List Op))
    (cur : List Op), t.ops = base ++ [(p, cur)] → assocGet base p = none →
    (log.foldl (adoptOp p) t).ops = base ++ [(p, cur ++ log)] := by
  intro log
  induction log with
  | nil =>
    intro t base cur ht _
    simpa using ht
  | cons op rest ih =>
    intro t base cur ht hb
    simp only [List.foldl_cons]
    have hops : (adoptOp p t op).ops = base ++ [(p, cur ++ [op])] := by
      simp only [adoptOp, ht]
      unfold assocPushList
      rw [assocGet_append_single_self hb]
      simp only [Option.getD_some]
      exact assocInsert_append_last hb
    have := ih (adoptOp p t op) base (cur ++ [op]) hops hb
    rw [this, List.append_assoc]
    simp

theorem adoptFold_ops_fresh {S : Type} {p : Nat} {log : List Op}
    {t : MovableTree S} (hfresh : assocGet t.ops p = none) (hne : log ≠ []) :
    (log.foldl (adoptOp p) t).ops = t.ops ++ [(p, log)] := by
  cases log with
  | nil => exact absurd rfl hne
  | cons op rest =>
    simp only [List.foldl_cons]
    have hops : (adoptOp p t op).ops = t.ops ++ [(p, [op])] := by
      simp only [adoptOp]
      unfold assocPushList
      rw [hfresh]
    exact adoptFold_ops_last rest (adoptOp p t op) t.ops [op] hops hfresh

theorem mergeFold_fresh_ops {S : Type} :
    ∀ (ls : List (Nat × List Op)) (t : MovableTree S) (ans : List Op),
    (∀ pl ∈ ls, assocGet t.ops pl.1 = none) →
    (ls.map (fun pl => pl.1)).Nodup →
    (ls.foldl mergePeer (t, ans)).1.ops =
      t.ops ++ ls.filter (fun pl => !pl.2.isEmpty) := by
  intro ls
  induction ls with
  | nil => intro t ans _ _; simp
  | cons pl rest ih =>
    intro t ans hfresh hnd
    obtain ⟨p, log⟩ := pl
    simp only [List.map_cons, List.nodup_cons] at hnd
    have hfp : assocGet t.ops p = none := hfresh (p, log) (List.mem_cons_self _ _)
    simp only [List.foldl_cons]
    cases log with
    | nil =>
      have hstep : mergePeer (t, ans) (p, []) = (t, ans) := by
        unfold mergePeer
        simp [hfp]
      rw [hstep]
      rw [ih t ans (fun ql hql => hfresh ql (List.mem_cons_of_mem _ hql)) hnd.2]
      simp [List.filter]
    | cons op rest2 =>
      have hstep : mergePeer (t, ans) (p, op :: rest2) =
          ((op :: rest2).foldl (adoptOp p) t, ans ++ (op :: rest2)) := by
        unfold mergePeer
        simp [hfp]
      rw [hstep]
      have hops1 : ((op :: rest2).foldl (adoptOp p) t).ops =
          t.ops ++ [(p, op :: rest2)] :=
        adoptFold_ops_fresh hfp (by simp)
      have hfresh2 : ∀ ql ∈ rest,
          assocGet ((op :: rest2).foldl (adoptOp p) t).ops ql.1 = none := by
        intro ql hql
        rw [hops1]
        have hqp : ql.1 ≠ p := by
          intro hh
          exact hnd.1 (List.mem_map.2 ⟨ql, hql, hh⟩)
        rw [assocGet_append_single_other hqp]
        exact hfresh ql (List.mem_cons_of_mem _ hql)
      rw [ih _ _ hfresh2 hnd.2, hops1]
      simp [List.filter, List.append_assoc]

/-- C4: for replicas with disjoint op histories (no shared peer ids in their
logs, each log map keyed without duplicates), the two orders of mutual
merging commute: if `a.merge(&b)` yields `a1` and `b.merge(&a)` yields `b2`,
then merging the already-updated partner gives the same states —
`a.merge(&b2) = a1` and `b.merge(&a1) = b2`.  (So
`a.merge(&b); b.merge(&a)` and `b.merge(&a); a.merge(&b)` end in identical
`(a, b)` pairs.) -/
theorem C4_merge_commutative {S : Type} (A : Alg S) (a b : MovableTree S)
    (hdisj : ∀ pl ∈ a.ops, ∀ ql ∈ b.ops, pl.1 ≠ ql.1)
    (hna : (a.ops.map (fun pl => pl.1)).Nodup)
    (hnb : (b.ops.map (fun pl => pl.1)).Nodup)
    (a1 b2 : MovableTree S)
    (hab : MovableTree.mergeFrom A a b = some a1)
    (hba : MovableTree.mergeFrom A b a = some b2) :
    MovableTree.mergeFrom A a b2 = some a1 ∧
    MovableTree.mergeFrom A b a1 = some b2 := by
  have hfab : ∀ pl ∈ a.ops, assocGet b.ops pl.1 = none := by
    intro pl hpl
    exact assocGet_none_of_keys (fun ql hql => hdisj pl hpl ql hql)
  have hfba : ∀ pl ∈ b.ops, assocGet a.ops pl.1 = none := by
    intro pl hpl
    exact assocGet_none_of_keys (fun ql hql => Ne.symm (hdisj ql hql pl hpl))
  have hb2ops : b2.ops = b.ops ++ a.ops.filter (fun pl => !pl.2.isEmpty) := by
    unfold MovableTree.mergeFrom at hba
    rcases Option.map_eq_some'.1 hba with ⟨s, hs, hf⟩
    rw [← hf]
    exact mergeFold_fresh_ops a.ops b [] hfab hna
  have ha1ops : a1.ops = a.ops ++ b.ops.filter (fun pl => !pl.2.isEmpty) := by
    unfold MovableTree.mergeFrom at hab
    rcases Option.map_eq_some'.1 hab with ⟨s, hs, hf⟩
    rw [← hf]
    exact mergeFold_fresh_ops b.ops a [] hfba hnb
  have htriv1 : (a.ops.filter (fun pl => !pl.2.isEmpty)).foldl mergePeer
      (b.ops.foldl mergePeer (a, [])) = b.ops.foldl mergePeer (a, []) := by
    rw [show b.ops.foldl mergePeer (a, ([] : List Op)) =
      ((b.ops.foldl mergePeer (a, [])).1, (b.ops.foldl mergePeer (a, [])).2) from rfl]
    apply foldl_mergePeer_trivial
    intro pl hpl
    have hmem : pl ∈ a.ops := List.mem_of_mem_filter hpl
    have hlen : lenAt a pl.1 = pl.2.length := by
      unfold lenAt
      rw [assocGet_nodup_mem hna (show (pl.1, pl.2) ∈ a.ops by simpa using hmem)]
      rfl
    have hge : lenAt a pl.1 ≤ lenAt (b.ops.foldl mergePeer (a, [])).1 pl.1 :=
      foldl_mergePeer_lenAt_ge b.ops (a, []) pl.1
    rw [hlen] at hge
    exact hge
  have htriv2 : (b.ops.filter (fun pl => !pl.2.isEmpty)).foldl mergePeer
      (a.ops.foldl mergePeer (b, [])) = a.ops.foldl mergePeer (b, []) := by
    rw [show a.ops.foldl mergePeer (b, ([] : List Op)) =
      ((a.ops.foldl mergePeer (b, [])).1, (a.ops.foldl mergePeer (b, [])).2) from rfl]
    apply foldl_mergePeer_trivial
    intro pl hpl
    have hmem : pl ∈ b.ops := List.mem_of_mem_filter hpl
    have hlen : lenAt b pl.1 = pl.2.length := by
      unfold lenAt
      rw [assocGet_nodup_mem hnb (show (pl.1, pl.2) ∈ b.ops by simpa using hmem)]
      rfl
    have hge : lenAt b pl.1 ≤ lenAt (a.ops.foldl mergePeer (b, [])).1 pl.1 :=
      foldl_mergePeer_lenAt_ge a.ops (b, []) pl.1
    rw [hlen] at hge
    exact hge
  constructor
  · unfold MovableTree.mergeFrom
    rw [hb2ops, List.foldl_append, htriv1]
    unfold MovableTree.mergeFrom at hab
    exact hab
  · unfold MovableTree.mergeFrom
    rw [ha1ops, List.foldl_append, htriv2]
    unfold MovableTree.mergeFrom at hba
    exact hba

/-- C4 witness: peer 0's replica with two creates and a fresh peer 1 replica
have disjoint histories; both merge orders agree. -/
theorem C4_witness :
    MovableTree.mergeFrom martinAlg s1MartinA2.1 s1MartinB1 = some s1MartinA2.1 ∧
    MovableTree.mergeFrom martinAlg s1MartinB0 s1MartinA2.1 = some s1MartinB1 :=
  C4_merge_commutative martinAlg s1MartinA2.1 s1MartinB0 (by decide) (by decide)
    (by decide) s1MartinA2.1 s1MartinB1 rfl rfl

/-! ## C8: rendering determinism -/

theorem NodeID.cmp_lt_trans {a b c : NodeID} (h1 : NodeID.cmp a b = .lt)
    (h2 : NodeID.cmp b c = .lt) : NodeID.cmp a c = .lt := by
  rw [NodeID.cmp_lt_char] at h1 h2 ⊢
  omega

theorem NodeID.cmp_swap (a b : NodeID) : (NodeID.cmp a b).swap = NodeID.cmp b a := by
  cases h : NodeID.cmp a b with
  | lt =>
    rw [NodeID.cmp_lt_char] at h
    have h2 : NodeID.cmp b a = .gt := by rw [NodeID.cmp_gt_char]; omega
    rw [h2]; rfl
  | eq =>
    rw [NodeID.cmp_eq_char] at h
    subst h
    rw [NodeID.cmp_refl]
    rfl
  | gt =>
    rw [NodeID.cmp_gt_char] at h
    have h2 : NodeID.cmp b a = .lt := by rw [NodeID.cmp_lt_char]; omega
    rw [h2]; rfl

mutual

theorem TreeNode.cmp_eq_iff : ∀ a b : TreeNode, TreeNode.cmp a b = .eq ↔ a = b
  | .mk i1 c1, .mk i2 c2 => by
    rw [TreeNode.cmp, Ordering.then_eq_eq, NodeID.cmp_eq_char,
      TreeNode.cmpList_eq_iff c1 c2]
    constructor
    · rintro ⟨h1, h2⟩; rw [h1, h2]
    · intro h; injection h with h1 h2; exact ⟨h1, h2⟩

theorem TreeNode.cmpList_eq_iff : ∀ l1 l2 : List TreeNode,
    TreeNode.cmpList l1 l2 = .eq ↔ l1 = l2
  | [], [] => by simp [TreeNode.cmpList]
  | [], _ :: _ => by simp [TreeNode.cmpList]
  | _ :: _, [] => by simp [TreeNode.cmpList]
  | a :: as_, b :: bs => by
    rw [TreeNode.cmpList, Ordering.then_eq_eq, TreeNode.cmp_eq_iff a b,
      TreeNode.cmpList_eq_iff as_ bs]
    constructor
    · rintro ⟨h1, h2⟩; rw [h1, h2]
    · intro h; injection h with h1 h2; exact ⟨h1, h2⟩

end

theorem TreeNode.cmp_same (a : TreeNode) : TreeNode.cmp a a = .eq :=
  (TreeNode.cmp_eq_iff a a).2 rfl

mutual

theorem TreeNode.cmp_swap_eq : ∀ a b : TreeNode,
    (TreeNode.cmp a b).swap = TreeNode.cmp b a
  | .mk i1 c1, .mk i2 c2 => by
    rw [TreeNode.cmp, TreeNode.cmp, Ordering.swap_then, NodeID.cmp_swap,
      TreeNode.cmpList_swap c1 c2]

theorem TreeNode.cmpList_swap : ∀ l1 l2 : List TreeNode,
    (TreeNode.cmpList l1 l2).swap = TreeNode.cmpList l2 l1
  | [], [] => rfl
  | [], _ :: _ => rfl
  | _ :: _, [] => rfl
  | a :: as_, b :: bs => by
    rw [TreeNode.cmpList, TreeNode.cmpList, Ordering.swap_then,
      TreeNode.cmp_swap_eq a b, TreeNode.cmpList_swap as_ bs]

end

mutual

theorem TreeNode.cmp_trans_lt : ∀ {a b c : TreeNode},
    TreeNode.cmp a b = .lt → TreeNode.cmp b c = .lt → TreeNode.cmp a c = .lt
  | .mk i1 c1, .mk i2 c2, .mk i3 c3 => by
    rw [TreeNode.cmp, TreeNode.cmp, TreeNode.cmp, Ordering.then_eq_lt,
      Ordering.then_eq_lt, Ordering.then_eq_lt]
    rintro (h1 | ⟨h1e, h1l⟩) (h2 | ⟨h2e, h2l⟩)
    · exact Or.inl (NodeID.cmp_lt_trans h1 h2)
    · rw [NodeID.cmp_eq_char] at h2e
      subst h2e
      exact Or.inl h1
    · rw [NodeID.cmp_eq_char] at h1e
      subst h1e
      exact Or.inl h2
    · rw [NodeID.cmp_eq_char] at h1e
      subst h1e
      exact Or.inr ⟨h2e, TreeNode.cmpList_lt_trans h1l h2l⟩

theorem TreeNode.cmpList_lt_trans : ∀ {l1 l2 l3 : List TreeNode},
    TreeNode.cmpList l1 l2 = .lt → TreeNode.cmpList l2 l3 = .lt →
    TreeNode.cmpList l1 l3 = .lt
  | [], [], _ => by intro h _; simp [TreeNode.cmpList] at h
  | [], _ :: _, [] => by intro _ h; simp [TreeNode.cmpList] at h
  | [], _ :: _, _ :: _ => by intro _ _; simp [TreeNode.cmpList]
  | _ :: _, [], _ => by intro h _; simp [TreeNode.cmpList] at h
  | _ :: _, _ :: _, [] => by intro _ h; simp [TreeNode.cmpList] at h
  | a :: as_, b :: bs, c :: cs => by
    rw [TreeNode.cmpList, TreeNode.cmpList, TreeNode.cmpList, Ordering.then_eq_lt,
      Ordering.then_eq_lt, Ordering.then_eq_lt]
    rintro (h1 | ⟨h1e, h1l⟩) (h2 | ⟨h2e, h2l⟩)
    · exact Or.inl (TreeNode.cmp_trans_lt h1 h2)
    · rw [TreeNode.cmp_eq_iff] at h2e
      subst h2e
      exact Or.inl h1
    · rw [TreeNode.cmp_eq_iff] at h1e
      subst h1e
      exact Or.inl h2
    · rw [TreeNode.cmp_eq_iff] at h1e
      subst h1e
      exact Or.inr ⟨h2e, TreeNode.cmpList_lt_trans h1l h2l⟩

end

theorem TreeNode.le_iff {a b : TreeNode} :
    TreeNode.le a b ↔ TreeNode.cmp a b = .lt ∨ a = b := by
  unfold TreeNode.le
  cases h : TreeNode.cmp a b with
  | lt => simp
  | eq => simp [(TreeNode.cmp_eq_iff a b).1 h]
  | gt =>
    constructor
    · intro hh; exact absurd rfl hh
    · rintro (hh | hh)
      · simp at hh
      · subst hh
        rw [TreeNode.cmp_same] at h
        simp at h

instance : IsTrans TreeNode TreeNode.le := by
  constructor
  intro a b c h1 h2
  rcases TreeNode.le_iff.1 h1 with hl1 | he1
  · rcases TreeNode.le_iff.1 h2 with hl2 | he2
    · exact TreeNode.le_iff.2 (Or.inl (TreeNode.cmp_trans_lt hl1 hl2))
    · subst he2; exact TreeNode.le_iff.2 (Or.inl hl1)
  · subst he1; exact h2

instance : IsTotal TreeNode TreeNode.le := by
  constructor
  intro a b
  cases h : TreeNode.cmp a b with
  | lt => exact Or.inl (by unfold TreeNode.le; simp [h])
  | eq => exact Or.inl (by unfold TreeNode.le; simp [h])
  | gt =>
    refine Or.inr ?_
    unfold TreeNode.le
    rw [← TreeNode.cmp_swap_eq a b, h]
    simp [Ordering.swap]

instance : IsAntisymm TreeNode TreeNode.le := by
  constructor
  intro a b h1 h2
  rcases TreeNode.le_iff.1 h1 with hl1 | he1
  · rcases TreeNode.le_iff.1 h2 with hl2 | he2
    · exfalso
      have := TreeNode.cmp_swap_eq a b
      rw [hl1, hl2] at this
      simp [Ordering.swap] at this
    · exact he2.symm
  · exact he1

/-- Sorting by the derived `Ord` canonicalises any permutation: the sorted
result depends only on the multiset of trees. -/
theorem sortTreeNodes_perm_eq {l1 l2 : List TreeNode} (h : l1.Perm l2) :
    sortTreeNodes l1 = sortTreeNodes l2 :=
  List.eq_of_perm_of_sorted
    ((l1.perm_insertionSort TreeNode.le).trans
      (h.trans (l2.perm_insertionSort TreeNode.le).symm))
    (List.sorted_insertionSort TreeNode.le l1)
    (List.sorted_insertionSort TreeNode.le l2)

/-- `TreeNode::build_tree` depends only on the parent map as a mapping: any
permutation of the underlying entry list yields the same tree. -/
theorem build_tree_perm : ∀ (fuel : Nat) {l1 l2 : List (NodeID × Option NodeID)},
    l1.Perm l2 → ∀ k, TreeNode.build_tree fuel k l1 = TreeNode.build_tree fuel k l2 := by
  intro fuel
  induction fuel with
  | zero => intro l1 l2 _ k; rfl
  | succ fuel ih =>
    intro l1 l2 h k
    simp only [TreeNode.build_tree]
    congr 1
    apply sortTreeNodes_perm_eq
    have hcongr : l1.filterMap (fun kv =>
        if kv.2 = some k then some (TreeNode.build_tree fuel kv.1 l1) else none) =
        l1.filterMap (fun kv =>
        if kv.2 = some k then some (TreeNode.build_tree fuel kv.1 l2) else none) := by
      apply List.filterMap_congr
      intro kv _
      by_cases hkv : kv.2 = some k
      · simp [hkv, ih h kv.1]
      · simp [hkv]
    rw [hcongr]
    exact h.filterMap _

/-- `find?` returns the head of the filtered list. -/
theorem find?_eq_head_filter {α : Type} (p : α → Bool) :
    ∀ l : List α, l.find? p = (l.filter p).head? := by
  intro l
  induction l with
  | nil => rfl
  | cons x rest ih =>
    by_cases hx : p x
    · simp [List.find?_cons, hx, List.filter_cons, List.head?]
    · simp only [List.find?_cons, List.filter_cons, hx]
      simp only [Bool.false_eq_true, if_false, cond_false]
      exact ih

/-- When exactly one entry satisfies `p`, `find?` is permutation-invariant:
it returns that entry. -/
theorem find?_unique_perm {α : Type} {p : α → Bool} {l1 l2 : List α}
    (h : l1.Perm l2) (hone : (l1.filter p).length = 1) :
    l1.find? p = l2.find? p := by
  rw [find?_eq_head_filter, find?_eq_head_filter]
  have hperm : (l1.filter p).Perm (l2.filter p) := h.filter p
  cases hf1 : l1.filter p with
  | nil => rw [hf1] at hone; simp at hone
  | cons x rest =>
    rw [hf1] at hone hperm
    simp at hone
    subst hone
    have := List.Perm.length_eq hperm
    cases hf2 : l2.filter p with
    | nil => rw [hf2] at this; simp at this
    | cons y rest2 =>
      rw [hf2] at this hperm
      simp at this
      subst this
      have hy : x = y := by
        have hx2 : x ∈ [y] := hperm.mem_iff.1 (List.mem_singleton_self x)
        simpa using hx2
      rw [hy]

/-! C8 counterexample schedule: peer 0 creates under a nonexistent parent
`7@7` (the public `create` accepts any `NodeID`), peer 1 creates under ROOT;
they then merge.  Both replicas end with the same four-entry parent map —
`{7@7 → None, 0@0 → 7@7, ROOT → None, 0@1 → ROOT}` — but in different
insertion orders, and with *two* parentless keys the rendered root is
whichever comes first in iteration order. -/

def c8fake : NodeID := ⟨7, 7⟩

def c8A0 : MovableTree MartinTree := MovableTree.newTree martinAlg 0

def c8B0 : MovableTree MartinTree := MovableTree.newTree martinAlg 1

def c8A1 : MovableTree MartinTree × NodeID :=
  (MovableTree.create martinAlg c8A0 (some c8fake)).getD (c8A0, ROOT_ID)

def c8B1 : MovableTree MartinTree × NodeID :=
  (MovableTree.create martinAlg c8B0 none).getD (c8B0, ROOT_ID)

def c8A2 : MovableTree MartinTree :=
  (MovableTree.mergeFrom martinAlg c8A1.1 c8B1.1).getD c8A0

def c8B2 : MovableTree MartinTree :=
  (MovableTree.mergeFrom martinAlg c8B1.1 c8A2).getD c8B0

/-- C8 counterexample: two Algorithm-M replicas reached through the public
API whose parent maps are equal as mappings (permutations of each other,
duplicate-free keys) yet whose rendered strings differ — with two parentless
keys, `from_state` roots the render at whichever one iteration order yields
first.  Refutes the claim as stated; the uniqueness of the `None` entry is
the missing hypothesis. -/
theorem C8_counterexample :
    MovableTree.create martinAlg c8A0 (some c8fake) = some c8A1 ∧
    MovableTree.create martinAlg c8B0 none = some c8B1 ∧
    MovableTree.mergeFrom martinAlg c8A1.1 c8B1.1 = some c8A2 ∧
    MovableTree.mergeFrom martinAlg c8B1.1 c8A2 = some c8B2 ∧
    c8A2.algorithm.tree.Perm c8B2.algorithm.tree ∧
    (c8A2.algorithm.tree.map (fun kv => kv.1)).Nodup ∧
    MovableTree.to_string martinAlg c8A2 =
      some "└── Node[ 7@7 ]\n    └── Node[ 0@0 ]\n" ∧
    MovableTree.to_string martinAlg c8B2 =
      some "└── ROOT\n    └── Node[ 0@1 ]\n" ∧
    MovableTree.to_string martinAlg c8A2 ≠ MovableTree.to_string martinAlg c8B2 :=
  ⟨rfl, rfl, rfl, rfl, by decide, by decide, rfl, rfl, by decide⟩

/-- C8 amended: rendering is a deterministic function of the parent map *as
a mapping* provided exactly one key maps to `None` (which holds on every
state whose creates name existing parents): permuting the entry list changes
neither the tree `from_state` builds nor the rendered string; the children
of the rendered root are sorted ascending in the derived `TreeNode` order
(which orders by `(lamport, peer)` of the id first); `ROOT` displays as the
literal `ROOT` and any other node as `Node[ <lamport>@<peer> ]`. -/
theorem C8_render_deterministic {l1 l2 : List (NodeID × Option NodeID)}
    (hperm : l1.Perm l2)
    (hone : (l1.filter (fun kv => kv.2 = none)).length = 1) :
    TreeNode.from_state l1 = TreeNode.from_state l2 ∧
    (TreeNode.from_state l1).map (fun t => t.render "" true) =
      (TreeNode.from_state l2).map (fun t => t.render "" true) ∧
    (∀ t, TreeNode.from_state l1 = some t → t.children.Sorted TreeNode.le) ∧
    ROOT_ID.display = "ROOT" ∧
    (∀ n : NodeID, n ≠ ROOT_ID →
      n.display = "Node[ " ++ toString n.lamport ++ "@" ++ toString n.peer ++ " ]") := by
  have hfind : l1.find? (fun kv => kv.2 = none) = l2.find? (fun kv => kv.2 = none) :=
    find?_unique_perm hperm hone
  have hmain : TreeNode.from_state l1 = TreeNode.from_state l2 := by
    unfold TreeNode.from_state
    rw [hfind]
    cases hf : l2.find? (fun kv => kv.2 = none) with
    | none => rfl
    | some kv =>
      simp only [Option.map_some']
      rw [hperm.length_eq, build_tree_perm (l2.length + 1) hperm kv.1]
  refine ⟨hmain, by rw [hmain], ?_, rfl, ?_⟩
  · intro t ht
    unfold TreeNode.from_state at ht
    rcases Option.map_eq_some'.1 ht with ⟨kv, hkv, hbuild⟩
    rw [← hbuild]
    show (TreeNode.build_tree (l1.length + 1) kv.1 l1).children.Sorted TreeNode.le
    simp only [TreeNode.build_tree, TreeNode.children]
    exact List.sorted_insertionSort TreeNode.le _
  · intro n hn
    simp [NodeID.display, hn]

/-- C8 witness: the map `{ROOT → None, 1@0 → ROOT}` in its two orders
renders identically. -/
theorem C8_witness :
    TreeNode.from_state [(ROOT_ID, none), (⟨1, 0⟩, some ROOT_ID)] =
      TreeNode.from_state [(⟨1, 0⟩, some ROOT_ID), (ROOT_ID, none)] :=
  (C8_render_deterministic (by decide) (by decide)).1

/-! ## C5: tree-ness — shared rootedness machinery

Both algorithms expose a parent map `NodeID → Option NodeID`; tree-ness is
phrased through parent-chain reachability over such maps. -/

/-- The parent function of a parent-map association list (missing keys and
`None` values both give `none`, as `tree.get(id).copied().flatten()` does). -/
def pfOf (state : List (NodeID × Option NodeID)) (n : NodeID) : Option NodeID :=
  (assocGet state n).bind (fun p => p)

/-- `c`'s parent chain reaches `ROOT` while avoiding the nodes in `bad`. -/
inductive RootedF (pf : NodeID → Option NodeID) (bad : List NodeID) : NodeID → Prop where
  | root (h : ROOT_ID ∉ bad) : RootedF pf bad ROOT_ID
  | step {c p : NodeID} (hc : c ∉ bad) (hp : pf c = some p)
      (hr : RootedF pf bad p) : RootedF pf bad c

/-- Parent-chain reachability (reflexive-transitive closure of the parent
step). -/
def ReachesF (pf : NodeID → Option NodeID) : NodeID → NodeID → Prop :=
  Relation.ReflTransGen (fun x y => pf x = some y)

theorem RootedF_mono {pf : NodeID → Option NodeID} {bad bad2 : List NodeID}
    (hsub : ∀ x ∈ bad2, x ∈ bad) {c : NodeID} (h : RootedF pf bad c) :
    RootedF pf bad2 c := by
  induction h with
  | root h => exact RootedF.root (fun hx => h (hsub _ hx))
  | step hc hp hr ih => exact RootedF.step (fun hx => hc (hsub _ hx)) hp ih

/-- Chains that avoid `bad` transfer to any parent function agreeing outside
`bad`. -/
theorem RootedF_transfer {pf pf2 : NodeID → Option NodeID} {bad : List NodeID}
    (hagree : ∀ y, y ∉ bad → pf2 y = pf y) {c : NodeID}
    (h : RootedF pf bad c) : RootedF pf2 bad c := by
  induction h with
  | root h => exact RootedF.root h
  | step hc hp hr ih => exact RootedF.step hc ((hagree _ hc).trans hp) ih

/-- The parent function is deterministic, so two reachability targets from
one source are comparable. -/
theorem ReachesF_total {pf : NodeID → Option NodeID} {a b c : NodeID}
    (h1 : ReachesF pf a b) (h2 : ReachesF pf a c) :
    ReachesF pf b c ∨ ReachesF pf c b := by
  induction h1 using Relation.ReflTransGen.head_induction_on with
  | refl => exact Or.inl h2
  | head hstep htail ih =>
    rename_i x y
    rcases (Relation.ReflTransGen.cases_head h2) with h3 | ⟨z, hz, h4⟩
    · subst h3
      exact Or.inr (Relation.ReflTransGen.head hstep htail)
    · rw [hstep] at hz
      injection hz with hz
      subst hz
      exact ih h4

/-- A rooted node is not reachable from its own parent (no cycles through
rooted nodes), assuming `ROOT` itself has no parent. -/
theorem RootedF_no_cycle {pf : NodeID → Option NodeID}
    (hroot : pf ROOT_ID = none) {c : NodeID} (h : RootedF pf [] c) :
    ∀ p, pf c = some p → ¬ ReachesF pf p c := by
  induction h with
  | root h =>
    intro p hp
    rw [hroot] at hp
    simp at hp
  | step hc hp hr ih =>
    rename_i c0 p0
    intro p hp2 hreach
    rw [hp] at hp2
    injection hp2 with hpp
    subst hpp
    rcases Relation.ReflTransGen.cases_head hreach with h3 | ⟨z, hz, h4⟩
    · subst h3
      exact ih _ hp Relation.ReflTransGen.refl
    · exact ih z hz (Relation.ReflTransGen.tail h4 hp)

mutual

/-- All node ids appearing in a rendered tree, in render order. -/
def TreeNode.renderedIds : TreeNode → List NodeID
  | .mk id children => id :: TreeNode.renderedIdsList children

/-- Concatenated rendered ids of a forest. -/
def TreeNode.renderedIdsList : List TreeNode → List NodeID
  | [] => []
  | c :: rest => TreeNode.renderedIds c ++ TreeNode.renderedIdsList rest

end

theorem renderedIdsList_eq_flatten (l : List TreeNode) :
    TreeNode.renderedIdsList l = (l.map TreeNode.renderedIds).flatten := by
  induction l with
  | nil => rfl
  | cons c rest ih => simp [TreeNode.renderedIdsList, ih]

theorem perm_flatten_of_perm {α : Type} {l1 l2 : List (List α)} (h : l1.Perm l2) :
    l1.flatten.Perm l2.flatten := by
  induction h with
  | nil => exact List.Perm.refl _
  | cons x h ih => simpa using ih.append_left x
  | swap x y l =>
    simp only [List.flatten_cons]
    rw [← List.append_assoc, ← List.append_assoc]
    exact List.perm_append_comm.append_right _
  | trans h1 h2 ih1 ih2 => exact ih1.trans ih2

theorem renderedIdsList_perm {l1 l2 : List TreeNode} (h : l1.Perm l2) :
    (TreeNode.renderedIdsList l1).Perm (TreeNode.renderedIdsList l2) := by
  rw [renderedIdsList_eq_flatten, renderedIdsList_eq_flatten]
  exact perm_flatten_of_perm (h.map _)

/-- A parent-link chain from `a` up to `r`: the list records the nodes
visited strictly before `r`, so `a` heads it whenever it is nonempty. -/
inductive ChainL (pf : NodeID → Option NodeID) : NodeID → List NodeID → NodeID → Prop where
  | nil (a : NodeID) : ChainL pf a [] a
  | cons {a b r : NodeID} {l : List NodeID} (h : pf a = some b)
      (hr : ChainL pf b l r) : ChainL pf a (a :: l) r

theorem ChainL_nil_eq {pf : NodeID → Option NodeID} {a r : NodeID}
    (h : ChainL pf a [] r) : a = r := by
  cases h; rfl

theorem ChainL_cons_inv {pf : NodeID → Option NodeID} {a x r : NodeID} {l : List NodeID}
    (h : ChainL pf a (x :: l) r) :
    x = a ∧ ∃ b, pf a = some b ∧ ChainL pf b l r := by
  cases h with
  | cons hb hr => exact ⟨rfl, _, hb, hr⟩

theorem ChainL_append_split {pf : NodeID → Option NodeID} :
    ∀ {u : List NodeID} {a r : NodeID} {v : List NodeID},
      ChainL pf a (u ++ v) r → ∃ m, ChainL pf a u m ∧ ChainL pf m v r := by
  intro u
  induction u with
  | nil => intro a r v h; exact ⟨a, ChainL.nil a, h⟩
  | cons x u ih =>
    intro a r v h
    obtain ⟨hx, b, hb, hr⟩ := ChainL_cons_inv h
    obtain ⟨m, h1, h2⟩ := ih hr
    subst hx
    exact ⟨m, ChainL.cons hb h1, h2⟩

theorem ChainL_compose {pf : NodeID → Option NodeID} {u : List NodeID} {a m : NodeID}
    (h1 : ChainL pf a u m) :
    ∀ {v : List NodeID} {r : NodeID}, ChainL pf m v r → ChainL pf a (u ++ v) r := by
  induction h1 with
  | nil a => intro v r h2; exact h2
  | cons hb hr ih => intro v r h2; exact ChainL.cons hb (ih h2)

theorem ChainL_mem_has_parent {pf : NodeID → Option NodeID} {a r : NodeID} {l : List NodeID}
    (h : ChainL pf a l r) : ∀ x ∈ l, ∃ y, pf x = some y := by
  induction h with
  | nil a => intro x hx; simp at hx
  | cons hb hr ih =>
    intro x hx
    rcases List.mem_cons.mp hx with h1 | h2
    · subst h1; exact ⟨_, hb⟩
    · exact ih x h2

theorem exists_dup_split {α : Type} : ∀ {l : List α}, ¬ l.Nodup →
    ∃ (x : α) (u v w : List α), l = u ++ x :: v ++ x :: w := by
  intro l
  induction l with
  | nil => intro h; exact absurd List.nodup_nil h
  | cons a l ih =>
    intro h
    by_cases ha : a ∈ l
    · obtain ⟨v, w, hvw⟩ := List.append_of_mem ha
      exact ⟨a, [], v, w, by simp [hvw]⟩
    · have hl : ¬ l.Nodup := fun hn => h (List.nodup_cons.mpr ⟨ha, hn⟩)
      obtain ⟨x, u, v, w, huvw⟩ := ih hl
      exact ⟨x, a :: u, v, w, by simp [huvw]⟩

theorem ChainL_shorten {pf : NodeID → Option NodeID} :
    ∀ (n : Nat) {l : List NodeID} {a r : NodeID}, l.length ≤ n → ChainL pf a l r →
      ∃ l2, ChainL pf a l2 r ∧ l2.Nodup ∧ l2.length ≤ l.length := by
  intro n
  induction n with
  | zero =>
    intro l a r hl h
    cases l with
    | nil => exact ⟨[], h, List.nodup_nil, le_refl _⟩
    | cons x xs => simp at hl
  | succ n ih =>
    intro l a r hl h
    by_cases hnd : l.Nodup
    · exact ⟨l, h, hnd, le_refl _⟩
    · obtain ⟨x, u, v, w, hl2⟩ := exists_dup_split hnd
      subst hl2
      obtain ⟨m1, hu, hrest⟩ := ChainL_append_split h
      have hm1 := (ChainL_cons_inv hrest).1
      obtain ⟨m2, hu2, hxv⟩ := ChainL_append_split hu
      have hm2 := (ChainL_cons_inv hxv).1
      have hchain : ChainL pf a (u ++ x :: w) r := by
        subst hm1
        subst hm2
        exact ChainL_compose hu2 hrest
      have hlen : (u ++ x :: w).length ≤ n := by
        simp only [List.length_append, List.length_cons] at hl ⊢
        omega
      obtain ⟨l2, hc2, hnd2, hlen2⟩ := ih hlen hchain
      refine ⟨l2, hc2, hnd2, ?_⟩
      simp only [List.length_append, List.length_cons] at hlen2 ⊢
      omega

theorem pfOf_some_mem {state : List (NodeID × Option NodeID)} {x y : NodeID}
    (h : pfOf state x = some y) : x ∈ state.map Prod.fst := by
  unfold pfOf at h
  cases hg : assocGet state x with
  | none => rw [hg] at h; simp at h
  | some v =>
    have := assocGet_mem hg
    exact List.mem_map.mpr ⟨(x, v), this, rfl⟩

theorem pfOf_some_entry {state : List (NodeID × Option NodeID)} {x y : NodeID}
    (h : pfOf state x = some y) : assocGet state x = some (some y) := by
  unfold pfOf at h
  cases hg : assocGet state x with
  | none => rw [hg] at h; simp at h
  | some v =>
    rw [hg] at h
    cases v with
    | none => simp at h
    | some z => simp at h; subst h; rfl

theorem RootedF_chain {pf : NodeID → Option NodeID} {c : NodeID}
    (h : RootedF pf [] c) : ∃ l, ChainL pf c l ROOT_ID := by
  induction h with
  | root _ => exact ⟨[], ChainL.nil _⟩
  | step hc hp hr ih =>
    obtain ⟨l, hl⟩ := ih
    exact ⟨_ :: l, ChainL.cons hp hl⟩

theorem pfOf_of_mem_some {state : List (NodeID × Option NodeID)}
    (hnd : (state.map (fun kv => kv.1)).Nodup) {c p : NodeID}
    (h : (c, some p) ∈ state) : pfOf state c = some p := by
  unfold pfOf
  rw [assocGet_nodup_mem hnd h]
  rfl

theorem pfOf_of_mem_none {state : List (NodeID × Option NodeID)}
    (hnd : (state.map (fun kv => kv.1)).Nodup) {c : NodeID}
    (h : (c, (none : Option NodeID)) ∈ state) : pfOf state c = none := by
  unfold pfOf
  rw [assocGet_nodup_mem hnd h]
  rfl

theorem build_tree_succ (fuel : Nat) (r : NodeID) (state : List (NodeID × Option NodeID)) :
    TreeNode.build_tree (fuel + 1) r state =
      TreeNode.mk r (sortTreeNodes (state.filterMap (fun kv =>
        if kv.2 = some r then some (TreeNode.build_tree fuel kv.1 state) else none))) := rfl

/-- On a duplicate-free rooted parent map, every rendered id below `r` reaches
`r` by parent links and no id is rendered twice. -/
theorem build_tree_sound (state : List (NodeID × Option NodeID))
    (hnd : (state.map (fun kv => kv.1)).Nodup)
    (hroot : pfOf state ROOT_ID = none)
    (hr : ∀ kv ∈ state, RootedF (pfOf state) [] kv.1) :
    ∀ (fuel : Nat) (r : NodeID),
      (∀ k ∈ (TreeNode.build_tree fuel r state).renderedIds,
        ReachesF (pfOf state) k r) ∧
      (TreeNode.build_tree fuel r state).renderedIds.Nodup := by
  intro fuel
  induction fuel with
  | zero =>
    intro r
    refine ⟨?_, ?_⟩
    · intro k hk
      simp [TreeNode.build_tree, TreeNode.renderedIds, TreeNode.renderedIdsList] at hk
      subst hk
      exact Relation.ReflTransGen.refl
    · simp [TreeNode.build_tree, TreeNode.renderedIds, TreeNode.renderedIdsList]
  | succ fuel ih =>
    intro r
    rw [build_tree_succ]
    set f : NodeID × Option NodeID → Option TreeNode := fun kv =>
      if kv.2 = some r then some (TreeNode.build_tree fuel kv.1 state) else none with hf
    set cs := state.filterMap f with hcs
    have hperm : (sortTreeNodes cs).Perm cs := List.perm_insertionSort TreeNode.le cs
    have hmemch : ∀ t ∈ cs, ∃ c, (c, some r) ∈ state ∧ t = TreeNode.build_tree fuel c state := by
      intro t ht
      rw [hcs] at ht
      obtain ⟨kv, hkv, hfkv⟩ := List.mem_filterMap.mp ht
      simp only [hf] at hfkv
      by_cases hc : kv.2 = some r
      · rw [if_pos hc] at hfkv
        obtain ⟨c, p⟩ := kv
        simp only at hc hfkv
        subst hc
        injection hfkv with hfkv
        exact ⟨c, hkv, hfkv.symm⟩
      · rw [if_neg hc] at hfkv
        exact absurd hfkv (by simp)
    have hsortmem : ∀ k : NodeID, k ∈ TreeNode.renderedIdsList (sortTreeNodes cs) ↔
        k ∈ TreeNode.renderedIdsList cs := fun k => (renderedIdsList_perm hperm).mem_iff
    have hchild : ∀ k, k ∈ TreeNode.renderedIdsList cs →
        ∃ c, (c, some r) ∈ state ∧ k ∈ (TreeNode.build_tree fuel c state).renderedIds := by
      intro k hk
      rw [renderedIdsList_eq_flatten] at hk
      obtain ⟨ids, hids, hkin⟩ := List.mem_flatten.mp hk
      obtain ⟨t, htmem, hteq⟩ := List.mem_map.mp hids
      obtain ⟨c, hcmem, hceq⟩ := hmemch t htmem
      refine ⟨c, hcmem, ?_⟩
      rw [← hteq] at hkin
      rw [hceq] at hkin
      exact hkin
    constructor
    · intro k hk
      simp only [TreeNode.renderedIds] at hk
      rcases List.mem_cons.mp hk with hk1 | hk2
      · subst hk1; exact Relation.ReflTransGen.refl
      · obtain ⟨c, hcmem, hkin⟩ := hchild k ((hsortmem k).mp hk2)
        have hkc := (ih c).1 k hkin
        exact Relation.ReflTransGen.tail hkc (pfOf_of_mem_some hnd hcmem)
    · simp only [TreeNode.renderedIds]
      rw [List.nodup_cons]
      constructor
      · intro hmem
        obtain ⟨c, hcmem, hkin⟩ := hchild r ((hsortmem r).mp hmem)
        have hrc := (ih c).1 r hkin
        exact RootedF_no_cycle hroot (hr _ hcmem) r (pfOf_of_mem_some hnd hcmem) hrc
      · rw [(renderedIdsList_perm hperm).nodup_iff]
        rw [renderedIdsList_eq_flatten, List.nodup_flatten]
        constructor
        · intro l hl
          obtain ⟨t, htmem, hteq⟩ := List.mem_map.mp hl
          obtain ⟨c, hcmem, hceq⟩ := hmemch t htmem
          rw [← hteq, hceq]
          exact (ih c).2
        · rw [List.pairwise_map]
          rw [hcs]
          have hpw : state.Pairwise (fun kv kv2 => kv.1 ≠ kv2.1) := by
            have h2 : (state.map (fun kv => kv.1)).Pairwise (fun a b => a ≠ b) := hnd
            exact List.pairwise_map.mp h2
          have hpw2 : state.Pairwise (fun kv kv2 =>
              kv ∈ state ∧ kv2 ∈ state ∧ kv.1 ≠ kv2.1) := List.Pairwise.and_mem.mp hpw
          refine List.Pairwise.filterMap f ?_ hpw2
          intro a a2 hR b hb b2 hb2
          obtain ⟨hamem, ha2mem, hne⟩ := hR
          simp only [hf, Option.mem_def] at hb hb2
          by_cases hc1 : a.2 = some r
          case neg => rw [if_neg hc1] at hb; exact absurd hb (by simp)
          by_cases hc2 : a2.2 = some r
          case neg => rw [if_neg hc2] at hb2; exact absurd hb2 (by simp)
          rw [if_pos hc1] at hb
          rw [if_pos hc2] at hb2
          injection hb with hb
          injection hb2 with hb2
          intro k hk hk2
          rw [← hb] at hk
          rw [← hb2] at hk2
          have hka := (ih a.1).1 k hk
          have hka2 := (ih a2.1).1 k hk2
          have hamem2 : (a.1, some r) ∈ state := by
            have ha : a = (a.1, some r) := by
              obtain ⟨x, y⟩ := a
              simp only at hc1 ⊢
              rw [hc1]
            rw [← ha]
            exact hamem
          have ha2mem2 : (a2.1, some r) ∈ state := by
            have ha : a2 = (a2.1, some r) := by
              obtain ⟨x, y⟩ := a2
              simp only at hc2 ⊢
              rw [hc2]
            rw [← ha]
            exact ha2mem
          have hpa : pfOf state a.1 = some r := pfOf_of_mem_some hnd hamem2
          have hpa2 : pfOf state a2.1 = some r := pfOf_of_mem_some hnd ha2mem2
          rcases ReachesF_total hka hka2 with htot | htot
          · rcases Relation.ReflTransGen.cases_head htot with heq | ⟨z, hz, htl⟩
            · exact hne heq
            · rw [hpa] at hz
              injection hz with hz
              subst hz
              exact RootedF_no_cycle hroot (hr _ ha2mem2) r hpa2 htl
          · rcases Relation.ReflTransGen.cases_head htot with heq | ⟨z, hz, htl⟩
            · exact hne heq.symm
            · rw [hpa2] at hz
              injection hz with hz
              subst hz
              exact RootedF_no_cycle hroot (hr _ hamem2) r hpa htl

/-- On a duplicate-free parent map, every key with a parent chain to `r`
shorter than the fuel is rendered below `r`. -/
theorem build_tree_complete (state : List (NodeID × Option NodeID))
    (hnd : (state.map (fun kv => kv.1)).Nodup) :
    ∀ (fuel : Nat) (l : List NodeID) (k r : NodeID), l.length < fuel →
      ChainL (pfOf state) k l r →
      k ∈ (TreeNode.build_tree fuel r state).renderedIds := by
  intro fuel
  induction fuel with
  | zero =>
    intro l k r hlen hchain
    omega
  | succ fuel ih =>
    intro l k r hlen hchain
    rcases List.eq_nil_or_concat l with hnil | ⟨l0, c, hl⟩
    · subst hnil
      have hkr := ChainL_nil_eq hchain
      subst hkr
      rw [build_tree_succ]
      simp [TreeNode.renderedIds]
    · rw [List.concat_eq_append] at hl
      subst hl
      obtain ⟨m, h1, h2⟩ := ChainL_append_split hchain
      obtain ⟨hm, b, hb, hbr⟩ := ChainL_cons_inv h2
      have hbeq := ChainL_nil_eq hbr
      rw [hbeq] at hb
      subst hm
      have hment : (c, some r) ∈ state := assocGet_mem (pfOf_some_entry hb)
      rw [build_tree_succ]
      simp only [TreeNode.renderedIds]
      apply List.mem_cons.mpr
      right
      have hperm : (sortTreeNodes (state.filterMap (fun kv =>
          if kv.2 = some r then some (TreeNode.build_tree fuel kv.1 state) else none))).Perm
          (state.filterMap (fun kv =>
          if kv.2 = some r then some (TreeNode.build_tree fuel kv.1 state) else none)) :=
        List.perm_insertionSort TreeNode.le _
      apply (renderedIdsList_perm hperm).mem_iff.mpr
      rw [renderedIdsList_eq_flatten]
      apply List.mem_flatten.mpr
      refine ⟨(TreeNode.build_tree fuel c state).renderedIds, ?_, ?_⟩
      · apply List.mem_map.mpr
        refine ⟨TreeNode.build_tree fuel c state, ?_, rfl⟩
        apply List.mem_filterMap.mpr
        refine ⟨(c, some r), hment, ?_⟩
        simp
      · apply ih l0 k c ?_ h1
        simp only [List.length_append, List.length_cons] at hlen
        omega

/-- On a rooted map whose keys include `(ROOT, None)`, the first `None` entry
found by `from_state` is the `ROOT` entry. -/
theorem find_root_entry {state : List (NodeID × Option NodeID)}
    (hnd : (state.map (fun kv => kv.1)).Nodup)
    (hmem : (ROOT_ID, (none : Option NodeID)) ∈ state)
    (hr : ∀ kv ∈ state, RootedF (pfOf state) [] kv.1) :
    state.find? (fun kv => kv.2 = none) = some (ROOT_ID, none) := by
  have hex : (state.find? (fun kv => kv.2 = none)).isSome := by
    rw [List.find?_isSome]
    exact ⟨(ROOT_ID, none), hmem, by simp⟩
  obtain ⟨kv, hkv⟩ := Option.isSome_iff_exists.mp hex
  have hkvmem := List.mem_of_find?_eq_some hkv
  have hkvp := List.find?_some hkv
  have hv : kv.2 = none := by simpa using hkvp
  have hre := hr kv hkvmem
  have hk : kv.1 = ROOT_ID := by
    generalize hgen : kv.1 = c at hre
    cases hre with
    | root h => rfl
    | step hc hp hrr =>
      exfalso
      have h1 : pfOf state c = none := by
        rw [← hgen]
        unfold pfOf
        rw [assocGet_nodup_mem hnd hkvmem, hv]
        rfl
      rw [h1] at hp
      simp at hp
  rw [hkv]
  have : kv = (ROOT_ID, none) := by
    obtain ⟨x, y⟩ := kv
    simp only at hk hv
    rw [hk, hv]
  rw [this]

/-- On a duplicate-free rooted parent map containing `(ROOT, None)`,
`from_state` succeeds, rooting the render at `ROOT`, and the rendered ids are
exactly the map's keys (each once). -/
theorem rooted_render_spec (state : List (NodeID × Option NodeID))
    (hnd : (state.map (fun kv => kv.1)).Nodup)
    (hmem : (ROOT_ID, (none : Option NodeID)) ∈ state)
    (hr : ∀ kv ∈ state, RootedF (pfOf state) [] kv.1) :
    TreeNode.from_state state =
      some (TreeNode.build_tree (state.length + 1) ROOT_ID state) ∧
    ((TreeNode.build_tree (state.length + 1) ROOT_ID state).renderedIds).Perm
      (state.map (fun kv => kv.1)) := by
  have hroot : pfOf state ROOT_ID = none := pfOf_of_mem_none hnd hmem
  constructor
  · unfold TreeNode.from_state
    rw [find_root_entry hnd hmem hr]
    rfl
  · rw [List.perm_ext_iff_of_nodup (build_tree_sound state hnd hroot hr _ _).2 hnd]
    intro k
    constructor
    · intro hk
      have hreach := (build_tree_sound state hnd hroot hr _ ROOT_ID).1 k hk
      rcases Relation.ReflTransGen.cases_head hreach with heq | ⟨z, hz, htl⟩
      · subst heq
        exact List.mem_map.mpr ⟨(ROOT_ID, none), hmem, rfl⟩
      · exact pfOf_some_mem hz
    · intro hk
      obtain ⟨kv, hkvmem, hkeq⟩ := List.mem_map.mp hk
      have hrk : RootedF (pfOf state) [] k := by
        rw [← hkeq]
        exact hr kv hkvmem
      obtain ⟨l, hchain⟩ := RootedF_chain hrk
      obtain ⟨l2, hc2, hnd2, hle2⟩ := ChainL_shorten l.length (le_refl _) hchain
      have hsub : ∀ x ∈ l2, x ∈ state.map (fun kv => kv.1) := by
        intro x hx
        obtain ⟨y, hy⟩ := ChainL_mem_has_parent hc2 x hx
        exact pfOf_some_mem hy
      have hlen : l2.length ≤ (state.map (fun kv => kv.1)).length :=
        (List.subperm_of_subset hnd2 hsub).length_le
      apply build_tree_complete state hnd (state.length + 1) l2 k ROOT_ID ?_ hc2
      simp only [List.length_map] at hlen
      omega

theorem assocGet_eq_none_iff {α β : Type} [DecidableEq α] :
    ∀ {l : List (α × β)} {k : α}, assocGet l k = none ↔ k ∉ l.map (fun kv => kv.1) := by
  intro l
  induction l with
  | nil => intro k; simp [assocGet]
  | cons kv rest ih =>
    intro k
    obtain ⟨a, b⟩ := kv
    by_cases h : a = k
    · subst h
      simp [assocGet]
    · simp [assocGet, h, Ne.symm h, ih]

theorem assocGet_perm {α β : Type} [DecidableEq α] {l1 l2 : List (α × β)}
    (hp : l1.Perm l2) (hnd : (l1.map (fun kv => kv.1)).Nodup) (k : α) :
    assocGet l1 k = assocGet l2 k := by
  have hnd2 : (l2.map (fun kv => kv.1)).Nodup := ((hp.map _).nodup_iff).mp hnd
  cases hg : assocGet l1 k with
  | some v =>
    have := assocGet_mem hg
    exact (assocGet_nodup_mem hnd2 (hp.mem_iff.mp this)).symm
  | none =>
    symm
    rw [assocGet_eq_none_iff] at hg ⊢
    intro hmem
    exact hg ((hp.map _).mem_iff.mpr hmem)

theorem assocInsert_keys {α β : Type} [DecidableEq α] :
    ∀ (l : List (α × β)) (k : α) (v : β),
      (assocInsert l k v).map (fun kv => kv.1) =
        if k ∈ l.map (fun kv => kv.1) then l.map (fun kv => kv.1)
        else l.map (fun kv => kv.1) ++ [k] := by
  intro l
  induction l with
  | nil => intro k v; simp [assocInsert]
  | cons kv rest ih =>
    intro k v
    obtain ⟨a, b⟩ := kv
    by_cases h : a = k
    · subst h
      simp [assocInsert]
    · simp only [assocInsert, if_neg h, List.map_cons, List.mem_cons, ih]
      by_cases h2 : k ∈ rest.map (fun kv => kv.1)
      · rw [if_pos h2, if_pos (Or.inr h2)]
      · rw [if_neg h2, if_neg (by rintro (h3 | h3); exact h (h3.symm); exact h2 h3)]
        simp

theorem assocInsert_keys_nodup {α β : Type} [DecidableEq α] {l : List (α × β)}
    (hnd : (l.map (fun kv => kv.1)).Nodup) (k : α) (v : β) :
    ((assocInsert l k v).map (fun kv => kv.1)).Nodup := by
  rw [assocInsert_keys]
  by_cases h : k ∈ l.map (fun kv => kv.1)
  · rw [if_pos h]; exact hnd
  · rw [if_neg h]
    rw [List.nodup_append]
    exact ⟨hnd, List.nodup_singleton k, by simpa using h⟩

/-- A rooted node never points at itself. -/
theorem RootedF_no_self_loop {pf : NodeID → Option NodeID} (hR : pf ROOT_ID = none)
    {c : NodeID} (h : RootedF pf [] c) (hc : pf c = some c) : False :=
  RootedF_no_cycle hR h c hc Relation.ReflTransGen.refl

/-- Re-pointing a single node `x` to a (new-map) rooted position keeps every
previously rooted node rooted. -/
theorem RootedF_repoint {pf pf2 : NodeID → Option NodeID} {x : NodeID}
    (hagree : ∀ y, y ≠ x → pf2 y = pf y) (hx : RootedF pf2 [] x) {k : NodeID}
    (h : RootedF pf [] k) : RootedF pf2 [] k := by
  induction h with
  | root h => exact RootedF.root (by simp)
  | step hc hp hrr ih =>
    rename_i c p
    by_cases hcx : c = x
    · subst hcx
      exact hx
    · exact RootedF.step hc ((hagree c hcx).trans hp) ih

/-- A rooted chain avoids any parentless non-`ROOT` node. -/
theorem RootedF_avoid_unparented {pf : NodeID → Option NodeID} {x : NodeID}
    (hx : pf x = none) (hxr : x ≠ ROOT_ID) {k : NodeID}
    (h : RootedF pf [] k) : RootedF pf [x] k := by
  induction h with
  | root h =>
    refine RootedF.root ?_
    simp only [List.mem_singleton]
    exact fun hh => hxr hh.symm
  | step hc hp hrr ih =>
    rename_i c p
    refine RootedF.step ?_ hp ih
    intro hmem
    simp only [List.mem_singleton] at hmem
    subst hmem
    rw [hx] at hp
    cases hp

theorem is_ancestor_of_hit (pf : NodeID → Option NodeID) (fuel : Nat)
    {target nid : NodeID} (h1 : target = nid) :
    is_ancestor_of pf (fuel + 1) target nid = some true := by
  unfold is_ancestor_of
  rw [if_pos h1]

theorem is_ancestor_of_none (pf : NodeID → Option NodeID) (fuel : Nat)
    {target nid : NodeID} (h1 : target ≠ nid) (hp : pf nid = none) :
    is_ancestor_of pf (fuel + 1) target nid = some false := by
  unfold is_ancestor_of
  rw [if_neg h1, hp]

theorem is_ancestor_of_step (pf : NodeID → Option NodeID) (fuel : Nat)
    {target nid p : NodeID} (h1 : target ≠ nid) (hp : pf nid = some p) :
    is_ancestor_of pf (fuel + 1) target nid =
      if p = target then some true
      else if p = nid then none
      else is_ancestor_of pf fuel target p := by
  conv_lhs => unfold is_ancestor_of
  rw [if_neg h1, hp]

/-- A negative ancestor-guard answer really means the walked chain avoids the
move target, provided the walk start is rooted. -/
theorem guard_false_rooted_avoids {pf : NodeID → Option NodeID}
    (hR : pf ROOT_ID = none) :
    ∀ (fuel : Nat) {target nid : NodeID},
      is_ancestor_of pf fuel target nid = some false →
      RootedF pf [] nid → target ≠ ROOT_ID →
      RootedF pf [target] nid := by
  intro fuel
  induction fuel with
  | zero => intro target nid h; simp [is_ancestor_of] at h
  | succ fuel ih =>
    intro target nid h hrooted htne
    by_cases h1 : target = nid
    · rw [is_ancestor_of_hit pf fuel h1] at h; simp at h
    · cases hp : pf nid with
      | none =>
        cases hrooted with
        | root hh =>
          refine RootedF.root ?_
          simp only [List.mem_singleton]
          exact fun hh2 => htne hh2.symm
        | step hc hp2 hr2 =>
          rw [hp] at hp2
          cases hp2
      | some p =>
        rw [is_ancestor_of_step pf fuel h1 hp] at h
        by_cases h2 : p = target
        · rw [if_pos h2] at h; simp at h
        · rw [if_neg h2] at h
          by_cases h3 : p = nid
          · rw [if_pos h3] at h; simp at h
          · rw [if_neg h3] at h
            have hrp : RootedF pf [] p := by
              cases hrooted with
              | root hh =>
                rw [hR] at hp
                cases hp
              | step hc hp2 hr2 =>
                rw [hp] at hp2
                injection hp2 with hp2
                subst hp2
                exact hr2
            refine RootedF.step ?_ hp (ih h hrp htne)
            simp only [List.mem_singleton]
            exact fun hh => h1 hh.symm

/-- The ancestor-guard walk terminates (no panic, no divergence) whenever the
walk start is rooted and the fuel covers the chain. -/
theorem walk_some_of_chain {pf : NodeID → Option NodeID} (hR : pf ROOT_ID = none) :
    ∀ (l : List NodeID) {nid : NodeID}, ChainL pf nid l ROOT_ID →
      RootedF pf [] nid →
      ∀ (fuel : Nat), l.length + 1 ≤ fuel → ∀ (target : NodeID),
        (is_ancestor_of pf fuel target nid).isSome := by
  intro l
  induction l with
  | nil =>
    intro nid hc _ fuel hf target
    have hnr := ChainL_nil_eq hc
    subst hnr
    cases fuel with
    | zero => omega
    | succ f =>
      by_cases h1 : target = ROOT_ID
      · rw [is_ancestor_of_hit pf f h1]; rfl
      · rw [is_ancestor_of_none pf f h1 hR]; rfl
  | cons x l ih =>
    intro nid hc hrooted fuel hf target
    obtain ⟨hx, b, hb, hbc⟩ := ChainL_cons_inv hc
    cases fuel with
    | zero => simp at hf
    | succ f =>
      by_cases h1 : target = nid
      · rw [is_ancestor_of_hit pf f h1]; rfl
      · rw [is_ancestor_of_step pf f h1 hb]
        by_cases h2 : b = target
        · rw [if_pos h2]; rfl
        · rw [if_neg h2]
          by_cases h3 : b = nid
          · exfalso
            subst h3
            exact RootedF_no_self_loop hR hrooted hb
          · rw [if_neg h3]
            have hrb : RootedF pf [] b := by
              cases hrooted with
              | root hh =>
                rw [hR] at hb
                cases hb
              | step hc2 hp2 hr2 =>
                rw [hb] at hp2
                injection hp2 with hp2
                subst hp2
                exact hr2
            apply ih hbc hrb f ?_ target
            simp only [List.length_cons] at hf
            omega

/-- Every rooted node of a duplicate-free map has a duplicate-free chain to
`ROOT` no longer than the key count. -/
theorem rooted_short_chain {state : List (NodeID × Option NodeID)}
    (hnd : (state.map (fun kv => kv.1)).Nodup) {k : NodeID}
    (h : RootedF (pfOf state) [] k) :
    ∃ l, ChainL (pfOf state) k l ROOT_ID ∧ l.Nodup ∧ l.length ≤ state.length := by
  obtain ⟨l, hchain⟩ := RootedF_chain h
  obtain ⟨l2, hc2, hnd2, hle2⟩ := ChainL_shorten l.length (le_refl _) hchain
  refine ⟨l2, hc2, hnd2, ?_⟩
  have hsub : ∀ x ∈ l2, x ∈ state.map (fun kv => kv.1) := by
    intro x hx
    obtain ⟨y, hy⟩ := ChainL_mem_has_parent hc2 x hx
    exact pfOf_some_mem hy
  have hlen : l2.length ≤ (state.map (fun kv => kv.1)).length :=
    (List.subperm_of_subset hnd2 hsub).length_le
  simpa using hlen

theorem assocContains_iff {α β : Type} [DecidableEq α] {l : List (α × β)} {k : α} :
    assocContains l k = true ↔ k ∈ l.map (fun kv => kv.1) := by
  unfold assocContains
  rw [Option.isSome_iff_ne_none]
  constructor
  · intro h
    by_contra hmem
    exact h (assocGet_eq_none_iff.mpr hmem)
  · intro h hnone
    exact assocGet_eq_none_iff.mp hnone h

theorem assocInsert_mem_other {α β : Type} [DecidableEq α] :
    ∀ {l : List (α × β)} {q k : α} {v w : β}, (q, v) ∈ l → q ≠ k →
      (q, v) ∈ assocInsert l k w := by
  intro l
  induction l with
  | nil => intro q k v w h; simp at h
  | cons kv rest ih =>
    intro q k v w h hne
    obtain ⟨a, b⟩ := kv
    rcases List.mem_cons.mp h with h1 | h2
    · injection h1 with h1a h1b
      subst h1a
      subst h1b
      simp only [assocInsert, if_neg hne]
      exact List.mem_cons_self _ _
    · by_cases hak : a = k
      · simp only [assocInsert, if_pos hak]
        exact List.mem_cons_of_mem _ h2
      · simp only [assocInsert, if_neg hak]
        exact List.mem_cons_of_mem _ (ih h2 hne)

theorem assocEntryOr_keys {α β : Type} [DecidableEq α] (l : List (α × β)) (k : α) (v : β) :
    (assocEntryOr l k v).map (fun kv => kv.1) =
      if k ∈ l.map (fun kv => kv.1) then l.map (fun kv => kv.1)
      else l.map (fun kv => kv.1) ++ [k] := by
  unfold assocEntryOr
  by_cases h : k ∈ l.map (fun kv => kv.1)
  · rw [if_pos (assocContains_iff.mpr h), if_pos h]
  · rw [if_neg (by rw [assocContains_iff]; exact h), if_neg h]
    simp

theorem assocGet_assocEntryOr_present {α β : Type} [DecidableEq α]
    {l : List (α × β)} {k : α} (v : β) (h : k ∈ l.map (fun kv => kv.1)) :
    assocEntryOr l k v = l := by
  unfold assocEntryOr
  rw [if_pos (assocContains_iff.mpr h)]

theorem assocGet_assocEntryOr_absent {α β : Type} [DecidableEq α]
    {l : List (α × β)} {k : α} (v : β) (h : k ∉ l.map (fun kv => kv.1)) :
    assocEntryOr l k v = l ++ [(k, v)] := by
  unfold assocEntryOr
  rw [if_neg (by rw [assocContains_iff]; exact h)]

/-- `entry(p).or_insert(None)` never changes the flattened parent function. -/
theorem pfOf_assocEntryOr_none (T : List (NodeID × Option NodeID)) (p x : NodeID) :
    pfOf (assocEntryOr T p none) x = pfOf T x := by
  by_cases h : p ∈ T.map (fun kv => kv.1)
  · rw [assocGet_assocEntryOr_present none h]
  · rw [assocGet_assocEntryOr_absent none h]
    unfold pfOf
    by_cases hx : x = p
    · subst hx
      rw [assocGet_append_single_self (assocGet_eq_none_iff.mpr h)]
      rw [assocGet_eq_none_iff.mpr h]
      rfl
    · rw [assocGet_append_single_other hx]

theorem pfOf_assocInsert_self (T : List (NodeID × Option NodeID)) (k : NodeID)
    (v : Option NodeID) : pfOf (assocInsert T k v) k = v := by
  unfold pfOf
  rw [assocGet_assocInsert_self]
  cases v <;> rfl

theorem pfOf_assocInsert_other {T : List (NodeID × Option NodeID)} {k q : NodeID}
    (v : Option NodeID) (h : q ≠ k) : pfOf (assocInsert T k v) q = pfOf T q := by
  unfold pfOf
  rw [assocGet_assocInsert_other h]

theorem perm_of_assocGet_eq {α β : Type} [DecidableEq α] {l1 l2 : List (α × β)}
    (hnd1 : (l1.map (fun kv => kv.1)).Nodup) (hnd2 : (l2.map (fun kv => kv.1)).Nodup)
    (h : ∀ x, assocGet l1 x = assocGet l2 x) : l1.Perm l2 := by
  rw [List.perm_ext_iff_of_nodup (List.Nodup.of_map _ hnd1) (List.Nodup.of_map _ hnd2)]
  intro kv
  obtain ⟨k, v⟩ := kv
  constructor
  · intro hm
    exact assocGet_mem ((h k) ▸ assocGet_nodup_mem hnd1 hm)
  · intro hm
    exact assocGet_mem ((h k).symm ▸ assocGet_nodup_mem hnd2 hm)

theorem assocInsert_perm {α β : Type} [DecidableEq α] {l1 l2 : List (α × β)}
    (hp : l1.Perm l2) (hnd : (l1.map (fun kv => kv.1)).Nodup) (k : α) (v : β) :
    (assocInsert l1 k v).Perm (assocInsert l2 k v) := by
  have hnd2 : (l2.map (fun kv => kv.1)).Nodup := ((hp.map _).nodup_iff).mp hnd
  apply perm_of_assocGet_eq (assocInsert_keys_nodup hnd k v) (assocInsert_keys_nodup hnd2 k v)
  intro x
  by_cases hx : x = k
  · subst hx
    rw [assocGet_assocInsert_self, assocGet_assocInsert_self]
  · rw [assocGet_assocInsert_other hx, assocGet_assocInsert_other hx]
    exact assocGet_perm hp hnd x

/-- A parent-link chain certifies rootedness. -/
theorem ChainL_rooted {pf : NodeID → Option NodeID} {c : NodeID} {l : List NodeID}
    (h : ChainL pf c l ROOT_ID) : RootedF pf [] c := by
  suffices hgen : ∀ (l : List NodeID) (c r : NodeID), ChainL pf c l r → r = ROOT_ID →
      RootedF pf [] c by
    exact hgen l c ROOT_ID h rfl
  intro l
  induction l with
  | nil =>
    intro c r h hr
    have hcr := ChainL_nil_eq h
    subst hcr
    subst hr
    exact RootedF.root (by simp)
  | cons x l ihl =>
    intro c r h hr
    obtain ⟨hx, b, hb, hbc⟩ := ChainL_cons_inv h
    exact RootedF.step (by simp) hb (ihl b r hbc hr)

/-- Chains transfer to any parent function agreeing on the chain nodes. -/
theorem ChainL_transfer {pf pf2 : NodeID → Option NodeID} {a r : NodeID} {l : List NodeID}
    (h : ChainL pf a l r) (hagree : ∀ x ∈ l, pf2 x = pf x) : ChainL pf2 a l r := by
  induction h with
  | nil a => exact ChainL.nil a
  | cons hb hr ih =>
    rename_i a b r2 l2
    refine ChainL.cons ?_ (ih ?_)
    · rw [hagree a (List.mem_cons_self _ _)]
      exact hb
    · intro x hx
      exact hagree x (List.mem_cons_of_mem _ hx)

/-- The ancestor walk from a rooted start computes membership of the target
in the start's ancestor chain (`ROOT` included), for any sufficient fuel. -/
theorem walk_eval {pf : NodeID → Option NodeID} (hR : pf ROOT_ID = none) :
    ∀ (l : List NodeID) {nid : NodeID}, ChainL pf nid l ROOT_ID →
      ∀ (fuel : Nat), l.length + 1 ≤ fuel → ∀ (target : NodeID),
        is_ancestor_of pf fuel target nid =
          some (decide (target ∈ l ∨ target = ROOT_ID)) := by
  intro l
  induction l with
  | nil =>
    intro nid hc fuel hf target
    have hnr := ChainL_nil_eq hc
    subst hnr
    cases fuel with
    | zero => omega
    | succ f =>
      by_cases h1 : target = ROOT_ID
      · rw [is_ancestor_of_hit pf f h1]
        simp [h1]
      · rw [is_ancestor_of_none pf f h1 hR]
        simp [h1]
  | cons x l ih =>
    intro nid hc fuel hf target
    obtain ⟨hx, b, hb, hbc⟩ := ChainL_cons_inv hc
    subst hx
    cases fuel with
    | zero => simp at hf
    | succ f =>
      by_cases h1 : target = x
      · rw [is_ancestor_of_hit pf f h1]
        simp [h1]
      · rw [is_ancestor_of_step pf f h1 hb]
        by_cases h2 : b = target
        · rw [if_pos h2]
          subst h2
          have hbl : b ∈ l ∨ b = ROOT_ID := by
            cases hbc with
            | nil => right; rfl
            | cons hb2 hr2 => left; exact List.mem_cons_self _ _
          simp only [List.mem_cons]
          rcases hbl with hh | hh
          · simp [hh]
          · simp [hh]
        · rw [if_neg h2]
          by_cases h3 : b = x
          · exfalso
            subst h3
            exact RootedF_no_self_loop hR (ChainL_rooted hc) hb
          · rw [if_neg h3]
            rw [ih hbc f (by simp at hf; omega) target]
            have hiff : (target ∈ l ∨ target = ROOT_ID) ↔
                (target ∈ x :: l ∨ target = ROOT_ID) := by
              simp only [List.mem_cons]
              constructor
              · rintro (hh | hh)
                · exact Or.inl (Or.inr hh)
                · exact Or.inr hh
              · rintro (hh | hh)
                · rcases hh with hh2 | hh2
                  · exact absurd hh2 h1
                  · exact Or.inl hh2
                · exact Or.inr hh
            exact congrArg some (decide_eq_decide.mpr hiff)

def keysOf (T : List (NodeID × Option NodeID)) : List NodeID :=
  T.map (fun kv => kv.1)

/-- The Algorithm-M tree-map invariant on nonempty maps: duplicate-free keys,
the `ROOT ↦ None` entry present, every key rooted. -/
def TreeRootedNE (T : List (NodeID × Option NodeID)) : Prop :=
  (keysOf T).Nodup ∧ (ROOT_ID, (none : Option NodeID)) ∈ T ∧
    ∀ x ∈ keysOf T, RootedF (pfOf T) [] x

/-- The Algorithm-M tree-map invariant: the map is empty (fresh replica, or
only empty merges so far) or rooted. -/
def MTreeOK (T : List (NodeID × Option NodeID)) : Prop := T = [] ∨ TreeRootedNE T

theorem assocEntryOr_keys_nodup {α β : Type} [DecidableEq α] {l : List (α × β)}
    (hnd : (l.map (fun kv => kv.1)).Nodup) (k : α) (v : β) :
    ((assocEntryOr l k v).map (fun kv => kv.1)).Nodup := by
  rw [assocEntryOr_keys]
  by_cases h : k ∈ l.map (fun kv => kv.1)
  · rw [if_pos h]; exact hnd
  · rw [if_neg h]
    rw [List.nodup_append]
    exact ⟨hnd, List.nodup_singleton k, by simpa using h⟩

theorem assocInsert_mem_keys_iff {α β : Type} [DecidableEq α] {l : List (α × β)}
    {k x : α} (v : β) :
    x ∈ (assocInsert l k v).map (fun kv => kv.1) ↔
      x ∈ l.map (fun kv => kv.1) ∨ x = k := by
  rw [assocInsert_keys]
  by_cases h : k ∈ l.map (fun kv => kv.1)
  · rw [if_pos h]
    constructor
    · exact Or.inl
    · rintro (hh | hh)
      · exact hh
      · subst hh; exact h
  · rw [if_neg h]
    simp

theorem assocEntryOr_mem_keys_iff {α β : Type} [DecidableEq α] {l : List (α × β)}
    {k x : α} (v : β) :
    x ∈ (assocEntryOr l k v).map (fun kv => kv.1) ↔
      x ∈ l.map (fun kv => kv.1) ∨ x = k := by
  rw [assocEntryOr_keys]
  by_cases h : k ∈ l.map (fun kv => kv.1)
  · rw [if_pos h]
    constructor
    · exact Or.inl
    · rintro (hh | hh)
      · exact hh
      · subst hh; exact h
  · rw [if_neg h]
    simp

theorem create_step_keys {T : List (NodeID × Option NodeID)} {id parent x : NodeID} :
    x ∈ keysOf (assocInsert (assocEntryOr T parent none) id (some parent)) ↔
      x ∈ keysOf T ∨ x = parent ∨ x = id := by
  unfold keysOf
  rw [assocInsert_mem_keys_iff, assocEntryOr_mem_keys_iff]
  constructor
  · rintro ((hh | hh) | hh)
    · exact Or.inl hh
    · exact Or.inr (Or.inl hh)
    · exact Or.inr (Or.inr hh)
  · rintro (hh | hh | hh)
    · exact Or.inl (Or.inl hh)
    · exact Or.inl (Or.inr hh)
    · exact Or.inr hh

/-- Replaying one create (`entry(parent).or_insert(None)` then
`insert(id, Some parent)`) on a well-formed map with a fresh honest id and an
available parent yields a rooted map. -/
theorem create_step_rooted {T : List (NodeID × Option NodeID)} (hT : MTreeOK T)
    {id parent : NodeID} (hid : id ≠ ROOT_ID) (hfresh : id ∉ keysOf T)
    (hpar : parent = ROOT_ID ∨ parent ∈ keysOf T) :
    TreeRootedNE (assocInsert (assocEntryOr T parent none) id (some parent)) := by
  have hndT : (keysOf T).Nodup := by
    rcases hT with h | h
    · subst h; exact List.nodup_nil
    · exact h.1
  have hpf1 : ∀ x, pfOf (assocEntryOr T parent none) x = pfOf T x :=
    pfOf_assocEntryOr_none T parent
  have hpf2self : pfOf (assocInsert (assocEntryOr T parent none) id (some parent)) id =
      some parent := pfOf_assocInsert_self _ _ _
  have hpf2other : ∀ y, y ≠ id →
      pfOf (assocInsert (assocEntryOr T parent none) id (some parent)) y = pfOf T y := by
    intro y hy
    rw [pfOf_assocInsert_other _ hy, hpf1]
  have hpfid : pfOf T id = none := by
    unfold pfOf
    rw [assocGet_eq_none_iff.mpr hfresh]
    rfl
  have hrootmem : (ROOT_ID, (none : Option NodeID)) ∈
      assocInsert (assocEntryOr T parent none) id (some parent) := by
    apply assocInsert_mem_other ?_ (Ne.symm hid)
    rcases hT with hE | hNE
    · subst hE
      rcases hpar with hp | hp
      · subst hp
        rw [assocGet_assocEntryOr_absent none (by simp)]
        simp
      · simp [keysOf] at hp
    · have hm := hNE.2.1
      by_cases hc : parent ∈ keysOf T
      · rw [assocGet_assocEntryOr_present none hc]
        exact hm
      · rw [assocGet_assocEntryOr_absent none hc]
        exact List.mem_append_left _ hm
  have hnd2 : (keysOf (assocInsert (assocEntryOr T parent none) id (some parent))).Nodup := by
    unfold keysOf
    exact assocInsert_keys_nodup (assocEntryOr_keys_nodup hndT parent none) id (some parent)
  have hparent2 : RootedF
      (pfOf (assocInsert (assocEntryOr T parent none) id (some parent))) [] parent := by
    rcases hpar with hp | hp
    · subst hp
      exact RootedF.root (by simp)
    · have hNE : TreeRootedNE T := by
        rcases hT with hE | h
        · subst hE; simp [keysOf] at hp
        · exact h
      have h1 : RootedF (pfOf T) [] parent := hNE.2.2 parent hp
      have h2 : RootedF (pfOf T) [id] parent := RootedF_avoid_unparented hpfid hid h1
      have h3 : RootedF
          (pfOf (assocInsert (assocEntryOr T parent none) id (some parent))) [id] parent := by
        apply RootedF_transfer ?_ h2
        intro y hy
        exact hpf2other y (by simpa using hy)
      exact RootedF_mono (by simp) h3
  have hid2 : RootedF
      (pfOf (assocInsert (assocEntryOr T parent none) id (some parent))) [] id :=
    RootedF.step (by simp) hpf2self hparent2
  refine ⟨hnd2, hrootmem, ?_⟩
  intro x hx
  rcases create_step_keys.mp hx with hh | hh | hh
  · have hNE : TreeRootedNE T := by
      rcases hT with hE | h
      · subst hE; simp [keysOf] at hh
      · exact h
    exact RootedF_repoint hpf2other hid2 (hNE.2.2 x hh)
  · subst hh
    exact hparent2
  · subst hh
    exact hid2

/-- Replaying a guard-approved move (re-pointing an existing non-root target
under an available parent) keeps the map rooted. -/
theorem move_step_rooted {T : List (NodeID × Option NodeID)} (hT : TreeRootedNE T)
    {target parent : NodeID} (htmem : target ∈ keysOf T) (htR : target ≠ ROOT_ID)
    (hpar : parent = ROOT_ID ∨ parent ∈ keysOf T)
    {fuel : Nat} (hguard : is_ancestor_of (pfOf T) fuel target parent = some false) :
    TreeRootedNE (assocInsert T target (some parent)) := by
  have hndT := hT.1
  have hR : pfOf T ROOT_ID = none := pfOf_of_mem_none hndT hT.2.1
  have hparentrooted : RootedF (pfOf T) [] parent := by
    rcases hpar with hp | hp
    · subst hp
      exact RootedF.root (by simp)
    · exact hT.2.2 parent hp
  have havoid : RootedF (pfOf T) [target] parent :=
    guard_false_rooted_avoids hR fuel hguard hparentrooted htR
  have hpfother : ∀ y, y ≠ target →
      pfOf (assocInsert T target (some parent)) y = pfOf T y :=
    fun y hy => pfOf_assocInsert_other _ hy
  have hpar2 : RootedF (pfOf (assocInsert T target (some parent))) [target] parent := by
    apply RootedF_transfer ?_ havoid
    intro y hy
    exact hpfother y (by simpa using hy)
  have htgt : RootedF (pfOf (assocInsert T target (some parent))) [] target :=
    RootedF.step (by simp) (pfOf_assocInsert_self _ _ _) (RootedF_mono (by simp) hpar2)
  refine ⟨?_, ?_, ?_⟩
  · unfold keysOf
    exact assocInsert_keys_nodup hndT target (some parent)
  · exact assocInsert_mem_other hT.2.1 (Ne.symm htR)
  · intro x hx
    unfold keysOf at hx
    rcases (assocInsert_mem_keys_iff (some parent)).mp hx with hh | hh
    · exact RootedF_repoint hpfother htgt (hT.2.2 x hh)
    · subst hh
      exact htgt

theorem run_pending_nil (tree : List (NodeID × Option NodeID)) :
    run_pending tree [] = some (tree, []) := rfl

theorem run_pending_create {w : OpWrapper} {parent : NodeID}
    (hop : w.op.op = TreeOp.create parent) (tree : List (NodeID × Option NodeID))
    (rest : List OpWrapper) :
    run_pending tree (w :: rest) =
      (run_pending (assocInsert (assocEntryOr tree parent none) w.op.id (some parent))
        rest).map (fun r => (r.1, w :: r.2)) := by
  conv_lhs => unfold run_pending
  rw [hop]

theorem run_pending_move {w : OpWrapper} {target parent : NodeID} {counter : Nat}
    (hop : w.op.op = TreeOp.move target parent counter)
    (tree : List (NodeID × Option NodeID)) (rest : List OpWrapper) :
    run_pending tree (w :: rest) =
      (if ¬ assocContains tree target then none
      else
        match is_ancestor_of (pfOf tree) (tree.length + 2) target parent with
        | none => none
        | some true => (run_pending tree rest).map
            (fun r => (r.1, ⟨w.op, pfOf tree target⟩ :: r.2))
        | some false =>
          (run_pending (assocInsert tree target (some parent)) rest).map
            (fun r => (r.1, ⟨w.op, pfOf tree target⟩ :: r.2))) := by
  conv_lhs => unfold run_pending
  rw [hop]
  rfl

theorem assocGet_assocEntryOr_other {α β : Type} [DecidableEq α]
    {l : List (α × β)} {k x : α} (v : β) (h : x ≠ k) :
    assocGet (assocEntryOr l k v) x = assocGet l x := by
  by_cases hc : k ∈ l.map (fun kv => kv.1)
  · rw [assocGet_assocEntryOr_present v hc]
  · rw [assocGet_assocEntryOr_absent v hc]
    exact assocGet_append_single_other h

theorem assocGet_assocEntryOr_self_absent {α β : Type} [DecidableEq α]
    {l : List (α × β)} {k : α} (v : β) (h : k ∉ l.map (fun kv => kv.1)) :
    assocGet (assocEntryOr l k v) k = some v := by
  rw [assocGet_assocEntryOr_absent v h]
  exact assocGet_append_single_self (assocGet_eq_none_iff.mpr h)

theorem pfOf_congr_of_get {T1 T2 : List (NodeID × Option NodeID)} {x : NodeID}
    (h : assocGet T2 x = assocGet T1 x) : pfOf T2 x = pfOf T1 x := by
  unfold pfOf
  rw [h]

/-- Ids of the create wrappers in a pending list. -/
def createIdsW (L : List OpWrapper) : List NodeID :=
  L.filterMap (fun w =>
    match w.op.op with
    | TreeOp.create _ => some w.op.id
    | TreeOp.move _ _ _ => none)

theorem createIdsW_cons_create {w : OpWrapper} {parent : NodeID}
    (hop : w.op.op = TreeOp.create parent) (rest : List OpWrapper) :
    createIdsW (w :: rest) = w.op.id :: createIdsW rest := by
  unfold createIdsW
  rw [List.filterMap_cons, hop]

theorem createIdsW_cons_move {w : OpWrapper} {target parent : NodeID} {counter : Nat}
    (hop : w.op.op = TreeOp.move target parent counter) (rest : List OpWrapper) :
    createIdsW (w :: rest) = createIdsW rest := by
  unfold createIdsW
  rw [List.filterMap_cons, hop]

/-- Remove every occurrence of an id from a ghost set. -/
def removeId (E : List NodeID) (x : NodeID) : List NodeID :=
  E.filter (fun y => y != x)

theorem mem_removeId {E : List NodeID} {x y : NodeID} :
    y ∈ removeId E x ↔ y ∈ E ∧ y ≠ x := by
  unfold removeId
  simp [List.mem_filter]

/-- The simulation relation between the reference replay tree `T1` and a tree
`T2` carrying extra ghost entries `E` (left-over created nodes of an undone
suffix, plus possibly `ROOT`), each holding the value `ev`. -/
def RelE (E : List NodeID) (ev : NodeID → Option NodeID)
    (T1 T2 : List (NodeID × Option NodeID)) : Prop :=
  (keysOf T1).Nodup ∧ (keysOf T2).Nodup ∧
  (∀ x, x ∉ E → assocGet T2 x = assocGet T1 x) ∧
  (∀ x, x ∈ keysOf T2 ↔ x ∈ keysOf T1 ∨ x ∈ E) ∧
  (∀ x ∈ E, x ∉ keysOf T1 ∧ assocGet T2 x = some (ev x) ∧ (x = ROOT_ID → ev x = none))

/-- Positional honesty of a pending-wrapper list: every id is fresh and
non-`ROOT`, every reference is `ROOT` or already available, and the ghost set
`E` is fully resolved by matching creates (ghost `ROOT` by the first create
under `ROOT`). -/
inductive StepsOK (ev : NodeID → Option NodeID) :
    List NodeID → List NodeID → List OpWrapper → Prop where
  | nil (avail : List NodeID) : StepsOK ev avail [] []
  | create {avail E : List NodeID} {rest : List OpWrapper} (w : OpWrapper) (parent : NodeID)
      (hop : w.op.op = TreeOp.create parent)
      (hidR : w.op.id ≠ ROOT_ID)
      (hfresh : w.op.id ∉ avail)
      (hpar : parent = ROOT_ID ∨ parent ∈ avail)
      (hev : w.op.id ∈ E → ev w.op.id = some parent)
      (hrest : StepsOK ev (avail ++ [w.op.id])
        (if parent = ROOT_ID then removeId (removeId E w.op.id) ROOT_ID
         else removeId E w.op.id)
        rest) :
      StepsOK ev avail E (w :: rest)
  | move {avail E : List NodeID} {rest : List OpWrapper} (w : OpWrapper)
      (target parent : NodeID) (counter : Nat)
      (hop : w.op.op = TreeOp.move target parent counter)
      (ht : target ∈ avail) (htR : target ≠ ROOT_ID)
      (hpar : parent = ROOT_ID ∨ parent ∈ avail)
      (hrest : StepsOK ev avail E rest) :
      StepsOK ev avail E (w :: rest)

theorem RelE_create_step {E : List NodeID} {ev : NodeID → Option NodeID}
    {T1 T2 : List (NodeID × Option NodeID)} (hrel : RelE E ev T1 T2)
    {id parent : NodeID}
    (hidR : id ≠ ROOT_ID) (hfresh1 : id ∉ keysOf T1)
    (hparok : parent = ROOT_ID ∨ parent ∈ keysOf T1)
    (hev : id ∈ E → ev id = some parent) :
    RelE (if parent = ROOT_ID then removeId (removeId E id) ROOT_ID
        else removeId E id) ev
      (assocInsert (assocEntryOr T1 parent none) id (some parent))
      (assocInsert (assocEntryOr T2 parent none) id (some parent)) := by
  obtain ⟨hnd1, hnd2, hagree, hkeys, hE⟩ := hrel
  have hEnotmem : ∀ x ∈ E, x ∉ keysOf T1 := fun x hx => (hE x hx).1
  have hmemE : ∀ {x}, x ∈ (if parent = ROOT_ID then removeId (removeId E id) ROOT_ID
      else removeId E id) → x ∈ E ∧ x ≠ id ∧ (parent = ROOT_ID → x ≠ ROOT_ID) := by
    intro x hx
    by_cases hp : parent = ROOT_ID
    · rw [if_pos hp] at hx
      obtain ⟨h1, h2⟩ := mem_removeId.mp hx
      obtain ⟨h3, h4⟩ := mem_removeId.mp h1
      exact ⟨h3, h4, fun _ => h2⟩
    · rw [if_neg hp] at hx
      obtain ⟨h1, h2⟩ := mem_removeId.mp hx
      exact ⟨h1, h2, fun hh => absurd hh hp⟩
  have hmemE2 : ∀ {x}, x ∈ E → x ≠ id → (parent = ROOT_ID → x ≠ ROOT_ID) →
      x ∈ (if parent = ROOT_ID then removeId (removeId E id) ROOT_ID
        else removeId E id) := by
    intro x hx hxid hxr
    by_cases hp : parent = ROOT_ID
    · rw [if_pos hp]
      exact mem_removeId.mpr ⟨mem_removeId.mpr ⟨hx, hxid⟩, hxr hp⟩
    · rw [if_neg hp]
      exact mem_removeId.mpr ⟨hx, hxid⟩
  refine ⟨?_, ?_, ?_, ?_, ?_⟩
  · exact assocInsert_keys_nodup (assocEntryOr_keys_nodup hnd1 parent none) id (some parent)
  · exact assocInsert_keys_nodup (assocEntryOr_keys_nodup hnd2 parent none) id (some parent)
  · intro x hx
    by_cases hxid : x = id
    · subst hxid
      rw [assocGet_assocInsert_self, assocGet_assocInsert_self]
    · rw [assocGet_assocInsert_other hxid, assocGet_assocInsert_other hxid]
      by_cases hxp : x = parent
      · rw [hxp]
        rcases hparok with hp | hp
        · subst hp
          by_cases hc1 : ROOT_ID ∈ keysOf T1
          · have hc2 : ROOT_ID ∈ keysOf T2 := (hkeys ROOT_ID).mpr (Or.inl hc1)
            rw [assocGet_assocEntryOr_present none hc1,
              assocGet_assocEntryOr_present none hc2]
            apply hagree
            intro hmem
            exact hEnotmem _ hmem hc1
          · by_cases hcE : ROOT_ID ∈ E
            · have hc2 : ROOT_ID ∈ keysOf T2 := (hkeys ROOT_ID).mpr (Or.inr hcE)
              rw [assocGet_assocEntryOr_present none hc2,
                assocGet_assocEntryOr_absent none hc1]
              obtain ⟨hh1, hh2, hh3⟩ := hE ROOT_ID hcE
              rw [hh2, hh3 rfl]
              rw [assocGet_append_single_self (assocGet_eq_none_iff.mpr hc1)]
            · have hc2 : ROOT_ID ∉ keysOf T2 := by
                intro hmem
                rcases (hkeys ROOT_ID).mp hmem with hh | hh
                · exact hc1 hh
                · exact hcE hh
              rw [assocGet_assocEntryOr_self_absent none hc1,
                assocGet_assocEntryOr_self_absent none hc2]
        · have hp2 : parent ∈ keysOf T2 := (hkeys parent).mpr (Or.inl hp)
          rw [assocGet_assocEntryOr_present none hp,
            assocGet_assocEntryOr_present none hp2]
          apply hagree
          intro hmem
          exact hEnotmem _ hmem hp
      · rw [assocGet_assocEntryOr_other none hxp, assocGet_assocEntryOr_other none hxp]
        apply hagree
        intro hmem
        exact hx (hmemE2 hmem hxid (fun hpr => by
          intro hxr
          subst hxr
          exact hxp hpr.symm))
  · intro x
    rw [create_step_keys, create_step_keys]
    constructor
    · rintro (hh | hh | hh)
      · rcases (hkeys x).mp hh with h2 | h2
        · exact Or.inl (Or.inl h2)
        · by_cases hxid : x = id
          · exact Or.inl (Or.inr (Or.inr hxid))
          · by_cases hxr : parent = ROOT_ID → x ≠ ROOT_ID
            · exact Or.inr (hmemE2 h2 hxid hxr)
            · push_neg at hxr
              obtain ⟨hp, hxr2⟩ := hxr
              subst hxr2
              exact Or.inl (Or.inr (Or.inl hp.symm))
      · exact Or.inl (Or.inr (Or.inl hh))
      · exact Or.inl (Or.inr (Or.inr hh))
    · rintro ((hh | hh | hh) | hh)
      · exact Or.inl ((hkeys x).mpr (Or.inl hh))
      · exact Or.inr (Or.inl hh)
      · exact Or.inr (Or.inr hh)
      · exact Or.inl ((hkeys x).mpr (Or.inr (hmemE hh).1))
  · intro x hx
    obtain ⟨hxE, hxid, hxr⟩ := hmemE hx
    obtain ⟨hh1, hh2, hh3⟩ := hE x hxE
    have hxp : x ≠ parent := by
      rcases hparok with hp | hp
      · subst hp
        exact hxr rfl
      · intro hc
        subst hc
        exact hh1 hp
    refine ⟨?_, ?_, hh3⟩
    · rw [create_step_keys]
      rintro (hc | hc | hc)
      · exact hh1 hc
      · exact hxp hc
      · exact hxid hc
    · rw [assocGet_assocInsert_other hxid, assocGet_assocEntryOr_other none hxp]
      exact hh2

theorem RelE_move_step {E : List NodeID} {ev : NodeID → Option NodeID}
    {T1 T2 : List (NodeID × Option NodeID)} (hrel : RelE E ev T1 T2)
    {target : NodeID} (parent : NodeID) (ht1 : target ∈ keysOf T1) :
    RelE E ev (assocInsert T1 target (some parent))
      (assocInsert T2 target (some parent)) := by
  obtain ⟨hnd1, hnd2, hagree, hkeys, hE⟩ := hrel
  refine ⟨?_, ?_, ?_, ?_, ?_⟩
  · exact assocInsert_keys_nodup hnd1 target (some parent)
  · exact assocInsert_keys_nodup hnd2 target (some parent)
  · intro x hx
    by_cases hxt : x = target
    · subst hxt
      rw [assocGet_assocInsert_self, assocGet_assocInsert_self]
    · rw [assocGet_assocInsert_other hxt, assocGet_assocInsert_other hxt]
      exact hagree x hx
  · intro x
    unfold keysOf
    rw [assocInsert_mem_keys_iff, assocInsert_mem_keys_iff]
    constructor
    · rintro (hh | hh)
      · rcases (hkeys x).mp hh with h2 | h2
        · exact Or.inl (Or.inl h2)
        · exact Or.inr h2
      · exact Or.inl (Or.inr hh)
    · rintro ((hh | hh) | hh)
      · exact Or.inl ((hkeys x).mpr (Or.inl hh))
      · exact Or.inr hh
      · exact Or.inl ((hkeys x).mpr (Or.inr hh))
  · intro x hx
    obtain ⟨hh1, hh2, hh3⟩ := hE x hx
    have hxt : x ≠ target := by
      intro hc
      subst hc
      exact hh1 ht1
    refine ⟨?_, ?_, hh3⟩
    · unfold keysOf
      rw [assocInsert_mem_keys_iff]
      rintro (hc | hc)
      · exact hh1 hc
      · exact hxt hc
    · rw [assocGet_assocInsert_other hxt]
      exact hh2

/-- Under the simulation relation, both trees answer the ancestor guard
identically (and without panicking), provided the reference side is rooted. -/
theorem guard_eq_of_rel {E : List NodeID} {ev : NodeID → Option NodeID}
    {T1 T2 : List (NodeID × Option NodeID)} (hrel : RelE E ev T1 T2)
    (hT1 : TreeRootedNE T1) {target parent : NodeID}
    (hpar : parent = ROOT_ID ∨ parent ∈ keysOf T1) :
    ∃ g : Bool, is_ancestor_of (pfOf T1) (T1.length + 2) target parent = some g ∧
      is_ancestor_of (pfOf T2) (T2.length + 2) target parent = some g := by
  obtain ⟨hnd1, hnd2, hagree, hkeys, hE⟩ := hrel
  have hR1 : pfOf T1 ROOT_ID = none := pfOf_of_mem_none hT1.1 hT1.2.1
  have hR2 : pfOf T2 ROOT_ID = none := by
    by_cases hc1 : ROOT_ID ∈ keysOf T1
    · rw [pfOf_congr_of_get (hagree ROOT_ID (fun hm => (hE ROOT_ID hm).1 hc1))]
      exact hR1
    · by_cases hcE : ROOT_ID ∈ E
      · obtain ⟨hh1, hh2, hh3⟩ := hE ROOT_ID hcE
        unfold pfOf
        rw [hh2, hh3 rfl]
        rfl
      · have hc2 : ROOT_ID ∉ keysOf T2 := by
          intro hmem
          rcases (hkeys ROOT_ID).mp hmem with hh | hh
          · exact hc1 hh
          · exact hcE hh
        unfold pfOf
        rw [assocGet_eq_none_iff.mpr hc2]
        rfl
  have hrooted : RootedF (pfOf T1) [] parent := by
    rcases hpar with hp | hp
    · subst hp
      exact RootedF.root (by simp)
    · exact hT1.2.2 parent hp
  obtain ⟨l, hchain, hlnd, hllen⟩ := rooted_short_chain hT1.1 hrooted
  have hagreechain : ∀ x ∈ l, pfOf T2 x = pfOf T1 x := by
    intro x hx
    obtain ⟨y, hy⟩ := ChainL_mem_has_parent hchain x hx
    have hxk : x ∈ keysOf T1 := pfOf_some_mem hy
    exact pfOf_congr_of_get (hagree x (fun hm => (hE x hm).1 hxk))
  have hchain2 : ChainL (pfOf T2) parent l ROOT_ID := ChainL_transfer hchain hagreechain
  have hlen12 : T1.length ≤ T2.length := by
    have hsub : ∀ x ∈ keysOf T1, x ∈ keysOf T2 := fun x hx => (hkeys x).mpr (Or.inl hx)
    have := (List.subperm_of_subset hnd1 hsub).length_le
    unfold keysOf at this
    simpa using this
  refine ⟨decide (target ∈ l ∨ target = ROOT_ID), ?_, ?_⟩
  · exact walk_eval hR1 l hchain (T1.length + 2) (by omega) target
  · exact walk_eval hR2 l hchain2 (T2.length + 2) (by omega) target

theorem run_pending_move_go {w : OpWrapper} {target parent : NodeID} {counter : Nat}
    (hop : w.op.op = TreeOp.move target parent counter)
    {tree : List (NodeID × Option NodeID)} (hcont : assocContains tree target = true)
    {g : Bool} (hg : is_ancestor_of (pfOf tree) (tree.length + 2) target parent = some g)
    (rest : List OpWrapper) :
    run_pending tree (w :: rest) =
      if g then (run_pending tree rest).map
          (fun r => (r.1, ⟨w.op, pfOf tree target⟩ :: r.2))
      else (run_pending (assocInsert tree target (some parent)) rest).map
          (fun r => (r.1, ⟨w.op, pfOf tree target⟩ :: r.2)) := by
  rw [run_pending_move hop, hcont, hg]
  cases g
  · simp
  · simp

/-- The replay engine, run simultaneously on the reference tree and on a tree
with ghost leftovers: both runs succeed, emit identical wrapper lists, keep
the reference side rooted, resolve every ghost entry, and grow the key set by
exactly the created ids (plus `ROOT` on first use). -/
theorem run_pending_main (ev : NodeID → Option NodeID) :
    ∀ (L : List OpWrapper) (T1 T2 : List (NodeID × Option NodeID))
      (avail E : List NodeID),
      StepsOK ev avail E L →
      MTreeOK T1 →
      RelE E ev T1 T2 →
      (∀ x ∈ avail, x ∈ keysOf T1) →
      (∀ x ∈ keysOf T1, x = ROOT_ID ∨ x ∈ avail) →
      ∃ R1 R2 W,
        run_pending T1 L = some (R1, W) ∧
        run_pending T2 L = some (R2, W) ∧
        MTreeOK R1 ∧
        RelE [] ev R1 R2 ∧
        W.map (fun w2 => w2.op) = L.map (fun w2 => w2.op) ∧
        (∀ x, x ∈ keysOf R1 ↔
          x ∈ keysOf T1 ∨ (x = ROOT_ID ∧ createIdsW L ≠ []) ∨ x ∈ createIdsW L) := by
  intro L
  induction L with
  | nil =>
    intro T1 T2 avail E hsteps hT1 hrel hav hcov
    cases hsteps with
    | nil av =>
      refine ⟨T1, T2, [], rfl, rfl, hT1, hrel, rfl, ?_⟩
      intro x
      simp [createIdsW]
  | cons w rest ih =>
    intro T1 T2 avail E hsteps hT1 hrel hav hcov
    cases hsteps with
    | create _ parent hop hidR hfresh hpar hev hrest =>
      have hfreshkeys : w.op.id ∉ keysOf T1 := by
        intro hmem
        rcases hcov _ hmem with hh | hh
        · exact hidR hh
        · exact hfresh hh
      have hparok : parent = ROOT_ID ∨ parent ∈ keysOf T1 := by
        rcases hpar with hh | hh
        · exact Or.inl hh
        · exact Or.inr (hav _ hh)
      have hT1s : TreeRootedNE
          (assocInsert (assocEntryOr T1 parent none) w.op.id (some parent)) :=
        create_step_rooted hT1 hidR hfreshkeys hparok
      have hrel2 := RelE_create_step hrel hidR hfreshkeys hparok hev
      have hav2 : ∀ x ∈ avail ++ [w.op.id],
          x ∈ keysOf (assocInsert (assocEntryOr T1 parent none) w.op.id (some parent)) := by
        intro x hx
        rcases List.mem_append.mp hx with hh | hh
        · exact create_step_keys.mpr (Or.inl (hav _ hh))
        · simp only [List.mem_singleton] at hh
          subst hh
          exact create_step_keys.mpr (Or.inr (Or.inr rfl))
      have hcov2 : ∀ x ∈ keysOf
          (assocInsert (assocEntryOr T1 parent none) w.op.id (some parent)),
          x = ROOT_ID ∨ x ∈ avail ++ [w.op.id] := by
        intro x hx
        rcases create_step_keys.mp hx with hh | hh | hh
        · rcases hcov _ hh with h2 | h2
          · exact Or.inl h2
          · exact Or.inr (List.mem_append_left _ h2)
        · subst hh
          rcases hpar with h2 | h2
          · exact Or.inl h2
          · exact Or.inr (List.mem_append_left _ h2)
        · subst hh
          exact Or.inr (List.mem_append_right _ (by simp))
      obtain ⟨R1, R2, W, h1, h2, h3, h4, h5, h6⟩ :=
        ih _ _ _ _ hrest (Or.inr hT1s) hrel2 hav2 hcov2
      refine ⟨R1, R2, w :: W, ?_, ?_, h3, h4, ?_, ?_⟩
      · rw [run_pending_create hop, h1]
        rfl
      · rw [run_pending_create hop, h2]
        rfl
      · simp only [List.map_cons, h5]
      · intro x
        rw [h6 x, createIdsW_cons_create hop]
        constructor
        · rintro (hh | hh | hh)
          · rcases create_step_keys.mp hh with h7 | h7 | h7
            · exact Or.inl h7
            · rcases hpar with h8 | h8
              · subst h8
                exact Or.inr (Or.inl ⟨h7, by simp⟩)
              · exact Or.inl (by rw [h7]; exact hav _ h8)
            · exact Or.inr (Or.inr (by rw [h7]; exact List.mem_cons_self _ _))
          · exact Or.inr (Or.inl ⟨hh.1, by simp⟩)
          · exact Or.inr (Or.inr (List.mem_cons_of_mem _ hh))
        · rintro (hh | hh | hh)
          · exact Or.inl (create_step_keys.mpr (Or.inl hh))
          · obtain ⟨hx, _⟩ := hh
            subst hx
            by_cases hc : ROOT_ID ∈ keysOf T1
            · exact Or.inl (create_step_keys.mpr (Or.inl hc))
            · rcases hparok with h8 | h8
              · exact Or.inl (create_step_keys.mpr (Or.inr (Or.inl h8.symm)))
              · exfalso
                rcases hT1 with hE | hNE
                · rw [hE] at h8
                  simp [keysOf] at h8
                · exact hc (List.mem_map.mpr ⟨(ROOT_ID, none), hNE.2.1, rfl⟩)
          · rcases List.mem_cons.mp hh with h7 | h7
            · subst h7
              exact Or.inl (create_step_keys.mpr (Or.inr (Or.inr rfl)))
            · exact Or.inr (Or.inr h7)
    | move _ target parent counter hop ht htR hpar hrest =>
      have hT1NE : TreeRootedNE T1 := by
        rcases hT1 with hE | h
        · exfalso
          have hm := hav _ ht
          rw [hE] at hm
          simp [keysOf] at hm
        · exact h
      have htk : target ∈ keysOf T1 := hav _ ht
      have hparok : parent = ROOT_ID ∨ parent ∈ keysOf T1 := by
        rcases hpar with hh | hh
        · exact Or.inl hh
        · exact Or.inr (hav _ hh)
      obtain ⟨g, hg1, hg2⟩ := guard_eq_of_rel hrel hT1NE hparok
      have hcont1 : assocContains T1 target = true := assocContains_iff.mpr htk
      have hcont2 : assocContains T2 target = true := by
        apply assocContains_iff.mpr
        exact (hrel.2.2.2.1 target).mpr (Or.inl htk)
      have hold : pfOf T2 target = pfOf T1 target := by
        apply pfOf_congr_of_get
        apply hrel.2.2.1 target
        intro hm
        exact (hrel.2.2.2.2 target hm).1 htk
      cases g with
      | true =>
        obtain ⟨R1, R2, W, h1, h2, h3, h4, h5, h6⟩ :=
          ih _ _ _ _ hrest hT1 hrel hav hcov
        refine ⟨R1, R2, ⟨w.op, pfOf T1 target⟩ :: W, ?_, ?_, h3, h4, ?_, ?_⟩
        · rw [run_pending_move_go hop hcont1 hg1 rest, if_pos rfl, h1]
          rfl
        · rw [run_pending_move_go hop hcont2 hg2 rest, if_pos rfl, h2, hold]
          rfl
        · simp only [List.map_cons, h5]
        · intro x
          rw [h6 x, createIdsW_cons_move hop]
      | false =>
        have hT1s : TreeRootedNE (assocInsert T1 target (some parent)) :=
          move_step_rooted hT1NE htk htR hparok hg1
        have hrel2 := RelE_move_step hrel parent htk
        have hav2 : ∀ x ∈ avail, x ∈ keysOf (assocInsert T1 target (some parent)) := by
          intro x hx
          unfold keysOf
          rw [assocInsert_mem_keys_iff]
          exact Or.inl (hav _ hx)
        have hcov2 : ∀ x ∈ keysOf (assocInsert T1 target (some parent)),
            x = ROOT_ID ∨ x ∈ avail := by
          intro x hx
          unfold keysOf at hx
          rcases (assocInsert_mem_keys_iff _).mp hx with hh | hh
          · exact hcov _ hh
          · subst hh
            exact Or.inr ht
        obtain ⟨R1, R2, W, h1, h2, h3, h4, h5, h6⟩ :=
          ih _ _ _ _ hrest (Or.inr hT1s) hrel2 hav2 hcov2
        refine ⟨R1, R2, ⟨w.op, pfOf T1 target⟩ :: W, ?_, ?_, h3, h4, ?_, ?_⟩
        · rw [run_pending_move_go hop hcont1 hg1 rest, if_neg (by simp), h1]
          rfl
        · rw [run_pending_move_go hop hcont2 hg2 rest, if_neg (by simp), h2, hold]
          rfl
        · simp only [List.map_cons, h5]
        · intro x
          rw [h6 x, createIdsW_cons_move hop]
          constructor
          · rintro (hh | hh | hh)
            · unfold keysOf at hh
              rcases (assocInsert_mem_keys_iff _).mp hh with h7 | h7
              · exact Or.inl h7
              · subst h7
                exact Or.inl htk
            · exact Or.inr (Or.inl hh)
            · exact Or.inr (Or.inr hh)
          · rintro (hh | hh | hh)
            · refine Or.inl ?_
              unfold keysOf
              rw [assocInsert_mem_keys_iff]
              exact Or.inl hh
            · exact Or.inr (Or.inl hh)
            · exact Or.inr (Or.inr hh)

theorem run_pending_append (L1 : List OpWrapper) :
    ∀ (L2 : List OpWrapper) (T : List (NodeID × Option NodeID)),
      run_pending T (L1 ++ L2) =
        (run_pending T L1).bind (fun r1 =>
          (run_pending r1.1 L2).map (fun r2 => (r2.1, r1.2 ++ r2.2))) := by
  induction L1 with
  | nil =>
    intro L2 T
    rw [List.nil_append, run_pending_nil]
    cases hr : run_pending T L2 with
    | none => simp [hr]
    | some r => simp [hr]
  | cons w L1 ih =>
    intro L2 T
    cases hop : w.op.op with
    | create parent =>
      rw [List.cons_append, run_pending_create hop, run_pending_create hop, ih]
      cases h1 : run_pending
          (assocInsert (assocEntryOr T parent none) w.op.id (some parent)) L1 with
      | none => simp
      | some r1 =>
        cases h2 : run_pending r1.1 L2 with
        | none => simp [h2]
        | some r2 => simp [h2]
    | move target parent counter =>
      rw [List.cons_append]
      by_cases hcont : assocContains T target = true
      · cases hg : is_ancestor_of (pfOf T) (T.length + 2) target parent with
        | none =>
          rw [run_pending_move hop, run_pending_move hop, if_neg (not_not_intro hcont),
            if_neg (not_not_intro hcont), hg]
          rfl
        | some g =>
          rw [run_pending_move_go hop hcont hg, run_pending_move_go hop hcont hg]
          cases g with
          | true =>
            rw [if_pos rfl, if_pos rfl, ih]
            cases h1 : run_pending T L1 with
            | none => simp
            | some r1 =>
              cases h2 : run_pending r1.1 L2 with
              | none => simp [h2]
              | some r2 => simp [h2]
          | false =>
            rw [if_neg (by simp), if_neg (by simp), ih]
            cases h1 : run_pending (assocInsert T target (some parent)) L1 with
            | none => simp
            | some r1 =>
              cases h2 : run_pending r1.1 L2 with
              | none => simp [h2]
              | some r2 => simp [h2]
      · rw [run_pending_move hop, run_pending_move hop, if_pos hcont, if_pos hcont]
        rfl

theorem run_pending_wrappers :
    ∀ (L : List OpWrapper) (T R : List (NodeID × Option NodeID)) (W : List OpWrapper),
      run_pending T L = some (R, W) →
      W.map (fun w2 => w2.op) = L.map (fun w2 => w2.op) := by
  intro L
  induction L with
  | nil =>
    intro T R W h
    rw [run_pending_nil] at h
    injection h with h
    injection h with hA hB
    subst hB
    rfl
  | cons w L ih =>
    intro T R W h
    cases hop : w.op.op with
    | create parent =>
      rw [run_pending_create hop] at h
      cases h1 : run_pending
          (assocInsert (assocEntryOr T parent none) w.op.id (some parent)) L with
      | none => rw [h1] at h; cases h
      | some r1 =>
        obtain ⟨R1, W1⟩ := r1
        rw [h1] at h
        injection h with h
        injection h with hA hB
        subst hB
        simp only [List.map_cons]
        rw [ih _ _ _ h1]
    | move target parent counter =>
      by_cases hcont : assocContains T target = true
      · cases hg : is_ancestor_of (pfOf T) (T.length + 2) target parent with
        | none =>
          rw [run_pending_move hop, if_neg (not_not_intro hcont), hg] at h
          cases h
        | some g =>
          rw [run_pending_move_go hop hcont hg] at h
          cases g with
          | true =>
            rw [if_pos rfl] at h
            cases h1 : run_pending T L with
            | none => rw [h1] at h; cases h
            | some r1 =>
              obtain ⟨R1, W1⟩ := r1
              rw [h1] at h
              injection h with h
              injection h with hA hB
              subst hB
              simp only [List.map_cons]
              rw [ih _ _ _ h1]
          | false =>
            rw [if_neg (by simp)] at h
            cases h1 : run_pending (assocInsert T target (some parent)) L with
            | none => rw [h1] at h; cases h
            | some r1 =>
              obtain ⟨R1, W1⟩ := r1
              rw [h1] at h
              injection h with h
              injection h with hA hB
              subst hB
              simp only [List.map_cons]
              rw [ih _ _ _ h1]
      · rw [run_pending_move hop, if_pos hcont] at h
        cases h

theorem run_pending_keys_mono :
    ∀ (L : List OpWrapper) (T R : List (NodeID × Option NodeID)) (W : List OpWrapper),
      run_pending T L = some (R, W) →
      ∀ x ∈ keysOf T, x ∈ keysOf R := by
  intro L
  induction L with
  | nil =>
    intro T R W h
    rw [run_pending_nil] at h
    injection h with h
    injection h with hA hB
    subst hA
    exact fun x hx => hx
  | cons w L ih =>
    intro T R W h
    cases hop : w.op.op with
    | create parent =>
      rw [run_pending_create hop] at h
      cases h1 : run_pending
          (assocInsert (assocEntryOr T parent none) w.op.id (some parent)) L with
      | none => rw [h1] at h; cases h
      | some r1 =>
        obtain ⟨R1, W1⟩ := r1
        rw [h1] at h
        injection h with h
        injection h with hA hB
        subst hA
        intro x hx
        exact ih _ _ _ h1 x (create_step_keys.mpr (Or.inl hx))
    | move target parent counter =>
      by_cases hcont : assocContains T target = true
      · cases hg : is_ancestor_of (pfOf T) (T.length + 2) target parent with
        | none =>
          rw [run_pending_move hop, if_neg (not_not_intro hcont), hg] at h
          cases h
        | some g =>
          rw [run_pending_move_go hop hcont hg] at h
          cases g with
          | true =>
            rw [if_pos rfl] at h
            cases h1 : run_pending T L with
            | none => rw [h1] at h; cases h
            | some r1 =>
              obtain ⟨R1, W1⟩ := r1
              rw [h1] at h
              injection h with h
              injection h with hA hB
              subst hA
              intro x hx
              exact ih _ _ _ h1 x hx
          | false =>
            rw [if_neg (by simp)] at h
            cases h1 : run_pending (assocInsert T target (some parent)) L with
            | none => rw [h1] at h; cases h
            | some r1 =>
              obtain ⟨R1, W1⟩ := r1
              rw [h1] at h
              injection h with h
              injection h with hA hB
              subst hA
              intro x hx
              apply ih _ _ _ h1 x
              unfold keysOf
              rw [assocInsert_mem_keys_iff]
              exact Or.inl hx
      · rw [run_pending_move hop, if_pos hcont] at h
        cases h

theorem stepsOK_avail_not_create {ev : NodeID → Option NodeID} :
    ∀ {L : List OpWrapper} {avail E : List NodeID}, StepsOK ev avail E L →
      ∀ x ∈ avail, x ∉ createIdsW L := by
  intro L
  induction L with
  | nil =>
    intro avail E h x hx
    simp [createIdsW]
  | cons w rest ih =>
    intro avail E h x hx
    cases h with
    | create _ parent hop hidR hfresh hpar hev hrest =>
      rw [createIdsW_cons_create hop]
      intro hmem
      rcases List.mem_cons.mp hmem with hh | hh
      · subst hh
        exact hfresh hx
      · exact ih hrest x (List.mem_append_left _ hx) hh
    | move _ target parent counter hop ht htR hpar hrest =>
      rw [createIdsW_cons_move hop]
      exact ih hrest x hx

theorem pfOf_eq_value {T : List (NodeID × Option NodeID)} {x : NodeID} {v : Option NodeID}
    (h : assocGet T x = some v) : pfOf T x = v := by
  unfold pfOf
  rw [h]
  cases v <;> rfl

/-- Replaying the wrappers a replay emitted reproduces the replay exactly. -/
theorem run_pending_again :
    ∀ (L : List OpWrapper) (T R : List (NodeID × Option NodeID)) (W : List OpWrapper),
      run_pending T L = some (R, W) →
      run_pending T W = some (R, W) := by
  intro L
  induction L with
  | nil =>
    intro T R W h
    rw [run_pending_nil] at h
    injection h with h
    injection h with hA hB
    subst hA
    subst hB
    rfl
  | cons w L ih =>
    intro T R W h
    cases hop : w.op.op with
    | create parent =>
      rw [run_pending_create hop] at h
      cases h1 : run_pending
          (assocInsert (assocEntryOr T parent none) w.op.id (some parent)) L with
      | none => rw [h1] at h; cases h
      | some r1 =>
        obtain ⟨R1, W1⟩ := r1
        rw [h1] at h
        injection h with h
        injection h with hA hB
        subst hA
        subst hB
        rw [run_pending_create hop, ih _ _ _ h1]
        rfl
    | move target parent counter =>
      by_cases hcont : assocContains T target = true
      · cases hg : is_ancestor_of (pfOf T) (T.length + 2) target parent with
        | none =>
          rw [run_pending_move hop, if_neg (not_not_intro hcont), hg] at h
          cases h
        | some g =>
          rw [run_pending_move_go hop hcont hg] at h
          cases g with
          | true =>
            rw [if_pos rfl] at h
            cases h1 : run_pending T L with
            | none => rw [h1] at h; cases h
            | some r1 =>
              obtain ⟨R1, W1⟩ := r1
              rw [h1] at h
              injection h with h
              injection h with hA hB
              subst hA
              subst hB
              rw [@run_pending_move_go ⟨w.op, pfOf T target⟩ target parent counter hop
                T hcont true hg W1, if_pos rfl, ih _ _ _ h1]
              rfl
          | false =>
            rw [if_neg (by simp)] at h
            cases h1 : run_pending (assocInsert T target (some parent)) L with
            | none => rw [h1] at h; cases h
            | some r1 =>
              obtain ⟨R1, W1⟩ := r1
              rw [h1] at h
              injection h with h
              injection h with hA hB
              subst hA
              subst hB
              rw [@run_pending_move_go ⟨w.op, pfOf T target⟩ target parent counter hop
                T hcont false hg W1, if_neg (by simp), ih _ _ _ h1]
              rfl
      · rw [run_pending_move hop, if_pos hcont] at h
        cases h

/-- The replay engine is congruent under reordering of the backing map. -/
theorem run_pending_perm :
    ∀ (L : List OpWrapper) {T T2 R : List (NodeID × Option NodeID)} {W : List OpWrapper},
      T.Perm T2 → (keysOf T).Nodup →
      run_pending T L = some (R, W) →
      ∃ R2, run_pending T2 L = some (R2, W) ∧ R.Perm R2 ∧ (keysOf R).Nodup := by
  intro L
  induction L with
  | nil =>
    intro T T2 R W hp hnd h
    rw [run_pending_nil] at h
    injection h with h
    injection h with hA hB
    subst hA
    subst hB
    exact ⟨T2, rfl, hp, hnd⟩
  | cons w L ih =>
    intro T T2 R W hp hnd h
    have hnd2 : (keysOf T2).Nodup := ((hp.map _).nodup_iff).mp hnd
    have hget : ∀ x, assocGet T x = assocGet T2 x := assocGet_perm hp hnd
    have hpf : pfOf T2 = pfOf T := funext (fun x => pfOf_congr_of_get (hget x).symm)
    have hlen : T.length = T2.length := hp.length_eq
    cases hop : w.op.op with
    | create parent =>
      rw [run_pending_create hop] at h
      cases h1 : run_pending
          (assocInsert (assocEntryOr T parent none) w.op.id (some parent)) L with
      | none => rw [h1] at h; cases h
      | some r1 =>
        obtain ⟨R1, W1⟩ := r1
        rw [h1] at h
        injection h with h
        injection h with hA hB
        subst hA
        subst hB
        have hperm1 : (assocEntryOr T parent none).Perm (assocEntryOr T2 parent none) := by
          by_cases hc : parent ∈ T.map (fun kv => kv.1)
          · rw [assocGet_assocEntryOr_present none hc,
              assocGet_assocEntryOr_present none ((hp.map _).mem_iff.mp hc)]
            exact hp
          · rw [assocGet_assocEntryOr_absent none hc,
              assocGet_assocEntryOr_absent none (fun hm => hc ((hp.map _).mem_iff.mpr hm))]
            exact hp.append_right _
        have hnd1 : ((assocEntryOr T parent none).map (fun kv => kv.1)).Nodup :=
          assocEntryOr_keys_nodup hnd parent none
        have hperm2 : (assocInsert (assocEntryOr T parent none) w.op.id
            (some parent)).Perm
            (assocInsert (assocEntryOr T2 parent none) w.op.id (some parent)) :=
          assocInsert_perm hperm1 hnd1 _ _
        have hndT1 : (keysOf (assocInsert (assocEntryOr T parent none) w.op.id
            (some parent))).Nodup := assocInsert_keys_nodup hnd1 _ _
        obtain ⟨R2, h2, h3, h4⟩ := ih hperm2 hndT1 h1
        refine ⟨R2, ?_, h3, h4⟩
        rw [run_pending_create hop, h2]
        rfl
    | move target parent counter =>
      by_cases hcont : assocContains T target = true
      · have hcont2 : assocContains T2 target = true := by
          unfold assocContains at hcont ⊢
          rw [← hget]
          exact hcont
        cases hg : is_ancestor_of (pfOf T) (T.length + 2) target parent with
        | none =>
          rw [run_pending_move hop, if_neg (not_not_intro hcont), hg] at h
          cases h
        | some g =>
          have hg2 : is_ancestor_of (pfOf T2) (T2.length + 2) target parent = some g := by
            rw [hpf, ← hlen]
            exact hg
          rw [run_pending_move_go hop hcont hg] at h
          have hold : pfOf T2 target = pfOf T target := by rw [hpf]
          cases g with
          | true =>
            rw [if_pos rfl] at h
            cases h1 : run_pending T L with
            | none => rw [h1] at h; cases h
            | some r1 =>
              obtain ⟨R1, W1⟩ := r1
              rw [h1] at h
              injection h with h
              injection h with hA hB
              subst hA
              subst hB
              obtain ⟨R2, h2, h3, h4⟩ := ih hp hnd h1
              refine ⟨R2, ?_, h3, h4⟩
              rw [run_pending_move_go hop hcont2 hg2, if_pos rfl, h2, hold]
              rfl
          | false =>
            rw [if_neg (by simp)] at h
            cases h1 : run_pending (assocInsert T target (some parent)) L with
            | none => rw [h1] at h; cases h
            | some r1 =>
              obtain ⟨R1, W1⟩ := r1
              rw [h1] at h
              injection h with h
              injection h with hA hB
              subst hA
              subst hB
              have hpermi : (assocInsert T target (some parent)).Perm
                  (assocInsert T2 target (some parent)) := assocInsert_perm hp hnd _ _
              have hndi : (keysOf (assocInsert T target (some parent))).Nodup :=
                assocInsert_keys_nodup hnd _ _
              obtain ⟨R2, h2, h3, h4⟩ := ih hpermi hndi h1
              refine ⟨R2, ?_, h3, h4⟩
              rw [run_pending_move_go hop hcont2 hg2, if_neg (by simp), h2, hold]
              rfl
      · rw [run_pending_move hop, if_pos hcont] at h
        cases h

/-- One undo step of `revert_until`: restore a move target, skip a create. -/
def undoStep (tr : List (NodeID × Option NodeID)) (w : OpWrapper) :
    List (NodeID × Option NodeID) :=
  match w.op.op with
  | TreeOp.create _ => tr
  | TreeOp.move target _ _ => assocInsert tr target w.old_parent

theorem undoStep_create {tr : List (NodeID × Option NodeID)} {w : OpWrapper}
    {parent : NodeID} (hop : w.op.op = TreeOp.create parent) : undoStep tr w = tr := by
  unfold undoStep
  rw [hop]

theorem undoStep_move {tr : List (NodeID × Option NodeID)} {w : OpWrapper}
    {target parent : NodeID} {counter : Nat}
    (hop : w.op.op = TreeOp.move target parent counter) :
    undoStep tr w = assocInsert tr target w.old_parent := by
  unfold undoStep
  rw [hop]

/-- Undoing a successful replay from the top down restores the starting map
on every key except the replay's creates (which keep their create parent) and
the possibly freshly placed `ROOT` placeholder. -/
theorem run_pending_undo {ev : NodeID → Option NodeID} :
    ∀ (L : List OpWrapper) (T R : List (NodeID × Option NodeID)) (W : List OpWrapper)
      (avail E : List NodeID),
      StepsOK ev avail E L →
      (∀ x ∈ avail, x ∈ keysOf T) →
      run_pending T L = some (R, W) →
      (∀ x, x ∉ createIdsW L → x ≠ ROOT_ID →
        assocGet (W.reverse.foldl undoStep R) x = assocGet T x) ∧
      (∀ w2 ∈ L, ∀ p, w2.op.op = TreeOp.create p →
        assocGet (W.reverse.foldl undoStep R) w2.op.id = some (some p)) ∧
      (∀ x, x ∈ keysOf (W.reverse.foldl undoStep R) ↔ x ∈ keysOf R) ∧
      (assocGet (W.reverse.foldl undoStep R) ROOT_ID = assocGet R ROOT_ID) ∧
      ((keysOf R).Nodup → (keysOf (W.reverse.foldl undoStep R)).Nodup) := by
  intro L
  induction L with
  | nil =>
    intro T R W avail E hsteps hav h
    rw [run_pending_nil] at h
    injection h with h
    injection h with hA hB
    subst hA
    subst hB
    exact ⟨fun x _ _ => rfl, fun w2 hw2 => absurd hw2 (by simp), fun x => Iff.rfl, rfl,
      fun hh => hh⟩
  | cons w L ih =>
    intro T R W avail E hsteps hav h
    cases hsteps with
    | create _ parent hop hidR hfresh hpar hev hrest =>
      rw [run_pending_create hop] at h
      cases h1 : run_pending
          (assocInsert (assocEntryOr T parent none) w.op.id (some parent)) L with
      | none => rw [h1] at h; cases h
      | some r1 =>
        obtain ⟨R1, W1⟩ := r1
        rw [h1] at h
        injection h with h
        injection h with hA hB
        subst hA
        subst hB
        have hav2 : ∀ x ∈ avail ++ [w.op.id],
            x ∈ keysOf (assocInsert (assocEntryOr T parent none) w.op.id (some parent)) := by
          intro x hx
          rcases List.mem_append.mp hx with hh | hh
          · exact create_step_keys.mpr (Or.inl (hav _ hh))
          · simp only [List.mem_singleton] at hh
            subst hh
            exact create_step_keys.mpr (Or.inr (Or.inr rfl))
        obtain ⟨i1, i2, i3, i4, i5⟩ := ih _ _ _ _ _ hrest hav2 h1
        have hfold : (w :: W1).reverse.foldl undoStep R1 =
            W1.reverse.foldl undoStep R1 := by
          rw [List.reverse_cons, List.foldl_append]
          exact undoStep_create hop
        rw [hfold]
        have hidnotc : w.op.id ∉ createIdsW L :=
          stepsOK_avail_not_create hrest w.op.id (List.mem_append_right _ (by simp))
        refine ⟨?_, ?_, i3, i4, i5⟩
        · intro x hxc hxr
          rw [createIdsW_cons_create hop] at hxc
          have hxid : x ≠ w.op.id := fun hh => hxc (hh ▸ List.mem_cons_self _ _)
          have hxc2 : x ∉ createIdsW L := fun hh => hxc (List.mem_cons_of_mem _ hh)
          rw [i1 x hxc2 hxr]
          rw [assocGet_assocInsert_other hxid]
          by_cases hxp : x = parent
          · subst hxp
            rcases hpar with hh | hh
            · exact absurd hh hxr
            · rw [assocGet_assocEntryOr_present none (hav _ hh)]
          · rw [assocGet_assocEntryOr_other none hxp]
        · intro w2 hw2 p hw2op
          rcases List.mem_cons.mp hw2 with hh | hh
          · subst hh
            rw [hw2op] at hop
            injection hop with hpp
            subst hpp
            rw [i1 w2.op.id hidnotc hidR, assocGet_assocInsert_self]
          · exact i2 w2 hh p hw2op
    | move _ target parent counter hop ht htR hpar hrest =>
      have htk : target ∈ keysOf T := hav _ ht
      have hcont : assocContains T target = true := assocContains_iff.mpr htk
      have htnotc : target ∉ createIdsW L := stepsOK_avail_not_create hrest target ht
      obtain ⟨v, hv⟩ : ∃ v, assocGet T target = some v := by
        cases hg2 : assocGet T target with
        | none =>
          exfalso
          unfold keysOf at htk
          exact (assocGet_eq_none_iff.mp hg2) htk
        | some v => exact ⟨v, rfl⟩
      have hvold : pfOf T target = v := pfOf_eq_value hv
      cases hg : is_ancestor_of (pfOf T) (T.length + 2) target parent with
      | none =>
        rw [run_pending_move hop, if_neg (not_not_intro hcont), hg] at h
        cases h
      | some g =>
        rw [run_pending_move_go hop hcont hg] at h
        have hmain : ∀ (Tstep : List (NodeID × Option NodeID)) (R1 : _) (W1 : List OpWrapper),
            run_pending Tstep L = some (R1, W1) →
            (∀ x ∈ avail, x ∈ keysOf Tstep) →
            (∀ x, x ≠ target → assocGet Tstep x = assocGet T x) →
            target ∈ keysOf Tstep →
            (∀ x, x ∉ createIdsW (w :: L) → x ≠ ROOT_ID →
              assocGet ((⟨w.op, pfOf T target⟩ :: W1).reverse.foldl undoStep R1) x =
                assocGet T x) ∧
            (∀ w2 ∈ (w :: L), ∀ p, w2.op.op = TreeOp.create p →
              assocGet ((⟨w.op, pfOf T target⟩ :: W1).reverse.foldl undoStep R1) w2.op.id =
                some (some p)) ∧
            (∀ x, x ∈ keysOf ((⟨w.op, pfOf T target⟩ :: W1).reverse.foldl undoStep R1) ↔
              x ∈ keysOf R1) ∧
            (assocGet ((⟨w.op, pfOf T target⟩ :: W1).reverse.foldl undoStep R1) ROOT_ID =
              assocGet R1 ROOT_ID) ∧
            ((keysOf R1).Nodup →
              (keysOf ((⟨w.op, pfOf T target⟩ :: W1).reverse.foldl undoStep R1)).Nodup) := by
          intro Tstep R1 W1 h1 hav1 hagree1 htk1
          obtain ⟨i1, i2, i3, i4, i5⟩ := ih _ _ _ _ _ hrest hav1 h1
          have hfold : (⟨w.op, pfOf T target⟩ :: W1).reverse.foldl undoStep R1 =
              assocInsert (W1.reverse.foldl undoStep R1) target (pfOf T target) := by
            rw [List.reverse_cons, List.foldl_append]
            exact undoStep_move hop
          rw [hfold]
          have htkR : target ∈ keysOf R1 := run_pending_keys_mono _ _ _ _ h1 target htk1
          refine ⟨?_, ?_, ?_, ?_, ?_⟩
          · intro x hxc hxr
            rw [createIdsW_cons_move hop] at hxc
            by_cases hxt : x = target
            · subst hxt
              rw [assocGet_assocInsert_self, hvold, hv]
            · rw [assocGet_assocInsert_other hxt, i1 x hxc hxr, hagree1 x hxt]
          · intro w2 hw2 p hw2op
            rcases List.mem_cons.mp hw2 with hh | hh
            · subst hh
              rw [hw2op] at hop
              cases hop
            · have hw2id : w2.op.id ∈ createIdsW L := by
                unfold createIdsW
                apply List.mem_filterMap.mpr
                refine ⟨w2, hh, ?_⟩
                rw [hw2op]
              have : w2.op.id ≠ target := fun hc => htnotc (hc ▸ hw2id)
              rw [assocGet_assocInsert_other this]
              exact i2 w2 hh p hw2op
          · intro x
            unfold keysOf
            rw [assocInsert_mem_keys_iff]
            constructor
            · rintro (hh | hh)
              · exact (i3 x).mp hh
              · subst hh
                exact htkR
            · intro hh
              exact Or.inl ((i3 x).mpr hh)
          · rw [assocGet_assocInsert_other (Ne.symm htR)]
            exact i4
          · intro hh
            exact assocInsert_keys_nodup (i5 hh) _ _
        cases g with
        | true =>
          rw [if_pos rfl] at h
          cases h1 : run_pending T L with
          | none => rw [h1] at h; cases h
          | some r1 =>
            obtain ⟨R1, W1⟩ := r1
            rw [h1] at h
            injection h with h
            injection h with hA hB
            subst hA
            subst hB
            exact hmain T R1 W1 h1 hav (fun x _ => rfl) htk
        | false =>
          rw [if_neg (by simp)] at h
          cases h1 : run_pending (assocInsert T target (some parent)) L with
          | none => rw [h1] at h; cases h
          | some r1 =>
            obtain ⟨R1, W1⟩ := r1
            rw [h1] at h
            injection h with h
            injection h with hA hB
            subst hA
            subst hB
            apply hmain _ R1 W1 h1
            · intro x hx
              unfold keysOf
              rw [assocInsert_mem_keys_iff]
              exact Or.inl (hav _ hx)
            · intro x hxt
              exact assocGet_assocInsert_other hxt
            · unfold keysOf
              rw [assocInsert_mem_keys_iff]
              exact Or.inr rfl

theorem NodeID.cmp_lt_ne {a b : NodeID} (h : NodeID.cmp a b = Ordering.lt) : a ≠ b := by
  intro hc
  subst hc
  rw [NodeID.cmp_refl] at h
  cases h

theorem NodeID.cmp_lt_asymm {a b : NodeID} (h1 : NodeID.cmp a b = Ordering.lt)
    (h2 : NodeID.cmp b a = Ordering.lt) : False := by
  rw [NodeID.cmp_lt_char] at h1 h2
  omega

/-- Positional honesty of an id-sorted op list, replayed over `avail`,
resolves into stepwise well-formedness. -/
theorem stepsOK_of_sorted (ev : NodeID → Option NodeID) :
    ∀ (L : List Op) (avail E : List NodeID),
      List.Pairwise (fun a b => NodeID.cmp a.id b.id = Ordering.lt) L →
      (∀ o ∈ L, o.id ≠ ROOT_ID) →
      (∀ o ∈ L, o.id ∉ avail) →
      (∀ o ∈ L, ∀ parent, o.op = TreeOp.create parent →
        parent = ROOT_ID ∨ parent ∈ avail ∨
          (∃ o2 ∈ L, (∃ p2, o2.op = TreeOp.create p2) ∧ o2.id = parent ∧
            NodeID.cmp o2.id o.id = Ordering.lt)) →
      (∀ o ∈ L, ∀ target parent counter, o.op = TreeOp.move target parent counter →
        target ≠ ROOT_ID ∧
        (target ∈ avail ∨ (∃ o2 ∈ L, (∃ p2, o2.op = TreeOp.create p2) ∧ o2.id = target ∧
          NodeID.cmp o2.id o.id = Ordering.lt)) ∧
        (parent = ROOT_ID ∨ parent ∈ avail ∨
          (∃ o2 ∈ L, (∃ p2, o2.op = TreeOp.create p2) ∧ o2.id = parent ∧
            NodeID.cmp o2.id o.id = Ordering.lt))) →
      (∀ x ∈ E, (x = ROOT_ID ∧ ∃ o ∈ L, o.op = TreeOp.create ROOT_ID) ∨
        (∃ o ∈ L, ∃ p, o.op = TreeOp.create p ∧ o.id = x ∧ ev x = some p)) →
      StepsOK ev avail E (L.map (fun o => ⟨o, none⟩)) := by
  intro L
  induction L with
  | nil =>
    intro avail E hpw hids hfresh hcref hmref hres
    have hE : E = [] := by
      cases E with
      | nil => rfl
      | cons x xs =>
        exfalso
        rcases hres x (List.mem_cons_self _ _) with ⟨_, o, ho, _⟩ | ⟨o, ho, _⟩
        · simp at ho
        · simp at ho
    subst hE
    exact StepsOK.nil avail
  | cons o L ih =>
    intro avail E hpw hids hfresh hcref hmref hres
    have hpwh : ∀ o2 ∈ L, NodeID.cmp o.id o2.id = Ordering.lt :=
      fun o2 h2 => (List.pairwise_cons.mp hpw).1 o2 h2
    have hpwt := (List.pairwise_cons.mp hpw).2
    have hnothead : ∀ {o2 : Op}, o2 ∈ o :: L → NodeID.cmp o2.id o.id = Ordering.lt →
        o2 ∈ L := by
      intro o2 h2 hlt
      rcases List.mem_cons.mp h2 with hh | hh
      · exfalso
        subst hh
        exact NodeID.cmp_lt_ne hlt rfl
      · exact hh
    have hnotheadL : ∀ {o2 : Op}, o2 ∈ L → NodeID.cmp o2.id o.id = Ordering.lt → False := by
      intro o2 h2 hlt
      exact NodeID.cmp_lt_asymm hlt (hpwh o2 h2)
    have hnowit : ∀ {p : NodeID},
        (∃ o2 ∈ o :: L, (∃ p2, o2.op = TreeOp.create p2) ∧ o2.id = p ∧
          NodeID.cmp o2.id o.id = Ordering.lt) → False := by
      rintro p ⟨o2, ho2, _, _, hlt⟩
      exact hnotheadL (hnothead ho2 hlt) hlt
    rw [List.map_cons]
    cases hop : o.op with
    | create parent =>
      have hparh : parent = ROOT_ID ∨ parent ∈ avail := by
        rcases hcref o (List.mem_cons_self _ _) parent hop with hh | hh | hh
        · exact Or.inl hh
        · exact Or.inr hh
        · exact absurd hh hnowit
      refine StepsOK.create _ parent hop (hids o (List.mem_cons_self _ _))
        (hfresh o (List.mem_cons_self _ _)) hparh ?_ ?_
      · intro hmem
        rcases hres o.id hmem with ⟨hroot, _⟩ | ⟨o2, ho2, p2, hop2, hid2, hev2⟩
        · exact absurd hroot (hids o (List.mem_cons_self _ _))
        · have ho2h : o2 = o := by
            rcases List.mem_cons.mp ho2 with hh | hh
            · exact hh
            · exfalso
              exact NodeID.cmp_lt_ne (hpwh o2 hh) hid2.symm
          subst ho2h
          rw [hop] at hop2
          injection hop2 with hpp
          subst hpp
          exact hev2
      · apply ih
        · exact hpwt
        · exact fun o2 h2 => hids o2 (List.mem_cons_of_mem _ h2)
        · intro o2 h2
          intro hmem
          rcases List.mem_append.mp hmem with hh | hh
          · exact hfresh o2 (List.mem_cons_of_mem _ h2) hh
          · simp only [List.mem_singleton] at hh
            exact NodeID.cmp_lt_ne (hpwh o2 h2) hh.symm
        · intro o2 h2 parent2 hop2
          rcases hcref o2 (List.mem_cons_of_mem _ h2) parent2 hop2 with hh | hh | hh
          · exact Or.inl hh
          · exact Or.inr (Or.inl (List.mem_append_left _ hh))
          · obtain ⟨o3, ho3, hcr3, hid3, hlt3⟩ := hh
            rcases List.mem_cons.mp ho3 with hh3 | hh3
            · subst hh3
              exact Or.inr (Or.inl (List.mem_append_right _ (by simp [hid3])))
            · exact Or.inr (Or.inr ⟨o3, hh3, hcr3, hid3, hlt3⟩)
        · intro o2 h2 target2 parent2 counter2 hop2
          obtain ⟨htR2, htg2, hpar2⟩ := hmref o2 (List.mem_cons_of_mem _ h2) _ _ _ hop2
          refine ⟨htR2, ?_, ?_⟩
          · rcases htg2 with hh | hh
            · exact Or.inl (List.mem_append_left _ hh)
            · obtain ⟨o3, ho3, hcr3, hid3, hlt3⟩ := hh
              rcases List.mem_cons.mp ho3 with hh3 | hh3
              · subst hh3
                exact Or.inl (List.mem_append_right _ (by simp [hid3]))
              · exact Or.inr ⟨o3, hh3, hcr3, hid3, hlt3⟩
          · rcases hpar2 with hh | hh | hh
            · exact Or.inl hh
            · exact Or.inr (Or.inl (List.mem_append_left _ hh))
            · obtain ⟨o3, ho3, hcr3, hid3, hlt3⟩ := hh
              rcases List.mem_cons.mp ho3 with hh3 | hh3
              · subst hh3
                exact Or.inr (Or.inl (List.mem_append_right _ (by simp [hid3])))
              · exact Or.inr (Or.inr ⟨o3, hh3, hcr3, hid3, hlt3⟩)
        · intro x hx
          have hx2 : x ∈ E ∧ x ≠ o.id ∧ (parent = ROOT_ID → x ≠ ROOT_ID) := by
            by_cases hp : parent = ROOT_ID
            · rw [if_pos hp] at hx
              obtain ⟨h1, h2⟩ := mem_removeId.mp hx
              obtain ⟨h3, h4⟩ := mem_removeId.mp h1
              exact ⟨h3, h4, fun _ => h2⟩
            · rw [if_neg hp] at hx
              obtain ⟨h1, h2⟩ := mem_removeId.mp hx
              exact ⟨h1, h2, fun hh => absurd hh hp⟩
          obtain ⟨hxE, hxid, hxr⟩ := hx2
          rcases hres x hxE with ⟨hroot, o4, ho4, hop4⟩ | ⟨o2, ho2, p2, hop2, hid2, hev2⟩
          · rcases List.mem_cons.mp ho4 with hh | hh
            · exfalso
              subst hh
              rw [hop] at hop4
              injection hop4 with hpp
              exact hxr hpp hroot
            · exact Or.inl ⟨hroot, o4, hh, hop4⟩
          · rcases List.mem_cons.mp ho2 with hh | hh
            · exfalso
              subst hh
              exact hxid hid2.symm
            · exact Or.inr ⟨o2, hh, p2, hop2, hid2, hev2⟩
    | move target parent counter =>
      obtain ⟨htR, htg, hpar⟩ := hmref o (List.mem_cons_self _ _) _ _ _ hop
      have htgh : target ∈ avail := by
        rcases htg with hh | hh
        · exact hh
        · exact absurd hh hnowit
      have hparh : parent = ROOT_ID ∨ parent ∈ avail := by
        rcases hpar with hh | hh | hh
        · exact Or.inl hh
        · exact Or.inr hh
        · exact absurd hh hnowit
      refine StepsOK.move _ target parent counter hop htgh htR hparh ?_
      apply ih
      · exact hpwt
      · exact fun o2 h2 => hids o2 (List.mem_cons_of_mem _ h2)
      · exact fun o2 h2 => hfresh o2 (List.mem_cons_of_mem _ h2)
      · intro o2 h2 parent2 hop2
        rcases hcref o2 (List.mem_cons_of_mem _ h2) parent2 hop2 with hh | hh | hh
        · exact Or.inl hh
        · exact Or.inr (Or.inl hh)
        · obtain ⟨o3, ho3, hcr3, hid3, hlt3⟩ := hh
          rcases List.mem_cons.mp ho3 with hh3 | hh3
          · exfalso
            subst hh3
            obtain ⟨p3, hp3⟩ := hcr3
            rw [hop] at hp3
            cases hp3
          · exact Or.inr (Or.inr ⟨o3, hh3, hcr3, hid3, hlt3⟩)
      · intro o2 h2 target2 parent2 counter2 hop2
        obtain ⟨htR2, htg2, hpar2⟩ := hmref o2 (List.mem_cons_of_mem _ h2) _ _ _ hop2
        refine ⟨htR2, ?_, ?_⟩
        · rcases htg2 with hh | hh
          · exact Or.inl hh
          · obtain ⟨o3, ho3, hcr3, hid3, hlt3⟩ := hh
            rcases List.mem_cons.mp ho3 with hh3 | hh3
            · exfalso
              subst hh3
              obtain ⟨p3, hp3⟩ := hcr3
              rw [hop] at hp3
              cases hp3
            · exact Or.inr ⟨o3, hh3, hcr3, hid3, hlt3⟩
        · rcases hpar2 with hh | hh | hh
          · exact Or.inl hh
          · exact Or.inr (Or.inl hh)
          · obtain ⟨o3, ho3, hcr3, hid3, hlt3⟩ := hh
            rcases List.mem_cons.mp ho3 with hh3 | hh3
            · exfalso
              subst hh3
              obtain ⟨p3, hp3⟩ := hcr3
              rw [hop] at hp3
              cases hp3
            · exact Or.inr (Or.inr ⟨o3, hh3, hcr3, hid3, hlt3⟩)
      · intro x hx
        rcases hres x hx with ⟨hroot, o4, ho4, hop4⟩ | ⟨o2, ho2, p2, hop2, hid2, hev2⟩
        · rcases List.mem_cons.mp ho4 with hh | hh
          · exfalso
            subst hh
            rw [hop] at hop4
            cases hop4
          · exact Or.inl ⟨hroot, o4, hh, hop4⟩
        · rcases List.mem_cons.mp ho2 with hh | hh
          · exfalso
            subst hh
            rw [hop] at hop2
            cases hop2
          · exact Or.inr ⟨o2, hh, p2, hop2, hid2, hev2⟩

theorem NodeID.le_trans {a b c : NodeID} (h1 : NodeID.cmp a b ≠ Ordering.gt)
    (h2 : NodeID.cmp b c ≠ Ordering.gt) : NodeID.cmp a c ≠ Ordering.gt := by
  intro hc
  rw [NodeID.cmp_gt_char] at hc
  have hg1 : ¬ (b.lamport < a.lamport ∨ (a.lamport = b.lamport ∧ b.peer < a.peer)) := by
    intro hh
    exact h1 (NodeID.cmp_gt_char.mpr hh)
  have hg2 : ¬ (c.lamport < b.lamport ∨ (b.lamport = c.lamport ∧ c.peer < b.peer)) := by
    intro hh
    exact h2 (NodeID.cmp_gt_char.mpr hh)
  push_neg at hg1 hg2
  omega

instance : IsTotal Op (fun a b => NodeID.cmp a.id b.id ≠ Ordering.gt) := by
  constructor
  intro a b
  cases h : NodeID.cmp a.id b.id with
  | lt => exact Or.inl (by simp [h])
  | eq => exact Or.inl (by simp [h])
  | gt =>
    right
    intro hc
    have hs := NodeID.cmp_swap a.id b.id
    rw [h] at hs
    rw [hc] at hs
    cases hs

instance : IsTrans Op (fun a b => NodeID.cmp a.id b.id ≠ Ordering.gt) := by
  constructor
  intro a b c h1 h2
  exact NodeID.le_trans h1 h2

theorem sortOps_perm (l : List Op) : (sortOps l).Perm l :=
  List.perm_insertionSort _ _

theorem sortOps_sorted (l : List Op) :
    List.Pairwise (fun a b => NodeID.cmp a.id b.id ≠ Ordering.gt) (sortOps l) :=
  List.sorted_insertionSort _ _

theorem pairwise_lt_of_sorted_nodup {l : List Op}
    (hs : List.Pairwise (fun a b => NodeID.cmp a.id b.id ≠ Ordering.gt) l)
    (hnd : (l.map (fun o => o.id)).Nodup) :
    List.Pairwise (fun a b => NodeID.cmp a.id b.id = Ordering.lt) l := by
  have hne : List.Pairwise (fun a b : Op => a.id ≠ b.id) l := by
    have h2 : (l.map (fun o => o.id)).Pairwise (fun a b => a ≠ b) := hnd
    exact List.pairwise_map.mp h2
  have hand := hs.and hne
  apply hand.imp
  intro a b hab
  obtain ⟨h1, h2⟩ := hab
  cases h : NodeID.cmp a.id b.id with
  | lt => rfl
  | eq => exact absurd (NodeID.cmp_eq_char.mp h) h2
  | gt => exact absurd h h1

theorem take_length_takeWhile {α : Type} (p : α → Bool) :
    ∀ (l : List α), l.take (l.takeWhile p).length = l.takeWhile p := by
  intro l
  induction l with
  | nil => rfl
  | cons a l ih =>
    by_cases h : p a
    · simp [List.takeWhile_cons, h, ih]
    · simp [List.takeWhile_cons, h]

theorem drop_length_takeWhile {α : Type} (p : α → Bool) :
    ∀ (l : List α), l.drop (l.takeWhile p).length = l.dropWhile p := by
  intro l
  induction l with
  | nil => rfl
  | cons a l ih =>
    by_cases h : p a
    · simp [List.takeWhile_cons, List.dropWhile_cons, h, ih]
    · simp [List.takeWhile_cons, List.dropWhile_cons, h]

theorem dropWhile_not_lt {start : NodeID} :
    ∀ (l : List OpWrapper),
      List.Pairwise (fun a b => NodeID.cmp a.op.id b.op.id = Ordering.lt) l →
      ∀ w ∈ l.dropWhile (fun w2 => NodeID.cmp w2.op.id start = Ordering.lt),
        NodeID.cmp w.op.id start ≠ Ordering.lt := by
  intro l
  induction l with
  | nil => intro _ w hw; simp at hw
  | cons a l ih =>
    intro hpw w hw
    by_cases h : NodeID.cmp a.op.id start = Ordering.lt
    · rw [List.dropWhile_cons] at hw
      simp only [h] at hw
      rw [if_pos (by simp)] at hw
      exact ih (List.pairwise_cons.mp hpw).2 w hw
    · rw [List.dropWhile_cons] at hw
      rw [if_neg (by simpa using h)] at hw
      rcases List.mem_cons.mp hw with hh | hh
      · subst hh
        exact h
      · intro hc
        exact h (NodeID.cmp_lt_trans ((List.pairwise_cons.mp hpw).1 w hh) hc)

theorem opsMin_spec :
    ∀ (rest : List Op) (best : Op),
      (opsMin best rest ∈ best :: rest) ∧
      (∀ o ∈ best :: rest, NodeID.cmp (opsMin best rest).id o.id ≠ Ordering.gt) := by
  intro rest
  induction rest with
  | nil =>
    intro best
    refine ⟨List.mem_cons_self _ _, ?_⟩
    intro o ho
    rcases List.mem_cons.mp ho with hh | hh
    · subst hh
      simp [NodeID.cmp_refl, opsMin]
    · simp at hh
  | cons o2 rest ih =>
    intro best
    have hstep : opsMin best (o2 :: rest) =
        opsMin (if NodeID.cmp o2.id best.id = Ordering.lt then o2 else best) rest := rfl
    obtain ⟨hmem, hmin⟩ := ih (if NodeID.cmp o2.id best.id = Ordering.lt then o2 else best)
    have hb2le : ∀ z ∈ [best, o2],
        NodeID.cmp (if NodeID.cmp o2.id best.id = Ordering.lt then o2 else best).id z.id ≠
          Ordering.gt := by
      intro z hz
      by_cases hc : NodeID.cmp o2.id best.id = Ordering.lt
      · rw [if_pos hc]
        rcases List.mem_cons.mp hz with hh | hh
        · subst hh
          simp [hc]
        · simp only [List.mem_singleton] at hh
          subst hh
          simp [NodeID.cmp_refl]
      · rw [if_neg hc]
        rcases List.mem_cons.mp hz with hh | hh
        · subst hh
          simp [NodeID.cmp_refl]
        · simp only [List.mem_singleton] at hh
          rw [hh]
          intro hgt
          have hs := NodeID.cmp_swap best.id o2.id
          rw [hgt] at hs
          exact hc hs.symm
    constructor
    · rw [hstep]
      by_cases hc : NodeID.cmp o2.id best.id = Ordering.lt
      · rw [if_pos hc] at hmem ⊢
        rcases List.mem_cons.mp hmem with hh | hh
        · rw [hh]
          exact List.mem_cons_of_mem _ (List.mem_cons_self _ _)
        · exact List.mem_cons_of_mem _ (List.mem_cons_of_mem _ hh)
      · rw [if_neg hc] at hmem ⊢
        rcases List.mem_cons.mp hmem with hh | hh
        · rw [hh]
          exact List.mem_cons_self _ _
        · exact List.mem_cons_of_mem _ (List.mem_cons_of_mem _ hh)
    · intro o ho
      rw [hstep]
      rcases List.mem_cons.mp ho with hh | hh
      · subst hh
        exact NodeID.le_trans
          (hmin _ (List.mem_cons_self _ _)) (hb2le o (List.mem_cons_self _ _))
      · rcases List.mem_cons.mp hh with hh2 | hh2
        · subst hh2
          exact NodeID.le_trans (hmin _ (List.mem_cons_self _ _))
            (hb2le o (List.mem_cons_of_mem _ (List.mem_cons_self _ _)))
        · exact hmin o (List.mem_cons_of_mem _ hh2)

theorem exists_min_create :
    ∀ (l : List Op), (∃ o ∈ l, ∃ p, o.op = TreeOp.create p) →
      ∃ c ∈ l, (∃ p, c.op = TreeOp.create p) ∧
        ∀ c2 ∈ l, (∃ p2, c2.op = TreeOp.create p2) →
          NodeID.cmp c2.id c.id ≠ Ordering.lt := by
  intro l
  induction l with
  | nil => rintro ⟨o, ho, _⟩; simp at ho
  | cons a l ih =>
    rintro ⟨o, ho, hcr⟩
    by_cases hl : ∃ o2 ∈ l, ∃ p, o2.op = TreeOp.create p
    · obtain ⟨c, hc, hccr, hcmin⟩ := ih hl
      by_cases ha : (∃ p, a.op = TreeOp.create p) ∧ NodeID.cmp a.id c.id = Ordering.lt
      · refine ⟨a, List.mem_cons_self _ _, ha.1, ?_⟩
        intro c2 hc2 hc2cr
        rcases List.mem_cons.mp hc2 with hh | hh
        · subst hh
          simp [NodeID.cmp_refl]
        · intro hlt
          exact hcmin c2 hh hc2cr (NodeID.cmp_lt_trans hlt ha.2)
      · refine ⟨c, List.mem_cons_of_mem _ hc, hccr, ?_⟩
        intro c2 hc2 hc2cr
        rcases List.mem_cons.mp hc2 with hh | hh
        · subst hh
          intro hlt
          exact ha ⟨hc2cr, hlt⟩
        · exact hcmin c2 hh hc2cr
    · have hao : o = a := by
        rcases List.mem_cons.mp ho with hh | hh
        · exact hh
        · exact absurd ⟨o, hh, hcr⟩ hl
      subst hao
      refine ⟨o, List.mem_cons_self _ _, hcr, ?_⟩
      intro c2 hc2 hc2cr
      rcases List.mem_cons.mp hc2 with hh | hh
      · subst hh
        simp [NodeID.cmp_refl]
      · exact absurd ⟨c2, hh, hc2cr⟩ hl

/-- Causal honesty of a set of ops: duplicate-free non-`ROOT` ids, and every
reference (create parent, move target, move parent) is `ROOT` or a strictly
earlier create in the same set. -/
def HonestOps (U : List Op) : Prop :=
  (U.map (fun o => o.id)).Nodup ∧
  ∀ o ∈ U, o.id ≠ ROOT_ID ∧
    (∀ parent, o.op = TreeOp.create parent →
      (parent = ROOT_ID ∨ ∃ o2 ∈ U, (∃ p2, o2.op = TreeOp.create p2) ∧ o2.id = parent ∧
        NodeID.cmp o2.id o.id = Ordering.lt)) ∧
    (∀ target parent counter, o.op = TreeOp.move target parent counter →
      target ≠ ROOT_ID ∧
      (∃ o2 ∈ U, (∃ p2, o2.op = TreeOp.create p2) ∧ o2.id = target ∧
        NodeID.cmp o2.id o.id = Ordering.lt) ∧
      (parent = ROOT_ID ∨ ∃ o2 ∈ U, (∃ p2, o2.op = TreeOp.create p2) ∧ o2.id = parent ∧
        NodeID.cmp o2.id o.id = Ordering.lt))

theorem HonestOps_perm {U U2 : List Op} (hp : U.Perm U2) (h : HonestOps U) :
    HonestOps U2 := by
  obtain ⟨hnd, hall⟩ := h
  refine ⟨((hp.map _).nodup_iff).mp hnd, ?_⟩
  intro o ho
  obtain ⟨h1, h2, h3⟩ := hall o (hp.mem_iff.mpr ho)
  refine ⟨h1, ?_, ?_⟩
  · intro parent hop
    rcases h2 parent hop with hh | ⟨o2, ho2, hcr, hid, hlt⟩
    · exact Or.inl hh
    · exact Or.inr ⟨o2, hp.mem_iff.mp ho2, hcr, hid, hlt⟩
  · intro target parent counter hop
    obtain ⟨hh1, ⟨o2, ho2, hcr, hid, hlt⟩, hh3⟩ := h3 target parent counter hop
    refine ⟨hh1, ⟨o2, hp.mem_iff.mp ho2, hcr, hid, hlt⟩, ?_⟩
    rcases hh3 with hh | ⟨o3, ho3, hcr3, hid3, hlt3⟩
    · exact Or.inl hh
    · exact Or.inr ⟨o3, hp.mem_iff.mp ho3, hcr3, hid3, hlt3⟩

theorem TreeRootedNE_perm {T T2 : List (NodeID × Option NodeID)} (hp : T.Perm T2)
    (h : TreeRootedNE T) : TreeRootedNE T2 := by
  obtain ⟨hnd, hroot, hr⟩ := h
  have hnd2 : (keysOf T2).Nodup := ((hp.map _).nodup_iff).mp hnd
  have hget : ∀ x, assocGet T x = assocGet T2 x := assocGet_perm hp hnd
  have hpf : ∀ x, pfOf T2 x = pfOf T x := fun x => pfOf_congr_of_get (hget x).symm
  refine ⟨hnd2, hp.mem_iff.mp hroot, ?_⟩
  intro x hx
  have hx1 : x ∈ keysOf T := by
    unfold keysOf at hx ⊢
    exact ((hp.map _).mem_iff).mpr hx
  exact RootedF_transfer (fun y _ => hpf y) (hr x hx1)

theorem createIdsW_append (L1 L2 : List OpWrapper) :
    createIdsW (L1 ++ L2) = createIdsW L1 ++ createIdsW L2 := by
  unfold createIdsW
  rw [List.filterMap_append]

theorem createIdsW_mem_iff {L : List OpWrapper} {x : NodeID} :
    x ∈ createIdsW L ↔ ∃ w ∈ L, ∃ p, w.op.op = TreeOp.create p ∧ w.op.id = x := by
  unfold createIdsW
  rw [List.mem_filterMap]
  constructor
  · rintro ⟨w, hw, hf⟩
    cases hop : w.op.op with
    | create p =>
      rw [hop] at hf
      injection hf with hf
      exact ⟨w, hw, p, hop, hf⟩
    | move t p c =>
      rw [hop] at hf
      cases hf
  · rintro ⟨w, hw, p, hop, hid⟩
    refine ⟨w, hw, ?_⟩
    rw [hop, hid]

theorem createIdsW_map_op_congr :
    ∀ {L1 L2 : List OpWrapper}, L1.map (fun w => w.op) = L2.map (fun w => w.op) →
      createIdsW L1 = createIdsW L2 := by
  intro L1
  induction L1 with
  | nil =>
    intro L2 h
    cases L2 with
    | nil => rfl
    | cons b l2 => cases h
  | cons a l1 ih =>
    intro L2 h
    cases L2 with
    | nil => cases h
    | cons b l2 =>
      simp only [List.map_cons] at h
      injection h with h1 h2
      unfold createIdsW
      rw [List.filterMap_cons, List.filterMap_cons]
      have hfa : (match a.op.op with
          | TreeOp.create _ => some a.op.id
          | TreeOp.move _ _ _ => none) =
          (match b.op.op with
          | TreeOp.create _ => some b.op.id
          | TreeOp.move _ _ _ => none) := by
        rw [h1]
      rw [hfa]
      have htail := ih h2
      unfold createIdsW at htail
      cases hm : (match b.op.op with
          | TreeOp.create _ => some b.op.id
          | TreeOp.move _ _ _ => none) with
      | none => exact htail
      | some v => rw [htail]

theorem undo_fold_perm :
    ∀ (ws : List OpWrapper) {T T2 : List (NodeID × Option NodeID)},
      T.Perm T2 → (keysOf T).Nodup →
      (ws.foldl undoStep T).Perm (ws.foldl undoStep T2) ∧
        (keysOf (ws.foldl undoStep T)).Nodup := by
  intro ws
  induction ws with
  | nil => intro T T2 hp hnd; exact ⟨hp, hnd⟩
  | cons w ws ih =>
    intro T T2 hp hnd
    rw [List.foldl_cons, List.foldl_cons]
    cases hop : w.op.op with
    | create p =>
      rw [undoStep_create hop, undoStep_create hop]
      exact ih hp hnd
    | move target p c =>
      rw [undoStep_move hop, undoStep_move hop]
      exact ih (assocInsert_perm hp hnd _ _) (assocInsert_keys_nodup hnd _ _)

/-- The Algorithm-M state invariant: the applied window covers the whole
sorted log, the log is strictly id-sorted and causally honest, the tree map
is rooted (or still empty), its keys are exactly `ROOT` plus the created
ids, and replaying the log from scratch reproduces the log and (up to entry
order) the tree. -/
def MInv (t : MartinTree) : Prop :=
  t.applied_end = t.sorted_ops.length ∧
  List.Pairwise (fun a b => NodeID.cmp a.op.id b.op.id = Ordering.lt) t.sorted_ops ∧
  HonestOps (t.sorted_ops.map (fun w => w.op)) ∧
  MTreeOK t.tree ∧
  (keysOf t.tree).Nodup ∧
  (∀ x, x ∈ keysOf t.tree ↔
    (x = ROOT_ID ∧ createIdsW t.sorted_ops ≠ []) ∨ x ∈ createIdsW t.sorted_ops) ∧
  ∃ TM, run_pending [] t.sorted_ops = some (TM, t.sorted_ops) ∧ t.tree.Perm TM

theorem MInv_new : MInv MartinTree.new := by
  refine ⟨rfl, List.Pairwise.nil, ⟨List.nodup_nil, by
    intro a ha
    simp [MartinTree.new] at ha⟩, Or.inl rfl, List.nodup_nil,
    ?_, [], rfl, List.Perm.refl _⟩
  intro x
  simp [keysOf, createIdsW, MartinTree.new]

theorem get_parent_eq_pfOf (t : MartinTree) : MartinTree.get_parent t = pfOf t.tree := rfl

theorem martin_apply_create_eq (t : MartinTree) {op : Op} {parent : NodeID}
    (hop : op.op = TreeOp.create parent) :
    MartinTree.apply t op = some
      ({ tree := assocInsert (assocEntryOr t.tree parent none) op.id (some parent),
         sorted_ops := t.sorted_ops ++ [(⟨op, none⟩ : OpWrapper)],
         applied_end := (t.sorted_ops ++ [(⟨op, none⟩ : OpWrapper)]).length }, [op]) := by
  conv_lhs => unfold MartinTree.apply
  rw [hop]

theorem martin_apply_move_eq (t : MartinTree) {op : Op} {target parent : NodeID}
    {counter : Nat} (hop : op.op = TreeOp.move target parent counter) :
    MartinTree.apply t op = ((MartinTree.mov t target parent).map (fun t1 =>
      ({ tree := t1.tree,
         sorted_ops := t1.sorted_ops ++ [(⟨op, pfOf t.tree target⟩ : OpWrapper)],
         applied_end :=
           (t1.sorted_ops ++ [(⟨op, pfOf t.tree target⟩ : OpWrapper)]).length }, [op]))) := by
  conv_lhs => unfold MartinTree.apply
  rw [hop]
  rfl

theorem martin_mov_eq (t : MartinTree) (target parent : NodeID)
    (hc : assocContains t.tree target = true)
    {g : Bool} (hg : is_ancestor_of (pfOf t.tree) (t.tree.length + 2) target parent = some g) :
    MartinTree.mov t target parent =
      if g then some t
      else some { t with tree := assocInsert t.tree target (some parent) } := by
  unfold MartinTree.mov
  rw [if_neg (not_not_intro hc), get_parent_eq_pfOf, hg]
  cases g
  · rfl
  · rfl

/-- On a rooted map, the ancestor guard always answers. -/
theorem guard_total {T : List (NodeID × Option NodeID)} (hT : TreeRootedNE T)
    {parent : NodeID} (hpar : parent = ROOT_ID ∨ parent ∈ keysOf T) (target : NodeID) :
    ∃ g, is_ancestor_of (pfOf T) (T.length + 2) target parent = some g := by
  have hR : pfOf T ROOT_ID = none := pfOf_of_mem_none hT.1 hT.2.1
  have hrooted : RootedF (pfOf T) [] parent := by
    rcases hpar with hp | hp
    · subst hp
      exact RootedF.root (by simp)
    · exact hT.2.2 parent hp
  obtain ⟨l, hchain, hlnd, hllen⟩ := rooted_short_chain hT.1 hrooted
  exact ⟨decide (target ∈ l ∨ target = ROOT_ID),
    walk_eval hR l hchain (T.length + 2) (by omega) target⟩

theorem create_step_perm {T T2 : List (NodeID × Option NodeID)} (hp : T.Perm T2)
    (hnd : (keysOf T).Nodup) (id parent : NodeID) :
    (assocInsert (assocEntryOr T parent none) id (some parent)).Perm
      (assocInsert (assocEntryOr T2 parent none) id (some parent)) := by
  have hperm1 : (assocEntryOr T parent none).Perm (assocEntryOr T2 parent none) := by
    by_cases hc : parent ∈ T.map (fun kv => kv.1)
    · rw [assocGet_assocEntryOr_present none hc,
        assocGet_assocEntryOr_present none ((hp.map _).mem_iff.mp hc)]
      exact hp
    · rw [assocGet_assocEntryOr_absent none hc,
        assocGet_assocEntryOr_absent none (fun hm => hc ((hp.map _).mem_iff.mpr hm))]
      exact hp.append_right _
  exact assocInsert_perm hperm1 (assocEntryOr_keys_nodup hnd parent none) _ _

/-- Applying an honest local create preserves the Algorithm-M invariant and
always succeeds, logging exactly the op. -/
theorem martin_apply_create {t : MartinTree} (hinv : MInv t) {id parent : NodeID}
    (hidR : id ≠ ROOT_ID)
    (hidfresh : ∀ w ∈ t.sorted_ops, NodeID.cmp w.op.id id = Ordering.lt)
    (hpar : parent = ROOT_ID ∨ parent ∈ keysOf t.tree) :
    ∃ t2, MartinTree.apply t ⟨id, TreeOp.create parent⟩ =
        some (t2, [⟨id, TreeOp.create parent⟩]) ∧
      MInv t2 ∧
      t2.sorted_ops = t.sorted_ops ++ [⟨⟨id, TreeOp.create parent⟩, none⟩] ∧
      t2.tree = assocInsert (assocEntryOr t.tree parent none) id (some parent) := by
  obtain ⟨hend, hpw, hhon, hok, hnd, hkeys, TM, hrun, hperm⟩ := hinv
  have hfreshkeys : id ∉ keysOf t.tree := by
    intro hmem
    rcases (hkeys id).mp hmem with ⟨hh, _⟩ | hh
    · exact hidR hh
    · obtain ⟨w, hw, p, hwop, hwid⟩ := createIdsW_mem_iff.mp hh
      have := hidfresh w hw
      rw [hwid] at this
      exact NodeID.cmp_lt_ne this rfl
  have hrooted2 : TreeRootedNE (assocInsert (assocEntryOr t.tree parent none) id
      (some parent)) := create_step_rooted hok hidR hfreshkeys hpar
  refine ⟨_, martin_apply_create_eq t rfl, ?_, rfl, rfl⟩
  refine ⟨rfl, ?_, ?_, Or.inr hrooted2, ?_, ?_, ?_⟩
  · rw [List.pairwise_append]
    refine ⟨hpw, List.pairwise_singleton _ _, ?_⟩
    intro a ha b hb
    simp only [List.mem_singleton] at hb
    subst hb
    exact hidfresh a ha
  · obtain ⟨hndU, hallU⟩ := hhon
    constructor
    · simp only [List.map_append, List.map_cons, List.map_nil]
      rw [List.nodup_append]
      refine ⟨hndU, List.nodup_singleton _, ?_⟩
      intro x hx
      simp only [List.mem_singleton]
      simp only [List.mem_map] at hx
      obtain ⟨o2, ho2, hid2⟩ := hx
      obtain ⟨w2, hw2, hw2o⟩ := ho2
      intro hc
      subst hc
      rw [← hw2o] at hid2
      exact NodeID.cmp_lt_ne (hidfresh w2 hw2) hid2
    · intro o ho
      simp only [List.map_append, List.map_cons, List.map_nil, List.mem_append,
        List.mem_singleton] at ho
      rcases ho with ho | ho
      · obtain ⟨h1, h2, h3⟩ := hallU o ho
        refine ⟨h1, ?_, ?_⟩
        · intro parent2 hop2
          rcases h2 parent2 hop2 with hh | ⟨o2, ho2, hcr, hid2, hlt⟩
          · exact Or.inl hh
          · exact Or.inr ⟨o2, by
              simp only [List.map_append, List.mem_append]
              exact Or.inl ho2, hcr, hid2, hlt⟩
        · intro target2 parent2 counter2 hop2
          obtain ⟨hh1, ⟨o2, ho2, hcr, hid2, hlt⟩, hh3⟩ := h3 target2 parent2 counter2 hop2
          refine ⟨hh1, ⟨o2, by
            simp only [List.map_append, List.mem_append]
            exact Or.inl ho2, hcr, hid2, hlt⟩, ?_⟩
          rcases hh3 with hh | ⟨o3, ho3, hcr3, hid3, hlt3⟩
          · exact Or.inl hh
          · exact Or.inr ⟨o3, by
              simp only [List.map_append, List.mem_append]
              exact Or.inl ho3, hcr3, hid3, hlt3⟩
      · subst ho
        refine ⟨hidR, ?_, ?_⟩
        · intro parent2 hop2
          injection hop2 with hpp
          subst hpp
          rcases hpar with hh | hh
          · exact Or.inl hh
          · rcases (hkeys parent).mp hh with ⟨hh2, _⟩ | hh2
            · exact Or.inl hh2
            · obtain ⟨w2, hw2, p2, hw2op, hw2id⟩ := createIdsW_mem_iff.mp hh2
              refine Or.inr ⟨w2.op, ?_, ⟨p2, hw2op⟩, hw2id, ?_⟩
              · simp only [List.map_append, List.mem_append]
                exact Or.inl (List.mem_map.mpr ⟨w2, hw2, rfl⟩)
              · exact hidfresh w2 hw2
        · intro target2 parent2 counter2 hop2
          cases hop2
  · unfold keysOf
    exact assocInsert_keys_nodup (assocEntryOr_keys_nodup hnd parent none) id (some parent)
  · intro x
    rw [create_step_keys, createIdsW_append]
    have hnewc : createIdsW [(⟨⟨id, TreeOp.create parent⟩, none⟩ : OpWrapper)] = [id] := rfl
    rw [hnewc]
    constructor
    · rintro (hh | hh | hh)
      · rcases (hkeys x).mp hh with ⟨hh2, hh3⟩ | hh2
        · exact Or.inl ⟨hh2, by simp⟩
        · exact Or.inr (List.mem_append_left _ hh2)
      · subst hh
        rcases hpar with hh2 | hh2
        · exact Or.inl ⟨hh2, by simp⟩
        · rcases (hkeys x).mp hh2 with ⟨hh3, _⟩ | hh3
          · exact Or.inl ⟨hh3, by simp⟩
          · exact Or.inr (List.mem_append_left _ hh3)
      · subst hh
        exact Or.inr (List.mem_append_right _ (by simp))
    · rintro (⟨hh1, _⟩ | hh)
      · subst hh1
        by_cases hc : ROOT_ID ∈ keysOf t.tree
        · exact Or.inl hc
        · rcases hpar with hh2 | hh2
          · exact Or.inr (Or.inl hh2.symm)
          · exfalso
            rcases hok with hE | hNE
            · rw [hE] at hh2
              simp [keysOf] at hh2
            · exact hc (List.mem_map.mpr ⟨(ROOT_ID, none), hNE.2.1, rfl⟩)
      · rcases List.mem_append.mp hh with hh2 | hh2
        · exact Or.inl ((hkeys x).mpr (Or.inr hh2))
        · simp only [List.mem_singleton] at hh2
          exact Or.inr (Or.inr hh2)
  · refine ⟨assocInsert (assocEntryOr TM parent none) id (some parent), ?_, ?_⟩
    · rw [run_pending_append, hrun]
      have hstep : run_pending TM [(⟨⟨id, TreeOp.create parent⟩, none⟩ : OpWrapper)] =
          some (assocInsert (assocEntryOr TM parent none) id (some parent),
            [⟨⟨id, TreeOp.create parent⟩, none⟩]) := by
        rw [run_pending_create rfl, run_pending_nil]
        rfl
      rw [Option.some_bind, hstep]
      rfl
    · exact create_step_perm hperm hnd id parent

/-- Applying an honest local move preserves the Algorithm-M invariant and
always succeeds (the `assert!` and the guard cannot panic), logging exactly
the op. -/
theorem martin_apply_mov {t : MartinTree} (hinv : MInv t) {id target parent : NodeID}
    {counter : Nat} (hidR : id ≠ ROOT_ID)
    (hidfresh : ∀ w ∈ t.sorted_ops, NodeID.cmp w.op.id id = Ordering.lt)
    (htmem : target ∈ keysOf t.tree) (htR : target ≠ ROOT_ID)
    (hpar : parent = ROOT_ID ∨ parent ∈ keysOf t.tree) :
    ∃ t2, MartinTree.apply t ⟨id, TreeOp.move target parent counter⟩ =
        some (t2, [⟨id, TreeOp.move target parent counter⟩]) ∧
      MInv t2 ∧
      t2.sorted_ops = t.sorted_ops ++
        [⟨⟨id, TreeOp.move target parent counter⟩, pfOf t.tree target⟩] ∧
      (∀ x, x ∈ keysOf t2.tree ↔ x ∈ keysOf t.tree) := by
  obtain ⟨hend, hpw, hhon, hok, hnd, hkeys, TM, hrun, hperm⟩ := hinv
  have hNE : TreeRootedNE t.tree := by
    rcases hok with hE | h
    · exfalso
      rw [hE] at htmem
      simp [keysOf] at htmem
    · exact h
  have hcont : assocContains t.tree target = true := assocContains_iff.mpr htmem
  obtain ⟨g, hg⟩ := guard_total hNE hpar target
  have hndTM : (keysOf TM).Nodup := ((hperm.map _).nodup_iff).mp hnd
  have hgetTM : ∀ x, assocGet t.tree x = assocGet TM x := assocGet_perm hperm hnd
  have hpfTM : pfOf TM = pfOf t.tree := funext (fun x => pfOf_congr_of_get (hgetTM x).symm)
  have hlenTM : t.tree.length = TM.length := hperm.length_eq
  have hcontTM : assocContains TM target = true := by
    unfold assocContains at hcont ⊢
    rw [← hgetTM]
    exact hcont
  have hgTM : is_ancestor_of (pfOf TM) (TM.length + 2) target parent = some g := by
    rw [hpfTM, ← hlenTM]
    exact hg
  have hmovstep : ∀ (T1 : List (NodeID × Option NodeID)), t.tree.Perm T1 →
      run_pending T1 [(⟨⟨id, TreeOp.move target parent counter⟩, pfOf t.tree target⟩ :
          OpWrapper)] = (if g then
        some (T1, [⟨⟨id, TreeOp.move target parent counter⟩, pfOf T1 target⟩])
      else some (assocInsert T1 target (some parent),
        [⟨⟨id, TreeOp.move target parent counter⟩, pfOf T1 target⟩])) := by
    intro T1 hp1
    have hnd1 : (keysOf T1).Nodup := ((hp1.map _).nodup_iff).mp hnd
    have hget1 : ∀ x, assocGet t.tree x = assocGet T1 x := assocGet_perm hp1 hnd
    have hpf1 : pfOf T1 = pfOf t.tree := funext (fun x => pfOf_congr_of_get (hget1 x).symm)
    have hcont1 : assocContains T1 target = true := by
      unfold assocContains at hcont ⊢
      rw [← hget1]
      exact hcont
    have hg1 : is_ancestor_of (pfOf T1) (T1.length + 2) target parent = some g := by
      rw [hpf1, ← hp1.length_eq]
      exact hg
    rw [run_pending_move_go rfl hcont1 hg1, run_pending_nil]
    cases g
    · rw [if_neg (by simp), if_neg (by simp)]
      rfl
    · rw [if_pos rfl, if_pos rfl]
      rfl
  have hwold : pfOf TM target = pfOf t.tree target := by rw [hpfTM]
  cases g with
  | true =>
    refine ⟨MartinTree.mk t.tree (t.sorted_ops ++ [(⟨⟨id, TreeOp.move target parent counter⟩, pfOf t.tree target⟩ : OpWrapper)])
        (t.sorted_ops ++ [(⟨⟨id, TreeOp.move target parent counter⟩, pfOf t.tree target⟩ : OpWrapper)]).length, ?_, ?_, rfl, fun x => Iff.rfl⟩
    · rw [martin_apply_move_eq t rfl, martin_mov_eq t target parent hcont hg, if_pos rfl]
      rfl
    · refine ⟨rfl, ?_, ?_, hok, hnd, ?_, ?_⟩
      · rw [List.pairwise_append]
        refine ⟨hpw, List.pairwise_singleton _ _, ?_⟩
        intro a ha b hb
        simp only [List.mem_singleton] at hb
        subst hb
        exact hidfresh a ha
      · obtain ⟨hndU, hallU⟩ := hhon
        constructor
        · simp only [List.map_append, List.map_cons, List.map_nil]
          rw [List.nodup_append]
          refine ⟨hndU, List.nodup_singleton _, ?_⟩
          intro x hx
          simp only [List.mem_singleton]
          simp only [List.mem_map] at hx
          obtain ⟨o2, ho2, hid2⟩ := hx
          obtain ⟨w2, hw2, hw2o⟩ := ho2
          intro hc
          subst hc
          rw [← hw2o] at hid2
          exact NodeID.cmp_lt_ne (hidfresh w2 hw2) hid2
        · intro o ho
          simp only [List.map_append, List.map_cons, List.map_nil, List.mem_append,
            List.mem_singleton] at ho
          rcases ho with ho | ho
          · obtain ⟨h1, h2, h3⟩ := hallU o ho
            refine ⟨h1, ?_, ?_⟩
            · intro parent2 hop2
              rcases h2 parent2 hop2 with hh | ⟨o2, ho2, hcr, hid2, hlt⟩
              · exact Or.inl hh
              · exact Or.inr ⟨o2, by
                  simp only [List.map_append, List.mem_append]
                  exact Or.inl ho2, hcr, hid2, hlt⟩
            · intro target2 parent2 counter2 hop2
              obtain ⟨hh1, ⟨o2, ho2, hcr, hid2, hlt⟩, hh3⟩ := h3 target2 parent2 counter2 hop2
              refine ⟨hh1, ⟨o2, by
                simp only [List.map_append, List.mem_append]
                exact Or.inl ho2, hcr, hid2, hlt⟩, ?_⟩
              rcases hh3 with hh | ⟨o3, ho3, hcr3, hid3, hlt3⟩
              · exact Or.inl hh
              · exact Or.inr ⟨o3, by
                  simp only [List.map_append, List.mem_append]
                  exact Or.inl ho3, hcr3, hid3, hlt3⟩
          · subst ho
            refine ⟨hidR, ?_, ?_⟩
            · intro parent2 hop2
              cases hop2
            · intro target2 parent2 counter2 hop2
              injection hop2 with ht2 hp2 hc2
              subst ht2
              subst hp2
              have hwit : ∀ {y : NodeID}, y ∈ keysOf t.tree → y ≠ ROOT_ID →
                  ∃ o2 ∈ (t.sorted_ops.map (fun w => w.op)) ++
                    [(⟨id, TreeOp.move target parent counter⟩ : Op)],
                    (∃ p2, o2.op = TreeOp.create p2) ∧ o2.id = y ∧
                    NodeID.cmp o2.id id = Ordering.lt := by
                intro y hy hyR
                rcases (hkeys y).mp hy with ⟨hh2, _⟩ | hh2
                · exact absurd hh2 hyR
                · obtain ⟨w2, hw2, p2, hw2op, hw2id⟩ := createIdsW_mem_iff.mp hh2
                  refine ⟨w2.op, List.mem_append_left _ (List.mem_map.mpr ⟨w2, hw2, rfl⟩),
                    ⟨p2, hw2op⟩, hw2id, hidfresh w2 hw2⟩
              simp only [List.map_append, List.map_cons, List.map_nil]
              refine ⟨htR, hwit htmem htR, ?_⟩
              rcases hpar with hh | hh
              · exact Or.inl hh
              · by_cases hpR : parent = ROOT_ID
                · exact Or.inl hpR
                · exact Or.inr (hwit hh hpR)
      · intro x
        rw [createIdsW_append]
        have hm : createIdsW
            [(⟨⟨id, TreeOp.move target parent counter⟩, pfOf t.tree target⟩ : OpWrapper)] =
            [] := rfl
        rw [hm, List.append_nil]
        exact hkeys x
      · refine ⟨TM, ?_, hperm⟩
        rw [run_pending_append, hrun, Option.some_bind, hmovstep TM hperm, if_pos rfl, hwold]
        rfl
  | false =>
    refine ⟨MartinTree.mk (assocInsert t.tree target (some parent))
        (t.sorted_ops ++ [(⟨⟨id, TreeOp.move target parent counter⟩, pfOf t.tree target⟩ : OpWrapper)])
        (t.sorted_ops ++ [(⟨⟨id, TreeOp.move target parent counter⟩, pfOf t.tree target⟩ : OpWrapper)]).length, ?_, ?_, rfl, ?_⟩
    · rw [martin_apply_move_eq t rfl, martin_mov_eq t target parent hcont hg,
        if_neg (by simp)]
      rfl
    · have hrooted2 : TreeRootedNE (assocInsert t.tree target (some parent)) :=
        move_step_rooted hNE htmem htR hpar hg
      refine ⟨rfl, ?_, ?_, Or.inr hrooted2, ?_, ?_, ?_⟩
      · rw [List.pairwise_append]
        refine ⟨hpw, List.pairwise_singleton _ _, ?_⟩
        intro a ha b hb
        simp only [List.mem_singleton] at hb
        subst hb
        exact hidfresh a ha
      · obtain ⟨hndU, hallU⟩ := hhon
        constructor
        · simp only [List.map_append, List.map_cons, List.map_nil]
          rw [List.nodup_append]
          refine ⟨hndU, List.nodup_singleton _, ?_⟩
          intro x hx
          simp only [List.mem_singleton]
          simp only [List.mem_map] at hx
          obtain ⟨o2, ho2, hid2⟩ := hx
          obtain ⟨w2, hw2, hw2o⟩ := ho2
          intro hc
          subst hc
          rw [← hw2o] at hid2
          exact NodeID.cmp_lt_ne (hidfresh w2 hw2) hid2
        · intro o ho
          simp only [List.map_append, List.map_cons, List.map_nil, List.mem_append,
            List.mem_singleton] at ho
          rcases ho with ho | ho
          · obtain ⟨h1, h2, h3⟩ := hallU o ho
            refine ⟨h1, ?_, ?_⟩
            · intro parent2 hop2
              rcases h2 parent2 hop2 with hh | ⟨o2, ho2, hcr, hid2, hlt⟩
              · exact Or.inl hh
              · exact Or.inr ⟨o2, by
                  simp only [List.map_append, List.mem_append]
                  exact Or.inl ho2, hcr, hid2, hlt⟩
            · intro target2 parent2 counter2 hop2
              obtain ⟨hh1, ⟨o2, ho2, hcr, hid2, hlt⟩, hh3⟩ := h3 target2 parent2 counter2 hop2
              refine ⟨hh1, ⟨o2, by
                simp only [List.map_append, List.mem_append]
                exact Or.inl ho2, hcr, hid2, hlt⟩, ?_⟩
              rcases hh3 with hh | ⟨o3, ho3, hcr3, hid3, hlt3⟩
              · exact Or.inl hh
              · exact Or.inr ⟨o3, by
                  simp only [List.map_append, List.mem_append]
                  exact Or.inl ho3, hcr3, hid3, hlt3⟩
          · subst ho
            refine ⟨hidR, ?_, ?_⟩
            · intro parent2 hop2
              cases hop2
            · intro target2 parent2 counter2 hop2
              injection hop2 with ht2 hp2 hc2
              subst ht2
              subst hp2
              have hwit : ∀ {y : NodeID}, y ∈ keysOf t.tree → y ≠ ROOT_ID →
                  ∃ o2 ∈ (t.sorted_ops.map (fun w => w.op)) ++
                    [(⟨id, TreeOp.move target parent counter⟩ : Op)],
                    (∃ p2, o2.op = TreeOp.create p2) ∧ o2.id = y ∧
                    NodeID.cmp o2.id id = Ordering.lt := by
                intro y hy hyR
                rcases (hkeys y).mp hy with ⟨hh2, _⟩ | hh2
                · exact absurd hh2 hyR
                · obtain ⟨w2, hw2, p2, hw2op, hw2id⟩ := createIdsW_mem_iff.mp hh2
                  refine ⟨w2.op, List.mem_append_left _ (List.mem_map.mpr ⟨w2, hw2, rfl⟩),
                    ⟨p2, hw2op⟩, hw2id, hidfresh w2 hw2⟩
              simp only [List.map_append, List.map_cons, List.map_nil]
              refine ⟨htR, hwit htmem htR, ?_⟩
              rcases hpar with hh | hh
              · exact Or.inl hh
              · by_cases hpR : parent = ROOT_ID
                · exact Or.inl hpR
                · exact Or.inr (hwit hh hpR)
      · unfold keysOf
        exact assocInsert_keys_nodup hnd target (some parent)
      · intro x
        rw [createIdsW_append]
        have hm : createIdsW
            [(⟨⟨id, TreeOp.move target parent counter⟩, pfOf t.tree target⟩ : OpWrapper)] =
            [] := rfl
        rw [hm, List.append_nil]
        unfold keysOf
        rw [assocInsert_mem_keys_iff]
        constructor
        · rintro (hh | hh)
          · exact (hkeys x).mp hh
          · subst hh
            exact (hkeys x).mp htmem
        · intro hh
          exact Or.inl ((hkeys x).mpr hh)
      · refine ⟨assocInsert TM target (some parent), ?_, assocInsert_perm hperm hnd _ _⟩
        rw [run_pending_append, hrun, Option.some_bind, hmovstep TM hperm,
          if_neg (by simp), hwold]
        rfl
    · intro x
      show x ∈ keysOf (assocInsert t.tree target (some parent)) ↔ x ∈ keysOf t.tree
      unfold keysOf
      rw [assocInsert_mem_keys_iff]
      constructor
      · rintro (hh | hh)
        · exact hh
        · subst hh
          exact htmem
      · intro hh
        exact Or.inl hh

/-- `StepsOK` only inspects the `.op` fields of the wrappers. -/
theorem stepsOK_map_op_congr {ev : NodeID → Option NodeID} :
    ∀ {L L2 : List OpWrapper} {avail E : List NodeID},
      StepsOK ev avail E L → L.map (fun w => w.op) = L2.map (fun w => w.op) →
      StepsOK ev avail E L2 := by
  intro L
  induction L with
  | nil =>
    intro L2 avail E h heq
    cases L2 with
    | nil =>
      cases h
      exact StepsOK.nil avail
    | cons w2 r2 => simp at heq
  | cons w L ih =>
    intro L2 avail E h heq
    cases L2 with
    | nil => simp at heq
    | cons w2 r2 =>
      simp only [List.map_cons, List.cons.injEq] at heq
      obtain ⟨hop2, hrest2⟩ := heq
      cases h with
      | create _ parent hop hidR hfresh hpar hev hrest =>
        refine StepsOK.create w2 parent ?_ ?_ ?_ hpar ?_ ?_
        · rw [← hop2]; exact hop
        · rw [← hop2]; exact hidR
        · rw [← hop2]; exact hfresh
        · rw [← hop2]; exact hev
        · rw [← hop2]; exact ih hrest hrest2
      | move _ target parent counter hop ht htR hpar hrest =>
        refine StepsOK.move w2 target parent counter ?_ ht htR hpar (ih hrest hrest2)
        rw [← hop2]; exact hop

/-- Wrapping ops as fresh pending wrappers and projecting back is the
identity. -/
theorem map_op_mk_none (l : List Op) :
    (l.map (fun o2 => (⟨o2, none⟩ : OpWrapper))).map (fun w => w.op) = l := by
  induction l with
  | nil => rfl
  | cons a l ih =>
    simp only [List.map_cons]
    rw [ih]

/-- `MartinTree::apply_pending_ops` on a state whose applied window is exactly
the prefix replays the suffix from the current tree. -/
theorem apply_pending_ops_eq (T : List (NodeID × Option NodeID)) (pre suf : List OpWrapper) :
    MartinTree.apply_pending_ops
        { tree := T, sorted_ops := pre ++ suf, applied_end := pre.length } =
      (run_pending T suf).map (fun r =>
        { tree := r.1, sorted_ops := pre ++ r.2,
          applied_end := (pre ++ r.2).length }) := by
  unfold MartinTree.apply_pending_ops
  simp only [List.take_left, List.drop_left]

/-- A key absent from the key list has no entry. -/
theorem assocGet_not_key {T : List (NodeID × Option NodeID)} {x : NodeID}
    (hx : x ∉ keysOf T) : assocGet T x = none := by
  apply assocGet_none_of_keys
  intro ql hql hcq
  exact hx (List.mem_map.mpr ⟨ql, hql, hcq.symm⟩)

/-- `MartinTree::revert_until` on an id absent from the log splits the log at
the sorted position and undoes the suffix from the top down. -/
theorem revert_until_eq (t : MartinTree) (id : NodeID)
    (h : ¬ ((t.sorted_ops.map (fun w => w.op.id)).contains id = true)) :
    t.revert_until id = some
      ({ tree := (t.sorted_ops.dropWhile
            (fun w => NodeID.cmp w.op.id id = Ordering.lt)).reverse.foldl undoStep t.tree,
         sorted_ops := t.sorted_ops.takeWhile (fun w => NodeID.cmp w.op.id id = Ordering.lt),
         applied_end := (t.sorted_ops.takeWhile
            (fun w => NodeID.cmp w.op.id id = Ordering.lt)).length },
       (t.sorted_ops.dropWhile (fun w => NodeID.cmp w.op.id id = Ordering.lt)).map
         (fun w => w.op)) := by
  unfold MartinTree.revert_until
  rw [if_neg h]
  simp only [take_length_takeWhile, drop_length_takeWhile]
  rfl

/-- `MartinTree::merge` of an honest fresh batch always succeeds, preserves
the Algorithm-M invariant, and the new log holds exactly the old ops plus the
batch (up to order). -/
theorem martin_merge_pres {t : MartinTree} (hinv : MInv t) {batch : List Op}
    (hhon2 : HonestOps ((t.sorted_ops.map (fun w => w.op)) ++ batch)) :
    ∃ t2, MartinTree.merge t batch = some t2 ∧ MInv t2 ∧
      (t2.sorted_ops.map (fun w => w.op)).Perm
        ((t.sorted_ops.map (fun w => w.op)) ++ batch) := by
  obtain ⟨hend, hpw, hhon, hok, hnd, hkeys, TM, hrun, hperm⟩ := hinv
  cases batch with
  | nil =>
    exact ⟨t, rfl, ⟨hend, hpw, hhon, hok, hnd, hkeys, TM, hrun, hperm⟩,
      by rw [List.append_nil]⟩
  | cons o rest =>
    obtain ⟨hmin_mem, hmin_le⟩ := opsMin_spec rest o
    have hmrg : MartinTree.merge t (o :: rest) =
        (t.revert_until (opsMin o rest).id).bind (fun r =>
          MartinTree.apply_pending_ops (MartinTree.mk r.1.tree
            (r.1.sorted_ops ++
              (sortOps ((o :: rest) ++ r.2)).map (fun o2 => OpWrapper.mk o2 none))
            r.1.applied_end)) := rfl
    have hmapid : (t.sorted_ops.map (fun w => w.op)).map (fun o2 => o2.id) =
        t.sorted_ops.map (fun w => w.op.id) := by
      rw [List.map_map]
      rfl
    have hdisj : ∀ x, x ∈ t.sorted_ops.map (fun w => w.op.id) →
        x ∈ (o :: rest).map (fun o2 => o2.id) → False := by
      have h1 := hhon2.1
      rw [List.map_append, List.nodup_append] at h1
      intro x hx1 hx2
      rw [← hmapid] at hx1
      exact h1.2.2 hx1 hx2
    have hSnotin : (opsMin o rest).id ∉ t.sorted_ops.map (fun w => w.op.id) := by
      intro hc
      exact hdisj _ hc (List.mem_map.mpr ⟨_, hmin_mem, rfl⟩)
    have hguardP : ¬ ((t.sorted_ops.map (fun w => w.op.id)).contains (opsMin o rest).id
        = true) := by
      simpa using hSnotin
    obtain ⟨kept, hkeptw⟩ : ∃ k, t.sorted_ops.takeWhile
        (fun w => NodeID.cmp w.op.id (opsMin o rest).id = Ordering.lt) = k := ⟨_, rfl⟩
    obtain ⟨ans, hansw⟩ : ∃ a, t.sorted_ops.dropWhile
        (fun w => NodeID.cmp w.op.id (opsMin o rest).id = Ordering.lt) = a := ⟨_, rfl⟩
    have hrev := revert_until_eq t (opsMin o rest).id hguardP
    rw [hkeptw, hansw] at hrev
    have hka : kept ++ ans = t.sorted_ops := by
      rw [← hkeptw, ← hansw]
      exact List.takeWhile_append_dropWhile _ _
    have hkept_lt : ∀ w ∈ kept, NodeID.cmp w.op.id (opsMin o rest).id = Ordering.lt := by
      intro w hw
      rw [← hkeptw] at hw
      simpa using List.mem_takeWhile_imp hw
    have hans_nlt : ∀ w ∈ ans, NodeID.cmp w.op.id (opsMin o rest).id ≠ Ordering.lt := by
      intro w hw
      rw [← hansw] at hw
      exact dropWhile_not_lt t.sorted_ops hpw w hw
    have hpw2 := hpw
    rw [← hka, List.pairwise_append] at hpw2
    obtain ⟨hpwK, hpwA, hcross⟩ := hpw2
    have hOpsEq : t.sorted_ops.map (fun w => w.op) =
        kept.map (fun w => w.op) ++ ans.map (fun w => w.op) := by
      rw [← hka, List.map_append]
    have hrun2 := hrun
    rw [← hka, run_pending_append] at hrun2
    cases hk : run_pending [] kept with
    | none =>
      rw [hk] at hrun2
      exact absurd hrun2 (by simp)
    | some rk =>
      obtain ⟨TK, WK⟩ := rk
      rw [hk, Option.some_bind] at hrun2
      cases hA : run_pending TK ans with
      | none =>
        rw [hA] at hrun2
        exact absurd hrun2 (by simp)
      | some ra =>
        obtain ⟨TA, WA⟩ := ra
        rw [hA] at hrun2
        have hrun3 : (some (TA, WK ++ WA) : Option _) = some (TM, kept ++ ans) := hrun2
        injection hrun3 with h3
        injection h3 with hTA hW
        have hlen : WK.length = kept.length := by
          have h4 := congrArg List.length (run_pending_wrappers kept [] TK WK hk)
          simpa using h4
        obtain ⟨hWK, hWA⟩ := List.append_inj hW hlen
        have hWK2 := hWK.symm
        have hWA2 := hWA.symm
        have hTA2 := hTA.symm
        subst hWK2
        subst hWA2
        subst hTA2
        obtain ⟨U, hU⟩ : ∃ u, ans.reverse.foldl undoStep TM = u := ⟨_, rfl⟩
        have hndTM : (keysOf TM).Nodup := ((hperm.map _).nodup_iff).mp hnd
        have hokTM : MTreeOK TM := by
          rcases hok with hE0 | hNE
          · left
            have h5 := hperm
            rw [hE0] at h5
            exact h5.symm.eq_nil
          · right
            exact TreeRootedNE_perm hperm hNE
        have hkmono : ∀ x ∈ keysOf TK, x ∈ keysOf TM :=
          run_pending_keys_mono ans TK TM ans hA
        have hkeysTM : ∀ x, x ∈ keysOf TM ↔
            (x = ROOT_ID ∧ createIdsW t.sorted_ops ≠ []) ∨ x ∈ createIdsW t.sorted_ops :=
          fun x => ((hperm.map _).mem_iff).symm.trans (hkeys x)
        have hmemK : ∀ {o2 : Op}, o2 ∈ kept.map (fun w => w.op) →
            o2 ∈ t.sorted_ops.map (fun w => w.op) := by
          intro o2 h2
          rw [hOpsEq]
          exact List.mem_append_left _ h2
        have hmemA : ∀ {o2 : Op}, o2 ∈ ans.map (fun w => w.op) →
            o2 ∈ t.sorted_ops.map (fun w => w.op) := by
          intro o2 h2
          rw [hOpsEq]
          exact List.mem_append_right _ h2
        have hwitK : ∀ {o2 : Op} {y : NodeID}, o2 ∈ kept.map (fun w => w.op) →
            (∃ o3 ∈ t.sorted_ops.map (fun w => w.op), (∃ p2, o3.op = TreeOp.create p2) ∧
              o3.id = y ∧ NodeID.cmp o3.id o2.id = Ordering.lt) →
            (∃ o3 ∈ kept.map (fun w => w.op), (∃ p2, o3.op = TreeOp.create p2) ∧
              o3.id = y ∧ NodeID.cmp o3.id o2.id = Ordering.lt) := by
          rintro o2 y ho2 ⟨o3, ho3, hcr3, hid3, hlt3⟩
          rw [hOpsEq] at ho3
          rcases List.mem_append.mp ho3 with h6 | h6
          · exact ⟨o3, h6, hcr3, hid3, hlt3⟩
          · exfalso
            obtain ⟨wa, hwa, hwa3⟩ := List.mem_map.mp h6
            obtain ⟨wk, hwk, hwk2⟩ := List.mem_map.mp ho2
            have hlt4 : NodeID.cmp wa.op.id wk.op.id = Ordering.lt := by
              rw [hwa3, hwk2]
              exact hlt3
            exact hans_nlt wa hwa (NodeID.cmp_lt_trans hlt4 (hkept_lt wk hwk))
        have hc4K : ∀ o2 ∈ kept.map (fun w => w.op), ∀ parent,
            o2.op = TreeOp.create parent →
            parent = ROOT_ID ∨ parent ∈ ([] : List NodeID) ∨
            (∃ o3 ∈ kept.map (fun w => w.op), (∃ p2, o3.op = TreeOp.create p2) ∧
              o3.id = parent ∧ NodeID.cmp o3.id o2.id = Ordering.lt) := by
          intro o2 h2 parent hop
          rcases (hhon.2 o2 (hmemK h2)).2.1 parent hop with hR | hwit
          · exact Or.inl hR
          · exact Or.inr (Or.inr (hwitK h2 hwit))
        have hc5K : ∀ o2 ∈ kept.map (fun w => w.op), ∀ target parent counter,
            o2.op = TreeOp.move target parent counter →
            target ≠ ROOT_ID ∧
            (target ∈ ([] : List NodeID) ∨
              (∃ o3 ∈ kept.map (fun w => w.op), (∃ p2, o3.op = TreeOp.create p2) ∧
                o3.id = target ∧ NodeID.cmp o3.id o2.id = Ordering.lt)) ∧
            (parent = ROOT_ID ∨ parent ∈ ([] : List NodeID) ∨
              (∃ o3 ∈ kept.map (fun w => w.op), (∃ p2, o3.op = TreeOp.create p2) ∧
                o3.id = parent ∧ NodeID.cmp o3.id o2.id = Ordering.lt)) := by
          intro o2 h2 target parent counter hop
          obtain ⟨htR, hwt, hwp⟩ := (hhon.2 o2 (hmemK h2)).2.2 target parent counter hop
          refine ⟨htR, Or.inr (hwitK h2 hwt), ?_⟩
          rcases hwp with hR | hwit
          · exact Or.inl hR
          · exact Or.inr (Or.inr (hwitK h2 hwit))
        have hstepsK : StepsOK (pfOf U) [] [] kept := by
          refine stepsOK_map_op_congr (stepsOK_of_sorted (pfOf U) (kept.map (fun w => w.op))
            [] [] (List.pairwise_map.mpr hpwK) (fun o2 h2 => (hhon.2 o2 (hmemK h2)).1)
            (fun o2 _ => List.not_mem_nil _) hc4K hc5K
            (fun x hx => absurd hx (List.not_mem_nil x))) ?_
          rw [List.map_map, List.map_map]
          rfl
        have hrelnil : RelE [] (pfOf U) [] [] :=
          ⟨List.nodup_nil, List.nodup_nil, fun x _ => rfl,
            fun x => by simp [keysOf], fun x hx => absurd hx (List.not_mem_nil x)⟩
        obtain ⟨RK0, RK0b, WK0, hr1, hr2, hokK, hrelK, hWK0ops, hkeysK⟩ :=
          run_pending_main (pfOf U) kept [] [] [] [] hstepsK (Or.inl rfl) hrelnil
            (fun x hx => absurd hx (List.not_mem_nil x))
            (fun x hx => by simp [keysOf] at hx)
        rw [hk] at hr1
        injection hr1 with hr1e
        injection hr1e with hRK0 hWK0e
        subst hRK0
        subst hWK0e
        have hkeysTK : ∀ x, x ∈ keysOf TK ↔
            (x = ROOT_ID ∧ createIdsW kept ≠ []) ∨ x ∈ createIdsW kept := by
          intro x
          rw [hkeysK x]
          simp [keysOf]
        have hndTK : (keysOf TK).Nodup := hrelK.1
        have havK : ∀ x ∈ createIdsW kept, x ∈ keysOf TK :=
          fun x hx => (hkeysTK x).mpr (Or.inr hx)
        have hcovK : ∀ x ∈ keysOf TK, x = ROOT_ID ∨ x ∈ createIdsW kept := by
          intro x hx
          rcases (hkeysTK x).mp hx with ⟨h5, _⟩ | h5
          · exact Or.inl h5
          · exact Or.inr h5
        have hwitA : ∀ {o2 : Op} {y : NodeID},
            (∃ o3 ∈ t.sorted_ops.map (fun w => w.op), (∃ p2, o3.op = TreeOp.create p2) ∧
              o3.id = y ∧ NodeID.cmp o3.id o2.id = Ordering.lt) →
            y ∈ createIdsW kept ∨
            (∃ o3 ∈ ans.map (fun w => w.op), (∃ p2, o3.op = TreeOp.create p2) ∧
              o3.id = y ∧ NodeID.cmp o3.id o2.id = Ordering.lt) := by
          rintro o2 y ⟨o3, ho3, hcr3, hid3, hlt3⟩
          rw [hOpsEq] at ho3
          rcases List.mem_append.mp ho3 with h6 | h6
          · left
            obtain ⟨wk, hwk, hwk3⟩ := List.mem_map.mp h6
            obtain ⟨p2, hp2⟩ := hcr3
            refine createIdsW_mem_iff.mpr ⟨wk, hwk, p2, ?_, ?_⟩
            · rw [hwk3]
              exact hp2
            · rw [hwk3]
              exact hid3
          · right
            exact ⟨o3, h6, hcr3, hid3, hlt3⟩
        have hc3A : ∀ o2 ∈ ans.map (fun w => w.op), o2.id ∉ createIdsW kept := by
          intro o2 h2 hx
          obtain ⟨wa, hwa, hwa2⟩ := List.mem_map.mp h2
          obtain ⟨wk, hwk, pk, hcrk, hidk⟩ := createIdsW_mem_iff.mp hx
          apply NodeID.cmp_lt_ne (hcross wk hwk wa hwa)
          rw [hidk, ← hwa2]
        have hc4A : ∀ o2 ∈ ans.map (fun w => w.op), ∀ parent,
            o2.op = TreeOp.create parent →
            parent = ROOT_ID ∨ parent ∈ createIdsW kept ∨
            (∃ o3 ∈ ans.map (fun w => w.op), (∃ p2, o3.op = TreeOp.create p2) ∧
              o3.id = parent ∧ NodeID.cmp o3.id o2.id = Ordering.lt) := by
          intro o2 h2 parent hop
          rcases (hhon.2 o2 (hmemA h2)).2.1 parent hop with hR | hwit
          · exact Or.inl hR
          · rcases hwitA hwit with h6 | h6
            · exact Or.inr (Or.inl h6)
            · exact Or.inr (Or.inr h6)
        have hc5A : ∀ o2 ∈ ans.map (fun w => w.op), ∀ target parent counter,
            o2.op = TreeOp.move target parent counter →
            target ≠ ROOT_ID ∧
            (target ∈ createIdsW kept ∨
              (∃ o3 ∈ ans.map (fun w => w.op), (∃ p2, o3.op = TreeOp.create p2) ∧
                o3.id = target ∧ NodeID.cmp o3.id o2.id = Ordering.lt)) ∧
            (parent = ROOT_ID ∨ parent ∈ createIdsW kept ∨
              (∃ o3 ∈ ans.map (fun w => w.op), (∃ p2, o3.op = TreeOp.create p2) ∧
                o3.id = parent ∧ NodeID.cmp o3.id o2.id = Ordering.lt)) := by
          intro o2 h2 target parent counter hop
          obtain ⟨htR, hwt, hwp⟩ := (hhon.2 o2 (hmemA h2)).2.2 target parent counter hop
          refine ⟨htR, ?_, ?_⟩
          · rcases hwitA hwt with h6 | h6
            · exact Or.inl h6
            · exact Or.inr h6
          · rcases hwp with hR | hwit
            · exact Or.inl hR
            · rcases hwitA hwit with h6 | h6
              · exact Or.inr (Or.inl h6)
              · exact Or.inr (Or.inr h6)
        have hstepsA : StepsOK (pfOf U) (createIdsW kept) [] ans := by
          refine stepsOK_map_op_congr (stepsOK_of_sorted (pfOf U) (ans.map (fun w => w.op))
            (createIdsW kept) [] (List.pairwise_map.mpr hpwA)
            (fun o2 h2 => (hhon.2 o2 (hmemA h2)).1) hc3A hc4A hc5A
            (fun x hx => absurd hx (List.not_mem_nil x))) ?_
          rw [List.map_map, List.map_map]
          rfl
        obtain ⟨u1, u2, u3, u4, u5⟩ :=
          run_pending_undo ans TK TM ans (createIdsW kept) [] hstepsA havK hA
        rw [hU] at u1 u2 u3 u4 u5
        have hndU : (keysOf U).Nodup := u5 hndTM
        have hrootTK : ROOT_ID ∈ keysOf TK → assocGet TK ROOT_ID = some none := by
          intro hmem
          rcases hokK with hE0 | hNE
          · rw [hE0] at hmem
            simp [keysOf] at hmem
          · exact assocGet_nodup_mem hNE.1 hNE.2.1
        have hrootTM : ROOT_ID ∈ keysOf TM → assocGet TM ROOT_ID = some none := by
          intro hmem
          rcases hokTM with hE0 | hNE
          · rw [hE0] at hmem
            simp [keysOf] at hmem
          · exact assocGet_nodup_mem hNE.1 hNE.2.1
        obtain ⟨E, hEdef⟩ : ∃ e, (keysOf TM).filter (fun x => decide (x ∉ keysOf TK)) = e :=
          ⟨_, rfl⟩
        have hEmem : ∀ x, x ∈ E ↔ x ∈ keysOf TM ∧ x ∉ keysOf TK := by
          intro x
          rw [← hEdef, List.mem_filter]
          simp
        have hCK_ne_root : ∀ x ∈ createIdsW kept, x ≠ ROOT_ID := by
          intro x hx
          obtain ⟨wk, hwk, pk, hcrk, hidk⟩ := createIdsW_mem_iff.mp hx
          rw [← hidk]
          exact (hhon.2 wk.op (hmemK (List.mem_map.mpr ⟨wk, hwk, rfl⟩))).1
        have hCK_not_ansC : ∀ x ∈ createIdsW kept, x ∉ createIdsW ans := by
          intro x hxk hxa
          obtain ⟨wk, hwk, pk, hcrk, hidk⟩ := createIdsW_mem_iff.mp hxk
          obtain ⟨wa, hwa, pa, hcra, hida⟩ := createIdsW_mem_iff.mp hxa
          exact NodeID.cmp_lt_ne (hcross wk hwk wa hwa) (hidk.trans hida.symm)
        have hrelM : RelE E (pfOf U) TK U := by
          refine ⟨hndTK, hndU, ?_, ?_, ?_⟩
          · intro x hx
            by_cases hxTK : x ∈ keysOf TK
            · rcases (hkeysTK x).mp hxTK with ⟨hxR, _⟩ | hxC
              · subst hxR
                rw [u4, hrootTM (hkmono _ hxTK), hrootTK hxTK]
              · exact u1 x (hCK_not_ansC x hxC) (hCK_ne_root x hxC)
            · have hxTM : x ∉ keysOf TM := by
                intro hc
                exact hx ((hEmem x).mpr ⟨hc, hxTK⟩)
              have hgU : assocGet U x = none :=
                assocGet_not_key (fun hc => hxTM ((u3 x).mp hc))
              have hgK : assocGet TK x = none := assocGet_not_key hxTK
              rw [hgU, hgK]
          · intro x
            rw [u3 x]
            constructor
            · intro hxTM
              by_cases hxTK : x ∈ keysOf TK
              · exact Or.inl hxTK
              · exact Or.inr ((hEmem x).mpr ⟨hxTM, hxTK⟩)
            · rintro (h6 | h6)
              · exact hkmono _ h6
              · exact ((hEmem x).mp h6).1
          · intro x hxE
            obtain ⟨hxTM, hxTK⟩ := (hEmem x).mp hxE
            have hxU : x ∈ keysOf U := (u3 x).mpr hxTM
            obtain ⟨kv, hkv, hkv1⟩ := List.mem_map.mp hxU
            have hget : assocGet U kv.1 = some kv.2 := assocGet_nodup_mem hndU hkv
            rw [hkv1] at hget
            refine ⟨hxTK, ?_, ?_⟩
            · rw [hget, pfOf_eq_value hget]
            · intro hxR
              subst hxR
              have hg2 : assocGet U ROOT_ID = some none := by
                rw [u4]
                exact hrootTM hxTM
              exact pfOf_eq_value hg2
        obtain ⟨spliced, hsplw⟩ : ∃ l, sortOps ((o :: rest) ++ ans.map (fun w => w.op)) = l :=
          ⟨_, rfl⟩
        have hsp_perm : spliced.Perm ((o :: rest) ++ ans.map (fun w => w.op)) := by
          rw [← hsplw]
          exact sortOps_perm _
        have hsp_sorted : List.Pairwise (fun a b => NodeID.cmp a.id b.id ≠ Ordering.gt)
            spliced := by
          rw [← hsplw]
          exact sortOps_sorted _
        have hndAll := hhon2.1
        rw [hOpsEq, List.append_assoc, List.map_append, List.nodup_append] at hndAll
        have hndAB : (((o :: rest) ++ ans.map (fun w => w.op)).map (fun o2 => o2.id)).Nodup :=
          (List.Perm.nodup_iff (List.perm_append_comm.map _)).mp hndAll.2.1
        have hndSp : (spliced.map (fun o2 => o2.id)).Nodup :=
          (List.Perm.nodup_iff (hsp_perm.map _)).mpr hndAB
        have hsp_lt : List.Pairwise (fun a b => NodeID.cmp a.id b.id = Ordering.lt) spliced :=
          pairwise_lt_of_sorted_nodup hsp_sorted hndSp
        have hsp_mem : ∀ {x : Op}, x ∈ spliced ↔
            x ∈ (o :: rest) ∨ x ∈ ans.map (fun w => w.op) := by
          intro x
          rw [hsp_perm.mem_iff, List.mem_append]
        have hmemU2 : ∀ {x : Op}, x ∈ spliced →
            x ∈ (t.sorted_ops.map (fun w => w.op)) ++ (o :: rest) := by
          intro x hx
          rcases hsp_mem.mp hx with h6 | h6
          · exact List.mem_append_right _ h6
          · exact List.mem_append_left _ (hmemA h6)
        have hc2S : ∀ o2 ∈ spliced, o2.id ≠ ROOT_ID :=
          fun o2 h2 => (hhon2.2 o2 (hmemU2 h2)).1
        have hc3S : ∀ o2 ∈ spliced, o2.id ∉ createIdsW kept := by
          intro o2 h2 hx
          obtain ⟨wk, hwk, pk, hcrk, hidk⟩ := createIdsW_mem_iff.mp hx
          rcases hsp_mem.mp h2 with h6 | h6
          · refine hdisj o2.id ?_ (List.mem_map.mpr ⟨o2, h6, rfl⟩)
            rw [← hmapid]
            exact List.mem_map.mpr ⟨wk.op, hmemK (List.mem_map.mpr ⟨wk, hwk, rfl⟩), hidk⟩
          · obtain ⟨wa, hwa, hwa2⟩ := List.mem_map.mp h6
            apply NodeID.cmp_lt_ne (hcross wk hwk wa hwa)
            rw [hidk, ← hwa2]
        have hwitS : ∀ {o2 : Op} {y : NodeID},
            (∃ o3 ∈ (t.sorted_ops.map (fun w => w.op)) ++ (o :: rest),
              (∃ p2, o3.op = TreeOp.create p2) ∧ o3.id = y ∧
                NodeID.cmp o3.id o2.id = Ordering.lt) →
            y ∈ createIdsW kept ∨
            (∃ o3 ∈ spliced, (∃ p2, o3.op = TreeOp.create p2) ∧ o3.id = y ∧
              NodeID.cmp o3.id o2.id = Ordering.lt) := by
          rintro o2 y ⟨o3, ho3, hcr3, hid3, hlt3⟩
          rcases List.mem_append.mp ho3 with h6 | h6
          · rw [hOpsEq] at h6
            rcases List.mem_append.mp h6 with h7 | h7
            · left
              obtain ⟨wk, hwk, hwk3⟩ := List.mem_map.mp h7
              obtain ⟨p2, hp2⟩ := hcr3
              refine createIdsW_mem_iff.mpr ⟨wk, hwk, p2, ?_, ?_⟩
              · rw [hwk3]
                exact hp2
              · rw [hwk3]
                exact hid3
            · right
              exact ⟨o3, hsp_mem.mpr (Or.inr h7), hcr3, hid3, hlt3⟩
          · right
            exact ⟨o3, hsp_mem.mpr (Or.inl h6), hcr3, hid3, hlt3⟩
        have hc4S : ∀ o2 ∈ spliced, ∀ parent, o2.op = TreeOp.create parent →
            parent = ROOT_ID ∨ parent ∈ createIdsW kept ∨
            (∃ o3 ∈ spliced, (∃ p2, o3.op = TreeOp.create p2) ∧ o3.id = parent ∧
              NodeID.cmp o3.id o2.id = Ordering.lt) := by
          intro o2 h2 parent hop
          rcases (hhon2.2 o2 (hmemU2 h2)).2.1 parent hop with hR | hwit
          · exact Or.inl hR
          · rcases hwitS hwit with h6 | h6
            · exact Or.inr (Or.inl h6)
            · exact Or.inr (Or.inr h6)
        have hc5S : ∀ o2 ∈ spliced, ∀ target parent counter,
            o2.op = TreeOp.move target parent counter →
            target ≠ ROOT_ID ∧
            (target ∈ createIdsW kept ∨
              (∃ o3 ∈ spliced, (∃ p2, o3.op = TreeOp.create p2) ∧ o3.id = target ∧
                NodeID.cmp o3.id o2.id = Ordering.lt)) ∧
            (parent = ROOT_ID ∨ parent ∈ createIdsW kept ∨
              (∃ o3 ∈ spliced, (∃ p2, o3.op = TreeOp.create p2) ∧ o3.id = parent ∧
                NodeID.cmp o3.id o2.id = Ordering.lt)) := by
          intro o2 h2 target parent counter hop
          obtain ⟨htR, hwt, hwp⟩ := (hhon2.2 o2 (hmemU2 h2)).2.2 target parent counter hop
          refine ⟨htR, ?_, ?_⟩
          · rcases hwitS hwt with h6 | h6
            · exact Or.inl h6
            · exact Or.inr h6
          · rcases hwp with hR | hwit
            · exact Or.inl hR
            · rcases hwitS hwit with h6 | h6
              · exact Or.inr (Or.inl h6)
              · exact Or.inr (Or.inr h6)
        have hc6S : ∀ x ∈ E,
            (x = ROOT_ID ∧ ∃ o2 ∈ spliced, o2.op = TreeOp.create ROOT_ID) ∨
            (∃ o2 ∈ spliced, ∃ p, o2.op = TreeOp.create p ∧ o2.id = x ∧
              pfOf U x = some p) := by
          intro x hxE
          obtain ⟨hxTM, hxTK⟩ := (hEmem x).mp hxE
          rcases (hkeysTM x).mp hxTM with ⟨hxR, hcrne⟩ | hxC
          · subst hxR
            left
            refine ⟨rfl, ?_⟩
            have hKnil : createIdsW kept = [] := by
              by_contra hKne
              exact hxTK ((hkeysTK ROOT_ID).mpr (Or.inl ⟨rfl, hKne⟩))
            have hkept_nil : kept = [] := by
              cases hkept0 : kept with
              | nil => rfl
              | cons wk kl =>
                exfalso
                have hwk : wk ∈ kept := by
                  rw [hkept0]
                  exact List.mem_cons_self _ _
                cases hopk : wk.op.op with
                | create p =>
                  have h8 : wk.op.id ∈ createIdsW kept :=
                    createIdsW_mem_iff.mpr ⟨wk, hwk, p, hopk, rfl⟩
                  rw [hKnil] at h8
                  simp at h8
                | move tg pr cn =>
                  obtain ⟨_, ⟨o3, ho3, hcr3, hid3, hlt3⟩, _⟩ :=
                    (hhon.2 wk.op (hmemK (List.mem_map.mpr ⟨wk, hwk, rfl⟩))).2.2 tg pr cn hopk
                  rw [hOpsEq] at ho3
                  rcases List.mem_append.mp ho3 with h7 | h7
                  · obtain ⟨wk3, hwk3, hwk3e⟩ := List.mem_map.mp h7
                    obtain ⟨p3, hp3⟩ := hcr3
                    have h8 : wk3.op.id ∈ createIdsW kept :=
                      createIdsW_mem_iff.mpr ⟨wk3, hwk3, p3, by rw [hwk3e]; exact hp3, rfl⟩
                    rw [hKnil] at h8
                    simp at h8
                  · obtain ⟨wa, hwa, hwae⟩ := List.mem_map.mp h7
                    apply hans_nlt wa hwa
                    refine NodeID.cmp_lt_trans ?_ (hkept_lt wk hwk)
                    rw [hwae]
                    exact hlt3
            have hansC : createIdsW ans ≠ [] := by
              intro hc
              apply hcrne
              rw [← hka, createIdsW_append, hKnil, hc]
              rfl
            obtain ⟨x0, hx0⟩ := List.exists_mem_of_ne_nil _ hansC
            obtain ⟨w0, hw0, p0, hcr0, hid0⟩ := createIdsW_mem_iff.mp hx0
            have hcr_ex : ∃ c ∈ spliced, ∃ p, c.op = TreeOp.create p :=
              ⟨w0.op, hsp_mem.mpr (Or.inr (List.mem_map.mpr ⟨w0, hw0, rfl⟩)), p0, hcr0⟩
            obtain ⟨c, hc, ⟨pc, hpc⟩, hcmin⟩ := exists_min_create spliced hcr_ex
            rcases (hhon2.2 c (hmemU2 hc)).2.1 pc hpc with hR | ⟨o3, ho3, hcr3, hid3, hlt3⟩
            · exact ⟨c, hc, by rw [hpc, hR]⟩
            · exfalso
              have ho3sp : o3 ∈ spliced := by
                rcases List.mem_append.mp ho3 with h7 | h7
                · rw [hOpsEq, hkept_nil] at h7
                  simp only [List.map_nil, List.nil_append] at h7
                  exact hsp_mem.mpr (Or.inr h7)
                · exact hsp_mem.mpr (Or.inl h7)
              exact hcmin o3 ho3sp hcr3 hlt3
          · right
            rw [← hka, createIdsW_append] at hxC
            rcases List.mem_append.mp hxC with h7 | h7
            · exact absurd (havK x h7) hxTK
            · obtain ⟨wa, hwa, pa, hcra, hida⟩ := createIdsW_mem_iff.mp h7
              refine ⟨wa.op, hsp_mem.mpr (Or.inr (List.mem_map.mpr ⟨wa, hwa, rfl⟩)),
                pa, hcra, hida, ?_⟩
              have hgw := u2 wa hwa pa hcra
              rw [hida] at hgw
              exact pfOf_eq_value hgw
        have hstepsS : StepsOK (pfOf U) (createIdsW kept) E
            (spliced.map (fun o2 => (⟨o2, none⟩ : OpWrapper))) :=
          stepsOK_of_sorted (pfOf U) spliced (createIdsW kept) E hsp_lt hc2S hc3S hc4S
            hc5S hc6S
        obtain ⟨RK, RU, W2, hrunK, hrunU, hokRK, hrelEnd, hW2ops, hkeysRK⟩ :=
          run_pending_main (pfOf U) (spliced.map (fun o2 => (⟨o2, none⟩ : OpWrapper)))
            TK U (createIdsW kept) E hstepsS hokK hrelM havK hcovK
        have hpermKU : RK.Perm RU := by
          obtain ⟨hn1, hn2, hagree, _, _⟩ := hrelEnd
          exact perm_of_assocGet_eq hn1 hn2 (fun x => (hagree x (List.not_mem_nil x)).symm)
        obtain ⟨hT2U, hndT2⟩ := undo_fold_perm ans.reverse hperm hnd
        rw [hU] at hT2U
        obtain ⟨RT, hrunT, hpermURT, hndRU⟩ :=
          run_pending_perm (spliced.map (fun o2 => (⟨o2, none⟩ : OpWrapper)))
            hT2U.symm hndU hrunU
        have hWspOps : ((spliced.map (fun o2 => (⟨o2, none⟩ : OpWrapper))).map
            (fun w => w.op)) = spliced := map_op_mk_none spliced
        have hW2spliced : W2.map (fun w => w.op) = spliced := by
          rw [hW2ops, hWspOps]
        have hP : ((kept ++ W2).map (fun w => w.op)).Perm
            ((t.sorted_ops.map (fun w => w.op)) ++ (o :: rest)) := by
          rw [List.map_append, hW2spliced, hOpsEq, List.append_assoc]
          exact List.Perm.append_left _ (hsp_perm.trans List.perm_append_comm)
        refine ⟨MartinTree.mk RT (kept ++ W2) (kept ++ W2).length, ?_, ?_, hP⟩
        · rw [hmrg, hrev, Option.some_bind]
          show MartinTree.apply_pending_ops
              (MartinTree.mk (ans.reverse.foldl undoStep t.tree)
                (kept ++ (sortOps ((o :: rest) ++ ans.map (fun w => w.op))).map
                  (fun o2 => OpWrapper.mk o2 none))
                kept.length) = _
          rw [apply_pending_ops_eq, hsplw, hrunT]
          rfl
        · refine ⟨rfl, ?_, ?_, ?_, ?_, ?_, ?_⟩
          · rw [List.pairwise_append]
            refine ⟨hpwK, ?_, ?_⟩
            · have h8 : List.Pairwise (fun a b => NodeID.cmp a.id b.id = Ordering.lt)
                  (W2.map (fun w => w.op)) := by
                rw [hW2spliced]
                exact hsp_lt
              exact List.pairwise_map.mp h8
            · intro a ha b hb
              have hbop : b.op ∈ spliced := by
                rw [← hW2spliced]
                exact List.mem_map.mpr ⟨b, hb, rfl⟩
              have halt := hkept_lt a ha
              rcases hsp_mem.mp hbop with h9 | h9
              · have h10 := hmin_le b.op h9
                cases h11 : NodeID.cmp (opsMin o rest).id b.op.id with
                | lt => exact NodeID.cmp_lt_trans halt h11
                | eq =>
                  rw [NodeID.cmp_eq_char.mp h11] at halt
                  exact halt
                | gt => exact absurd h11 h10
              · obtain ⟨wa, hwa, hwae⟩ := List.mem_map.mp h9
                have h10 := hans_nlt wa hwa
                cases h11 : NodeID.cmp wa.op.id (opsMin o rest).id with
                | lt => exact absurd h11 h10
                | eq =>
                  rw [← hwae, NodeID.cmp_eq_char.mp h11]
                  exact halt
                | gt =>
                  have h12 : NodeID.cmp (opsMin o rest).id wa.op.id = Ordering.lt := by
                    rw [← NodeID.cmp_swap, h11]
                    rfl
                  rw [← hwae]
                  exact NodeID.cmp_lt_trans halt h12
          · exact HonestOps_perm hP.symm hhon2
          · rcases hokRK with hE0 | hNE
            · left
              have h13 := hpermKU
              rw [hE0] at h13
              have h14 := h13.symm.eq_nil
              have h15 := hpermURT
              rw [h14] at h15
              exact h15.symm.eq_nil
            · right
              exact TreeRootedNE_perm (hpermKU.trans hpermURT) hNE
          · exact ((hpermURT.map _).nodup_iff).mp hndRU
          · intro x
            have hxRT : x ∈ keysOf RT ↔ x ∈ keysOf RK :=
              (((hpermKU.trans hpermURT).map _).mem_iff).symm
            have hcW2 : createIdsW W2 = createIdsW
                (spliced.map (fun o2 => (⟨o2, none⟩ : OpWrapper))) :=
              createIdsW_map_op_congr hW2ops
            show x ∈ keysOf RT ↔ _
            rw [hxRT, hkeysRK x, createIdsW_append, hcW2]
            constructor
            · rintro (h16 | ⟨h16, h17⟩ | h16)
              · rcases (hkeysTK x).mp h16 with ⟨h18, h19⟩ | h18
                · exact Or.inl ⟨h18, fun hc => h19 (List.append_eq_nil.mp hc).1⟩
                · exact Or.inr (List.mem_append_left _ h18)
              · exact Or.inl ⟨h16, fun hc => h17 (List.append_eq_nil.mp hc).2⟩
              · exact Or.inr (List.mem_append_right _ h16)
            · rintro (⟨h16, h17⟩ | h16)
              · by_cases hK : createIdsW kept = []
                · have hS : createIdsW
                      (spliced.map (fun o2 => (⟨o2, none⟩ : OpWrapper))) ≠ [] := by
                    intro hc
                    exact h17 (by rw [hK, hc]; rfl)
                  exact Or.inr (Or.inl ⟨h16, hS⟩)
                · exact Or.inl ((hkeysTK x).mpr (Or.inl ⟨h16, hK⟩))
              · rcases List.mem_append.mp h16 with h18 | h18
                · exact Or.inl ((hkeysTK x).mpr (Or.inr h18))
                · exact Or.inr (Or.inr h18)
          · refine ⟨RK, ?_, (hpermKU.trans hpermURT).symm⟩
            show run_pending [] (kept ++ W2) = some (RK, kept ++ W2)
            rw [run_pending_append, hk, Option.some_bind,
              run_pending_again (spliced.map (fun o2 => (⟨o2, none⟩ : OpWrapper)))
                TK RK W2 hrunK]
            rfl

/-! ## Algorithm-E rootedness: the recompute pass re-roots every node -/

/-- The parent function of an Algorithm-E node map. -/
def epfOf (nodes : List (NodeID × ENode)) (x : NodeID) : Option NodeID :=
  (assocGet nodes x).bind (fun n => n.parent)

theorem parent_eq_epfOf (t : EvanTree) : EvanTree.parent t = epfOf t.nodes := rfl

/-- The Algorithm-E parent map rendered by `get_root`. -/
theorem epfOf_eq_pfOf_strip (nodes : List (NodeID × ENode)) :
    epfOf nodes = pfOf (nodes.map (fun kv => (kv.1, kv.2.parent))) := by
  funext x
  induction nodes with
  | nil => rfl
  | cons kv rest ih =>
    obtain ⟨k, n⟩ := kv
    by_cases hk : k = x
    · subst hk
      simp [epfOf, pfOf, assocGet]
    · simp only [epfOf, pfOf, assocGet, List.map_cons] at ih ⊢
      rw [if_neg hk, if_neg hk]
      exact ih

theorem strip_keys (nodes : List (NodeID × ENode)) :
    (nodes.map (fun kv => (kv.1, kv.2.parent))).map (fun kv => kv.1) =
      nodes.map (fun kv => kv.1) := by
  rw [List.map_map]
  rfl

/-- A chain to `ROOT` all of whose nodes avoid `bad` gives rootedness avoiding
`bad`. -/
theorem RootedF_of_chain_avoid {pf : NodeID → Option NodeID} {bad : List NodeID}
    (hroot : ROOT_ID ∉ bad) :
    ∀ {l : List NodeID} {c : NodeID}, ChainL pf c l ROOT_ID →
      (∀ x ∈ l, x ∉ bad) → RootedF pf bad c := by
  intro l
  induction l with
  | nil =>
    intro c h hav
    have hc := ChainL_nil_eq h
    subst hc
    exact RootedF.root hroot
  | cons x l ih =>
    intro c h hav
    obtain ⟨hx, b, hb, hbc⟩ := ChainL_cons_inv h
    subst hx
    exact RootedF.step (hav x (List.mem_cons_self _ _)) hb
      (ih hbc (fun z hz => hav z (List.mem_cons_of_mem _ hz)))

/-- A true fueled reach-walk gives a parent chain to the destination. -/
theorem walk_reaches_rooted {t : EvanTree} :
    ∀ {fuel : Nat} {id : NodeID},
      EvanTree.walk_reaches t fuel id ROOT_ID = true → RootedF (epfOf t.nodes) [] id := by
  intro fuel
  induction fuel with
  | zero =>
    intro id h
    simp [EvanTree.walk_reaches] at h
  | succ fuel ih =>
    intro id h
    by_cases hid : id = ROOT_ID
    · subst hid
      exact RootedF.root (by simp)
    · rw [EvanTree.walk_reaches, if_neg hid] at h
      cases hp : EvanTree.parent t id with
      | none => rw [hp] at h; cases h
      | some p =>
        rw [hp] at h
        rw [parent_eq_epfOf] at hp
        exact RootedF.step (by simp) hp (ih h)

/-- The reach-walk finds `ROOT` along any short enough chain. -/
theorem walk_reaches_of_chain {t : EvanTree} :
    ∀ (l : List NodeID) {id : NodeID}, ChainL (epfOf t.nodes) id l ROOT_ID →
      ∀ (fuel : Nat), l.length + 1 ≤ fuel →
        EvanTree.walk_reaches t fuel id ROOT_ID = true := by
  intro l
  induction l with
  | nil =>
    intro id h fuel hfuel
    have hc := ChainL_nil_eq h
    subst hc
    cases fuel with
    | zero => omega
    | succ fuel =>
      rw [EvanTree.walk_reaches]
      rw [if_pos rfl]
  | cons x l ih =>
    intro id h fuel hfuel
    obtain ⟨hx, b, hb, hbc⟩ := ChainL_cons_inv h
    cases fuel with
    | zero => simp at hfuel
    | succ fuel =>
      by_cases hid : id = ROOT_ID
      · rw [EvanTree.walk_reaches, if_pos hid]
      · rw [EvanTree.walk_reaches, if_neg hid, parent_eq_epfOf, hb]
        refine ih hbc fuel ?_
        simp only [List.length_cons] at hfuel
        omega

/-- On duplicate-free maps `is_under_other _ ROOT` decides rootedness. -/
theorem is_under_iff_rooted {nodes : List (NodeID × ENode)}
    (hnd : (nodes.map (fun kv => kv.1)).Nodup) (id : NodeID) :
    EvanTree.is_under_other ⟨nodes⟩ id ROOT_ID = true ↔
      RootedF (epfOf nodes) [] id := by
  constructor
  · exact walk_reaches_rooted
  · intro h
    rw [epfOf_eq_pfOf_strip] at h
    have hnd2 : ((nodes.map (fun kv => (kv.1, kv.2.parent))).map
        (fun kv => kv.1)).Nodup := by
      rw [strip_keys]
      exact hnd
    obtain ⟨l, hchain, _, hlen⟩ := rooted_short_chain hnd2 h
    rw [← epfOf_eq_pfOf_strip] at hchain
    refine walk_reaches_of_chain l hchain _ ?_
    simp only [List.length_map] at hlen
    show l.length + 1 ≤ nodes.length + 2
    omega

/-- A nonempty id list has a `cmp`-minimal element. -/
theorem exists_min_id : ∀ (l : List NodeID), l ≠ [] →
    ∃ m ∈ l, ∀ y ∈ l, NodeID.cmp y m ≠ Ordering.lt := by
  intro l
  induction l with
  | nil => intro h; exact absurd rfl h
  | cons a l ih =>
    intro _
    by_cases hl : l = []
    · subst hl
      refine ⟨a, List.mem_cons_self _ _, ?_⟩
      intro y hy
      rcases List.mem_cons.mp hy with h1 | h1
      · subst h1
        rw [NodeID.cmp_refl]
        simp
      · simp at h1
    · obtain ⟨m, hm, hmin⟩ := ih hl
      by_cases hc : NodeID.cmp a m = Ordering.lt
      · refine ⟨a, List.mem_cons_self _ _, ?_⟩
        intro y hy
        rcases List.mem_cons.mp hy with h1 | h1
        · subst h1
          rw [NodeID.cmp_refl]
          simp
        · intro hlt
          exact hmin y h1 (NodeID.cmp_lt_trans hlt hc)
      · refine ⟨m, List.mem_cons_of_mem _ hm, ?_⟩
        intro y hy
        rcases List.mem_cons.mp hy with h1 | h1
        · subst h1
          exact hc
        · exact hmin y h1

/-! ## C5: tree-ness of honestly reached states -/

/-- Honest Algorithm-M histories: every locally applied op is stamped above
the whole log (the facade's fresh lamport), names an existing target/parent
(or `ROOT`) as the fuzz driver does, and every merged batch is causally
honest together with the log. -/
inductive MReach : MartinTree → Prop where
  | init : MReach MartinTree.new
  | create {t : MartinTree} {r : MartinTree × List Op} (id parent : NodeID)
      (h : MReach t) (hidR : id ≠ ROOT_ID)
      (hfresh : ∀ w ∈ t.sorted_ops, NodeID.cmp w.op.id id = Ordering.lt)
      (hpar : parent = ROOT_ID ∨ parent ∈ keysOf t.tree)
      (hr : MartinTree.apply t ⟨id, TreeOp.create parent⟩ = some r) : MReach r.1
  | mov {t : MartinTree} {r : MartinTree × List Op} (id target parent : NodeID)
      (counter : Nat) (h : MReach t) (hidR : id ≠ ROOT_ID)
      (hfresh : ∀ w ∈ t.sorted_ops, NodeID.cmp w.op.id id = Ordering.lt)
      (ht : target ∈ keysOf t.tree) (htR : target ≠ ROOT_ID)
      (hpar : parent = ROOT_ID ∨ parent ∈ keysOf t.tree)
      (hr : MartinTree.apply t ⟨id, TreeOp.move target parent counter⟩ = some r) :
      MReach r.1
  | merge {t t2 : MartinTree} (batch : List Op) (h : MReach t)
      (hhon : HonestOps ((t.sorted_ops.map (fun w => w.op)) ++ batch))
      (hr : MartinTree.merge t batch = some t2) : MReach t2

/-- Every honestly reached Algorithm-M state satisfies the full invariant. -/
theorem mreach_inv : ∀ {t : MartinTree}, MReach t → MInv t := by
  intro t h
  induction h with
  | init => exact MInv_new
  | create id parent h hidR hfresh hpar hr ih =>
    obtain ⟨t2, happ, hinv2, _, _⟩ := martin_apply_create ih hidR hfresh hpar
    rw [hr] at happ
    injection happ with happ
    have h1 : _ = t2 := congrArg Prod.fst happ
    rw [h1]
    exact hinv2
  | mov id target parent counter h hidR hfresh ht htR hpar hr ih =>
    obtain ⟨t2, happ, hinv2, _, _⟩ := martin_apply_mov ih hidR hfresh ht htR hpar
    rw [hr] at happ
    injection happ with happ
    have h1 : _ = t2 := congrArg Prod.fst happ
    rw [h1]
    exact hinv2
  | merge batch h hhon hr ih =>
    obtain ⟨t2, hmrg, hinv2, _⟩ := martin_merge_pres ih hhon
    rw [hr] at hmrg
    injection hmrg with hmrg
    rw [hmrg]
    exact hinv2

def c5fake : NodeID := ⟨7, 7⟩

def c5bad : MovableTree MartinTree × NodeID :=
  (MovableTree.create martinAlg (MovableTree.newTree martinAlg 0) (some c5fake)).getD
    (MovableTree.newTree martinAlg 0, ROOT_ID)

/-- C5 counterexample: the very first externally observable operation on a
fresh `Replica<MartinTree>` — a facade `create` naming the nonexistent parent
`7@7`, which the public API accepts — succeeds and leaves a parent map in
which `ROOT` is not present at all (Algorithm-M only inserts a placeholder
for `7@7`), refuting the unconditional per-operation claim. -/
theorem C5_counterexample :
    MovableTree.create martinAlg (MovableTree.newTree martinAlg 0) (some c5fake) =
      some c5bad ∧
    ROOT_ID ∉ keysOf c5bad.1.algorithm.tree ∧
    c5bad.1.algorithm.tree ≠ [] := by
  refine ⟨rfl, ?_, ?_⟩
  · decide
  · decide

/-- C5 (amended): rendering over either algorithm goes through
`TreeNode::from_state` on the parent map, and whenever that map is a proper
tree — keys duplicate-free, `(ROOT, None)` present, every key's parent chain
reaching `ROOT` — the render succeeds and emits exactly one root in which
every key appears exactly once.  Algorithm-M reaches only such states (or the
still-empty map) along honest histories: on every state reachable from
`MartinTree::default` by applies whose op id is stamped fresh above the log
and whose create parent / move target and parent name existing nodes (or
`ROOT`), and by merges of causally honest batches, the parent map is empty or
rooted with duplicate-free keys, so `get_root` emits exactly one root, no
node twice. -/
theorem C5_tree_invariant :
    (∀ state : List (NodeID × Option NodeID),
      (state.map (fun kv => kv.1)).Nodup →
      (ROOT_ID, (none : Option NodeID)) ∈ state →
      (∀ kv ∈ state, RootedF (pfOf state) [] kv.1) →
      ∃ root, TreeNode.from_state state = some root ∧
        root.renderedIds.Perm (state.map (fun kv => kv.1)) ∧
        root.renderedIds.Nodup) ∧
    (∀ t : MartinTree, MReach t →
      MTreeOK t.tree ∧
      (t.tree = [] ∨ ∃ root, MartinTree.get_root t = some root ∧
        root.renderedIds.Perm (keysOf t.tree) ∧
        root.renderedIds.Nodup ∧
        ROOT_ID ∈ root.renderedIds)) := by
  constructor
  · intro state hnd hmem hr
    obtain ⟨h1, h2⟩ := rooted_render_spec state hnd hmem hr
    exact ⟨_, h1, h2, (h2.nodup_iff).mpr hnd⟩
  · intro t h
    have hinv := mreach_inv h
    obtain ⟨_, _, _, hok, hnd, _, _⟩ := hinv
    refine ⟨hok, ?_⟩
    rcases hok with hE | hNE
    · exact Or.inl hE
    · right
      obtain ⟨hnd2, hmem, hr⟩ := hNE
      obtain ⟨h1, h2⟩ := rooted_render_spec t.tree hnd2 hmem
        (fun kv hkv => hr kv.1 (List.mem_map.mpr ⟨kv, hkv, rfl⟩))
      refine ⟨_, h1, h2, (h2.nodup_iff).mpr hnd2, ?_⟩
      exact h2.mem_iff.mpr (List.mem_map.mpr ⟨(ROOT_ID, none), hmem, rfl⟩)

def c5op : Op := ⟨⟨0, 0⟩, TreeOp.create ROOT_ID⟩

def c5w : MartinTree :=
  ((MartinTree.apply MartinTree.new c5op).getD (MartinTree.new, [])).1

theorem C5_witness :
    MTreeOK c5w.tree ∧
      (c5w.tree = [] ∨ ∃ root, MartinTree.get_root c5w = some root ∧
        root.renderedIds.Perm (keysOf c5w.tree) ∧
        root.renderedIds.Nodup ∧
        ROOT_ID ∈ root.renderedIds) :=
  C5_tree_invariant.2 c5w
    (MReach.create ⟨0, 0⟩ ROOT_ID MReach.init (by decide)
      (fun w hw => absurd hw (List.not_mem_nil w)) (Or.inl rfl) rfl)
